import Mathlib

/-!
A shallow embedding of `Encode` and `Decode` of the Go package `jsonb`.

The Go package `jsonb` (file `jsonb.go`) converts JSON text to a tagged binary
form and back.  Both directions are a single `for` loop over the input, driven
by an explicit stack `op` of `operation` records.

Conventions of the embedding:

* a byte is a `Nat` (inputs are lists of numbers below 256); a Go `string` and
  a Go `[]byte` are both `List Nat`;
* the stack `op` is a `List operation` whose **head is the top** `op[l-1]`;
* one iteration of the `for` loop, including the post statement `i++`, is one
  call of `encodeStep` / `decodeStep`; the loop itself is `encodeLoop` /
  `decodeLoop`, which recurse on a fuel argument that `Encode` / `Decode`
  choose large enough for every input;
* `fmt.Errorf(...)` values are the constructors of `Err`, one per format
  string, carrying the formatted arguments;
* a Go run-time panic (index or slice out of range) is the outcome `panic`;
* `strconv.ParseFloat`, `math.Float64bits`, `math.Float64frombits` and
  `fmt.Sprint` belong to the Go standard library; they are the fields of a
  `FloatLib` that `Encode` and `Decode` take as a parameter;
* `Decode` takes, next to the content of its slice argument, the bytes that
  lie behind it in the backing array up to the capacity: Go checks a slice
  expression on a slice against the capacity.

The file has three parts: the embedding of `jsonb.go`; the definitions the
properties are stated with (the successful iterations as a relation, reachable
loop states, a reference numeric library, JSON values with their text and
their bytes); the lemmas and the properties.  `Encode_fuel` and `Decode_fuel`
show that the fuel never runs out.
-/

namespace Jsonb

/-- The errors built by `fmt.Errorf` in `jsonb.go`, one constructor per format string. -/
inductive Err where
  /-- Message `"Exceesive characters at %d"` -/
  | excessiveChars (i : Nat)
  /-- Message `"Expected keyword '<kw>' at %d but string length isn't sufficient"` -/
  | keywordShort (kw : List Nat) (i : Nat)
  /-- Message `"Expected keyword '<kw>' at %d but found '%s'"` -/
  | keywordFound (kw : List Nat) (i : Nat) (found : List Nat)
  /-- Message `"Unexpected character %s at %d"` -/
  | unexpectedChar (c : Nat) (i : Nat)
  /-- Message `"Unexpected null byte at %d"` -/
  | nullByte (i : Nat)
  /-- Message `"Invalid number at %d"` -/
  | invalidNumber (start : Nat)
  /-- Message `"Expected values seperator or array closing braces, but found %s at %d"` -/
  | expectedArraySep (c : Nat) (i : Nat)
  /-- Message `"Expected new Key-Value pairs or object closing brackets, but found %s at %d"` -/
  | expectedKey (c : Nat) (i : Nat)
  /-- Message `"Expected Key-Value seperator, but found %s at %d"` -/
  | expectedKVSep (c : Nat) (i : Nat)
  /-- Message `"Unterminated operation %s, started at %d"` -/
  | unterminated (name : String) (start : Nat)
  /-- Message `"Exceesive bytes at %d"` -/
  | excessiveBytes (i : Nat)
  /-- Message `"Unknown byte %#.2x at %d"` -/
  | unknownByte (c : Nat) (i : Nat)
  deriving DecidableEq, Repr

/-- Outcome of a piece of Go code: a value, a returned `error`, a run-time
panic, or (for the fuelled loops only) exhausted fuel. -/
inductive Result (α : Type) where
  | ok (v : α)
  | error (e : Err)
  | panic
  | outOfFuel
  deriving DecidableEq, Repr

/-- The part of the Go standard library the codec calls.
`parseFloat s` is `math.Float64bits` of `strconv.ParseFloat(s, 64)`, or `none`
when `ParseFloat` returns a non-nil error; `formatFloat b` is
`fmt.Sprint(math.Float64frombits(b))`.  A `uint64` is below `2^64`. -/
structure FloatLib where
  parseFloat : List Nat → Option Nat
  formatFloat : Nat → List Nat
  parseFloat_lt : ∀ s b, parseFloat s = some b → b < 2 ^ 64

/-- The tag table `values` (a Go map; a missing key reads as the zero byte). -/
def values (k : String) : Nat :=
  if k = "false" then 0x1
  else if k = "null" then 0x2
  else if k = "true" then 0x3
  else if k = "object" then 0x4
  else if k = "array" then 0x5
  else if k = "number" then 0x6
  else if k = "string" then 0x7
  else 0

/-- The context kinds, `opType` with its `iota` constants. -/
inductive opType where
  | opLITERAL
  | opSTRING
  | opNUMBER
  | opARRAY
  | opOBJECT
  | opKEY
  | opKV_SEPERATOR
  deriving DecidableEq, Repr

open opType

/-- The numeric value of an `opType` constant. -/
def opType.toNat : opType → Nat
  | opLITERAL => 0
  | opSTRING => 1
  | opNUMBER => 2
  | opARRAY => 3
  | opOBJECT => 4
  | opKEY => 5
  | opKV_SEPERATOR => 6

/-- The array `opNames`. -/
def opNames : List String :=
  ["Literal", "String", "Number", "Array", "Object", "Object Key", "Object Key-Value seperator"]

/-- The struct `operation` (its field `Type` is `Typ` here). -/
structure operation where
  Typ : opType
  StartIndex : Nat
  deriving DecidableEq, Repr

/-- Condition `c == ' ' || c == '\t' || c == '\n' || c == '\r'` -/
abbrev isSpace (c : Nat) : Prop := c = 32 ∨ c = 9 ∨ c = 10 ∨ c = 13

/-- Condition `c > 47 && c < 58` -/
abbrev isDigit (c : Nat) : Prop := 47 < c ∧ c < 58

/-- The index expression `s[i]`, read under the loop guard `i < len(s)`. -/
def byteAt (s : List Nat) (i : Nat) : Nat := s[i]?.getD 0

/-- The Go slice expression `s[lo:hi]` on a value whose length (for a string)
or capacity (for a slice) is `s.length`: `none` is the run-time panic. -/
def slice (s : List Nat) (lo hi : Nat) : Option (List Nat) :=
  if lo ≤ hi ∧ hi ≤ s.length then some ((s.take hi).drop lo) else none

/-- Go `binary.BigEndian.AppendUint64`: the eight bytes of a `uint64`, most significant first. -/
def bigEndian64 (n : Nat) : List Nat :=
  [n / 2 ^ 56 % 256, n / 2 ^ 48 % 256, n / 2 ^ 40 % 256, n / 2 ^ 32 % 256,
   n / 2 ^ 24 % 256, n / 2 ^ 16 % 256, n / 2 ^ 8 % 256, n % 256]

/-- Go `binary.BigEndian.Uint64` on a slice of bytes. -/
def beUint64 (b : List Nat) : Nat :=
  b.foldl (fun acc x => acc * 256 + x) 0

/-- The text `false`. -/
def kwFalse : List Nat := [102, 97, 108, 115, 101]
/-- The text `true`. -/
def kwTrue : List Nat := [116, 114, 117, 101]
/-- The text `null`. -/
def kwNull : List Nat := [110, 117, 108, 108]

/-- The loop variables of `Encode`: index `i`, stack `op` (head = top), output `jsonb`. -/
structure EncState where
  i : Nat
  op : List operation
  jsonb : List Nat
  deriving DecidableEq, Repr

/-- The keyword cases `'f'`, `'t'`, `'n'` of the Literal context: the length
check, the comparison of `json[i:i+n]` with the keyword, then emit the tag,
skip the keyword and pop. -/
def encodeKeyword (json : List Nat) (kw : List Nat) (tag : Nat)
    (i : Nat) (rest : List operation) (out : List Nat) : Result EncState :=
  if json.length < i + kw.length then .error (.keywordShort kw i)
  else
    match slice json i (i + kw.length) with
    | none => .panic
    | some w =>
      if w ≠ kw then .error (.keywordFound kw i w)
      else .ok ⟨i + kw.length, rest, out ++ [tag]⟩

/-- Code of `case opLITERAL` of `Encode` (lines 59-121), with `top = op[l-1]`. -/
def encodeLiteral (json : List Nat) (i : Nat) (top : operation) (rest : List operation)
    (out : List Nat) : Result EncState :=
  let c := byteAt json i
  if isSpace c then .ok ⟨i + 1, top :: rest, out⟩
  else if c = 102 then encodeKeyword json kwFalse (values "false") i rest out
  else if c = 116 then encodeKeyword json kwTrue (values "true") i rest out
  else if c = 110 then encodeKeyword json kwNull (values "null") i rest out
  else if c = 34 then .ok ⟨i + 1, ⟨opSTRING, i⟩ :: rest, out ++ [values "string"]⟩
  else if c = 91 then
    .ok ⟨i + 1, ⟨opLITERAL, i + 1⟩ :: ⟨opARRAY, i⟩ :: rest, out ++ [values "array"]⟩
  else if c = 123 then
    .ok ⟨i + 1, ⟨opKEY, i + 1⟩ :: ⟨opOBJECT, i⟩ :: rest, out ++ [values "object"]⟩
  else if c = 93 then
    match rest with
    | parent :: rest2 =>
      if parent.Typ = opARRAY then .ok ⟨i + 1, rest2, out ++ [0x00]⟩
      else .ok ⟨i + 1, top :: rest, out⟩
    | [] => .ok ⟨i + 1, top :: rest, out⟩
  else if c = 45 ∨ isDigit c then .ok ⟨i + 1, ⟨opNUMBER, i⟩ :: rest, out ++ [values "number"]⟩
  else .error (.unexpectedChar c i)

/-- Code of `case opSTRING` of `Encode` (lines 122-130). -/
def encodeString (json : List Nat) (i : Nat) (top : operation) (rest : List operation)
    (out : List Nat) : Result EncState :=
  let c := byteAt json i
  if c = 0x00 then .error (.nullByte i)
  else if c = 34 then
    match slice json (top.StartIndex + 1) i with
    | none => .panic
    | some s => .ok ⟨i + 1, rest, out ++ s ++ [0x00]⟩
  else .ok ⟨i + 1, top :: rest, out⟩

/-- Code of `case opNUMBER` of `Encode` (lines 131-141); on a close, `i--` and the
post statement `i++` leave `i` where it is. -/
def encodeNumber (lib : FloatLib) (json : List Nat) (i : Nat) (top : operation)
    (rest : List operation) (out : List Nat) : Result EncState :=
  let c := byteAt json i
  if isDigit c ∨ c = 46 then .ok ⟨i + 1, top :: rest, out⟩
  else
    match slice json top.StartIndex i with
    | none => .panic
    | some s =>
      match lib.parseFloat s with
      | none => .error (.invalidNumber top.StartIndex)
      | some bits => .ok ⟨i, rest, out ++ bigEndian64 bits⟩

/-- Code of `case opARRAY` of `Encode` (lines 142-154). -/
def encodeArray (json : List Nat) (i : Nat) (top : operation) (rest : List operation)
    (out : List Nat) : Result EncState :=
  let c := byteAt json i
  if isSpace c then .ok ⟨i + 1, top :: rest, out⟩
  else if c = 93 then .ok ⟨i + 1, rest, out ++ [0x00]⟩
  else if c = 44 then .ok ⟨i + 1, ⟨opLITERAL, i + 1⟩ :: top :: rest, out⟩
  else .error (.expectedArraySep c i)

/-- Code of `case opKEY` of `Encode` (lines 155-168). -/
def encodeKey (json : List Nat) (i : Nat) (top : operation) (rest : List operation)
    (out : List Nat) : Result EncState :=
  let c := byteAt json i
  if isSpace c then .ok ⟨i + 1, top :: rest, out⟩
  else if c = 125 then .ok ⟨i + 1, rest, out ++ [0x00]⟩
  else if c = 34 then
    .ok ⟨i + 1, ⟨opSTRING, i⟩ :: ⟨opKV_SEPERATOR, top.StartIndex⟩ :: rest, out⟩
  else .error (.expectedKey c i)

/-- Code of `case opKV_SEPERATOR` of `Encode` (lines 169-177). -/
def encodeKVSeperator (json : List Nat) (i : Nat) (top : operation) (rest : List operation)
    (out : List Nat) : Result EncState :=
  let c := byteAt json i
  if isSpace c then .ok ⟨i + 1, top :: rest, out⟩
  else if c = 58 then .ok ⟨i + 1, ⟨opLITERAL, top.StartIndex⟩ :: rest, out⟩
  else .error (.expectedKVSep c i)

/-- Code of `case opOBJECT` of `Encode` (lines 178-190). -/
def encodeObject (json : List Nat) (i : Nat) (top : operation) (rest : List operation)
    (out : List Nat) : Result EncState :=
  let c := byteAt json i
  if isSpace c then .ok ⟨i + 1, top :: rest, out⟩
  else if c = 125 then .ok ⟨i + 1, rest, out ++ [0x00]⟩
  else if c = 44 then .ok ⟨i + 1, ⟨opKEY, i + 1⟩ :: top :: rest, out⟩
  else .error (.expectedKey c i)

/-- One iteration of the `for` loop of `Encode` (lines 49-191 and the post
statement `i++`), entered with `i < len(json)`: the empty-stack check, then the
`switch op[l-1].Type`. -/
def encodeStep (lib : FloatLib) (json : List Nat) (st : EncState) : Result EncState :=
  match st.op with
  | [] =>
    if isSpace (byteAt json st.i) then .ok ⟨st.i + 1, [], st.jsonb⟩
    else .error (.excessiveChars st.i)
  | top :: rest =>
    match top.Typ with
    | opLITERAL => encodeLiteral json st.i top rest st.jsonb
    | opSTRING => encodeString json st.i top rest st.jsonb
    | opNUMBER => encodeNumber lib json st.i top rest st.jsonb
    | opARRAY => encodeArray json st.i top rest st.jsonb
    | opKEY => encodeKey json st.i top rest st.jsonb
    | opKV_SEPERATOR => encodeKVSeperator json st.i top rest st.jsonb
    | opOBJECT => encodeObject json st.i top rest st.jsonb

/-- The `for` loop of `Encode`: iterate while `i < len(json)`.  The result is
the state at loop exit, or the error or panic of an iteration. -/
def encodeLoop (lib : FloatLib) (json : List Nat) : Nat → EncState → Result EncState
  | 0, _ => .outOfFuel
  | fuel + 1, st =>
    if st.i < json.length then
      match encodeStep lib json st with
      | .ok st2 => encodeLoop lib json fuel st2
      | .error e => .error e
      | .panic => .panic
      | .outOfFuel => .outOfFuel
    else .ok st

/-- The code after the loop of `Encode` (lines 194-207). -/
def encodeFinish (lib : FloatLib) (json : List Nat) (st : EncState) : Result (List Nat) :=
  match st.op with
  | [] => .ok st.jsonb
  | top :: rest =>
    -- len(op) == 1 makes op[0] the top
    if rest = [] ∧ top.Typ = opNUMBER then
      match slice json top.StartIndex json.length with
      | none => .panic
      | some s =>
        match lib.parseFloat s with
        | none => .error (.invalidNumber top.StartIndex)
        | some bits => .ok (st.jsonb ++ bigEndian64 bits)
    else
      match opNames.get? top.Typ.toNat with
      | none => .panic
      | some name => .error (.unterminated name top.StartIndex)

/-- Sequencing of outcomes. -/
def Result.andThen {α β : Type} (r : Result α) (f : α → Result β) : Result β :=
  match r with
  | .ok v => f v
  | .error e => .error e
  | .panic => .panic
  | .outOfFuel => .outOfFuel

/-- The loop variables at the start of `Encode`. -/
def encodeInit : EncState := ⟨0, [⟨opLITERAL, 0⟩], []⟩

/-- The fuel `Encode` gives its loop: every iteration lowers
`2 * (len(json) - i) + len(op)` (see `encodeLoop_fuel`). -/
def encodeFuel (json : List Nat) : Nat := 2 * json.length + 2

/-- The function `Encode`. -/
def Encode (lib : FloatLib) (json : List Nat) : Result (List Nat) :=
  (encodeLoop lib json (encodeFuel json) encodeInit).andThen (encodeFinish lib json)

/-- The loop variables of `Decode`: index `i`, stack `op` (head = top), output text `json`. -/
structure DecState where
  i : Nat
  op : List operation
  json : List Nat
  deriving DecidableEq, Repr

/-- Go `strings.TrimSuffix(json, ",")` -/
def trimSuffixComma (json : List Nat) : List Nat :=
  if json.getLast? = some 44 then json.dropLast else json

/-- Code of `case opLITERAL` of `Decode` (lines 226-265).  `buf` is the backing array
of the slice `jsonb` up to its capacity: Go checks the bounds of the slice
expression `jsonb[i+1 : i+9]` against `cap(jsonb)`, not `len(jsonb)`. -/
def decodeLiteral (lib : FloatLib) (buf : List Nat) (i : Nat) (top : operation)
    (rest : List operation) (json : List Nat) : Result DecState :=
  let c := byteAt buf i
  if c = values "string" then .ok ⟨i + 1, ⟨opSTRING, i + 1⟩ :: rest, json⟩
  else if c = values "false" then .ok ⟨i + 1, rest, json ++ kwFalse⟩
  else if c = values "true" then .ok ⟨i + 1, rest, json ++ kwTrue⟩
  else if c = values "null" then .ok ⟨i + 1, rest, json ++ kwNull⟩
  else if c = values "number" then
    match slice buf (i + 1) (i + 9) with
    | none => .panic
    | some numArr => .ok ⟨i + 9, rest, json ++ lib.formatFloat (beUint64 numArr)⟩
  else if c = values "array" then
    .ok ⟨i + 1, ⟨opLITERAL, i + 1⟩ :: ⟨opARRAY, top.StartIndex⟩ :: rest, json ++ [91]⟩
  else if c = values "object" then
    .ok ⟨i + 1, ⟨opKEY, i + 1⟩ :: ⟨opOBJECT, top.StartIndex⟩ :: rest, json ++ [123]⟩
  else if c = 0x00 then
    match rest with
    | parent :: rest2 =>
      if parent.Typ = opARRAY then .ok ⟨i + 1, rest2, trimSuffixComma json ++ [93]⟩
      else .error (.unknownByte c i)
    | [] => .error (.unknownByte c i)
  else .error (.unknownByte c i)

/-- Code of `case opSTRING` of `Decode` (lines 266-271). -/
def decodeString (buf : List Nat) (i : Nat) (top : operation) (rest : List operation)
    (json : List Nat) : Result DecState :=
  if byteAt buf i = 0x00 then
    match slice buf top.StartIndex i with
    | none => .panic
    | some str => .ok ⟨i + 1, rest, json ++ ([34] ++ str ++ [34])⟩
  else .ok ⟨i + 1, top :: rest, json⟩

/-- Code of `case opKEY` of `Decode` (lines 280-288); `op[:l-2]` panics on a stack of one. -/
def decodeKey (buf : List Nat) (i : Nat) (top : operation) (rest : List operation)
    (json : List Nat) : Result DecState :=
  if byteAt buf i = 0x00 then
    match rest with
    | _ :: rest2 => .ok ⟨i + 1, rest2, trimSuffixComma json ++ [125]⟩
    | [] => .panic
  else .ok ⟨i + 1, ⟨opSTRING, i⟩ :: ⟨opKV_SEPERATOR, top.StartIndex⟩ :: rest, json⟩

/-- One iteration of the `for` loop of `Decode` (lines 218-294 and the post
statement `i++`), entered with `i < len(jsonb)`.  The cases `opARRAY`,
`opOBJECT` and `opKV_SEPERATOR` end in `i--`, so `i` stays; the `switch` has no
`case opNUMBER`. -/
def decodeStep (lib : FloatLib) (buf : List Nat) (st : DecState) : Result DecState :=
  match st.op with
  | [] => .error (.excessiveBytes st.i)
  | top :: rest =>
    match top.Typ with
    | opLITERAL => decodeLiteral lib buf st.i top rest st.json
    | opSTRING => decodeString buf st.i top rest st.json
    | opARRAY => .ok ⟨st.i, ⟨opLITERAL, st.i⟩ :: top :: rest, st.json ++ [44]⟩
    | opOBJECT => .ok ⟨st.i, ⟨opKEY, st.i⟩ :: top :: rest, st.json ++ [44]⟩
    | opKEY => decodeKey buf st.i top rest st.json
    | opKV_SEPERATOR => .ok ⟨st.i, ⟨opLITERAL, st.i⟩ :: rest, st.json ++ [58]⟩
    | opNUMBER => .ok ⟨st.i + 1, top :: rest, st.json⟩

/-- The `for` loop of `Decode`: iterate while `i < len(jsonb)`, where `jsonl`
is `len(jsonb)` and `buf` the backing array. -/
def decodeLoop (lib : FloatLib) (buf : List Nat) (jsonl : Nat) : Nat → DecState → Result DecState
  | 0, _ => .outOfFuel
  | fuel + 1, st =>
    if st.i < jsonl then
      match decodeStep lib buf st with
      | .ok st2 => decodeLoop lib buf jsonl fuel st2
      | .error e => .error e
      | .panic => .panic
      | .outOfFuel => .outOfFuel
    else .ok st

/-- The code after the loop of `Decode` (lines 297-301). -/
def decodeFinish (st : DecState) : Result (List Nat) :=
  match st.op with
  | [] => .ok st.json
  | top :: _ =>
    match opNames.get? top.Typ.toNat with
    | none => .panic
    | some name => .error (.unterminated name top.StartIndex)

/-- The loop variables at the start of `Decode`. -/
def decodeInit : DecState := ⟨0, [⟨opLITERAL, 0⟩], []⟩

/-- The fuel `Decode` gives its loop: an iteration that does not advance `i`
replaces an Array, Object or Key-Value-separator context on top of the stack by
a Literal or Key context, which advances `i` (see `decodeLoop_fuel`). -/
def decodeFuel (jsonl : Nat) : Nat := 3 * jsonl + 3

/-- The function `Decode`, called on a slice with content `jsonb` whose backing
array holds the bytes `spare` between `len(jsonb)` and `cap(jsonb)`. -/
def Decode (lib : FloatLib) (spare : List Nat) (jsonb : List Nat) : Result (List Nat) :=
  (decodeLoop lib (jsonb ++ spare) jsonb.length (decodeFuel jsonb.length) decodeInit).andThen
    decodeFinish

/-! ## Definitions used to state and prove the properties -/

/-- The successful iterations of the loop of `Encode`, one constructor per
branch of `encodeStep` that does not return. -/
inductive EncTrans (lib : FloatLib) (json : List Nat) : EncState → EncState → Prop
  | emptySpace {i out} : isSpace (byteAt json i) →
      EncTrans lib json ⟨i, [], out⟩ ⟨i + 1, [], out⟩
  | skipSpace {i o rest out} : o.Typ ≠ opSTRING → o.Typ ≠ opNUMBER → isSpace (byteAt json i) →
      EncTrans lib json ⟨i, o :: rest, out⟩ ⟨i + 1, o :: rest, out⟩
  | keyword {i o rest out} (kw : List Nat) (tag : Nat) : o.Typ = opLITERAL →
      (kw = kwFalse ∧ tag = 1 ∨ kw = kwTrue ∧ tag = 3 ∨ kw = kwNull ∧ tag = 2) →
      i + kw.length ≤ json.length → slice json i (i + kw.length) = some kw →
      EncTrans lib json ⟨i, o :: rest, out⟩ ⟨i + kw.length, rest, out ++ [tag]⟩
  | strOpen {i o rest out} : o.Typ = opLITERAL → byteAt json i = 34 →
      EncTrans lib json ⟨i, o :: rest, out⟩ ⟨i + 1, ⟨opSTRING, i⟩ :: rest, out ++ [7]⟩
  | arrOpen {i o rest out} : o.Typ = opLITERAL → byteAt json i = 91 →
      EncTrans lib json ⟨i, o :: rest, out⟩
        ⟨i + 1, ⟨opLITERAL, i + 1⟩ :: ⟨opARRAY, i⟩ :: rest, out ++ [5]⟩
  | objOpen {i o rest out} : o.Typ = opLITERAL → byteAt json i = 123 →
      EncTrans lib json ⟨i, o :: rest, out⟩
        ⟨i + 1, ⟨opKEY, i + 1⟩ :: ⟨opOBJECT, i⟩ :: rest, out ++ [4]⟩
  | emptyArr {i o parent rest out} : o.Typ = opLITERAL → byteAt json i = 93 →
      parent.Typ = opARRAY →
      EncTrans lib json ⟨i, o :: parent :: rest, out⟩ ⟨i + 1, rest, out ++ [0]⟩
  | strayBracket {i o rest out} : o.Typ = opLITERAL → byteAt json i = 93 →
      (∀ parent ∈ rest.head?, parent.Typ ≠ opARRAY) →
      EncTrans lib json ⟨i, o :: rest, out⟩ ⟨i + 1, o :: rest, out⟩
  | numOpen {i o rest out} : o.Typ = opLITERAL → (byteAt json i = 45 ∨ isDigit (byteAt json i)) →
      EncTrans lib json ⟨i, o :: rest, out⟩ ⟨i + 1, ⟨opNUMBER, i⟩ :: rest, out ++ [6]⟩
  | strChar {i o rest out} : o.Typ = opSTRING → byteAt json i ≠ 0 → byteAt json i ≠ 34 →
      EncTrans lib json ⟨i, o :: rest, out⟩ ⟨i + 1, o :: rest, out⟩
  | strClose {i o rest out} (s : List Nat) : o.Typ = opSTRING → byteAt json i = 34 →
      slice json (o.StartIndex + 1) i = some s →
      EncTrans lib json ⟨i, o :: rest, out⟩ ⟨i + 1, rest, out ++ s ++ [0]⟩
  | numChar {i o rest out} : o.Typ = opNUMBER → (isDigit (byteAt json i) ∨ byteAt json i = 46) →
      EncTrans lib json ⟨i, o :: rest, out⟩ ⟨i + 1, o :: rest, out⟩
  | numClose {i o rest out} (s : List Nat) (bits : Nat) : o.Typ = opNUMBER →
      ¬ (isDigit (byteAt json i) ∨ byteAt json i = 46) →
      slice json o.StartIndex i = some s → lib.parseFloat s = some bits →
      EncTrans lib json ⟨i, o :: rest, out⟩ ⟨i, rest, out ++ bigEndian64 bits⟩
  | arrClose {i o rest out} : o.Typ = opARRAY → byteAt json i = 93 →
      EncTrans lib json ⟨i, o :: rest, out⟩ ⟨i + 1, rest, out ++ [0]⟩
  | arrNext {i o rest out} : o.Typ = opARRAY → byteAt json i = 44 →
      EncTrans lib json ⟨i, o :: rest, out⟩ ⟨i + 1, ⟨opLITERAL, i + 1⟩ :: o :: rest, out⟩
  | keyClose {i o rest out} : o.Typ = opKEY → byteAt json i = 125 →
      EncTrans lib json ⟨i, o :: rest, out⟩ ⟨i + 1, rest, out ++ [0]⟩
  | keyOpen {i o rest out} : o.Typ = opKEY → byteAt json i = 34 →
      EncTrans lib json ⟨i, o :: rest, out⟩
        ⟨i + 1, ⟨opSTRING, i⟩ :: ⟨opKV_SEPERATOR, o.StartIndex⟩ :: rest, out⟩
  | kvColon {i o rest out} : o.Typ = opKV_SEPERATOR → byteAt json i = 58 →
      EncTrans lib json ⟨i, o :: rest, out⟩ ⟨i + 1, ⟨opLITERAL, o.StartIndex⟩ :: rest, out⟩
  | objClose {i o rest out} : o.Typ = opOBJECT → byteAt json i = 125 →
      EncTrans lib json ⟨i, o :: rest, out⟩ ⟨i + 1, rest, out ++ [0]⟩
  | objNext {i o rest out} : o.Typ = opOBJECT → byteAt json i = 44 →
      EncTrans lib json ⟨i, o :: rest, out⟩ ⟨i + 1, ⟨opKEY, i + 1⟩ :: o :: rest, out⟩

/-- The quantity every iteration of the loop of `Encode` lowers. -/
def encMeasure (json : List Nat) (st : EncState) : Nat :=
  2 * (json.length - st.i) + st.op.length

/-- The loop of `Encode` run from a state `st`, with the fuel that state needs. -/
def encRun (lib : FloatLib) (json : List Nat) (st : EncState) : Result EncState :=
  encodeLoop lib json (encMeasure json st + 1) st

/-- Weight of the context on top of the decoder stack: the contexts whose
iteration does not advance `i`. -/
def decWeight : List operation → Nat
  | [] => 0
  | top :: _ =>
    match top.Typ with
    | opARRAY => 2
    | opOBJECT => 2
    | opKV_SEPERATOR => 1
    | _ => 0

/-- The quantity every iteration of the loop of `Decode` lowers. -/
def decMeasure (jsonl : Nat) (st : DecState) : Nat :=
  3 * (jsonl - st.i) + decWeight st.op

/-- The loop of `Decode` run from a state `st`, with the fuel that state needs. -/
def decRun (lib : FloatLib) (buf : List Nat) (jsonl : Nat) (st : DecState) : Result DecState :=
  decodeLoop lib buf jsonl (decMeasure jsonl st + 1) st

/-! ### A reference instance of the numeric library -/

/-- Value of a run of ASCII digits. -/
def digitsValue (ds : List Nat) : Nat :=
  ds.foldl (fun acc d => 10 * acc + (d - 48)) 0

/-- Quotient `n / d` rounded to the nearest integer, ties to even. -/
def roundHalfEven (n d : Nat) : Nat :=
  let q := n / d
  let r := n % d
  if 2 * r < d then q else if d < 2 * r then q + 1 else if q % 2 = 0 then q else q + 1

/-- Scale `num / den` into `[2^52, 2^53)` by powers of two; `e` counts the
scaling from the smallest exponent of a binary64 (`2^-1074`), where it stops. -/
def scaleBinary : Nat → Nat → Nat → Nat → Nat × Nat × Nat
  | 0, num, den, e => (num, den, e)
  | fuel + 1, num, den, e =>
    if den * 2 ^ 53 ≤ num then scaleBinary fuel num (2 * den) (e + 1)
    else if num < den * 2 ^ 52 ∧ 0 < e then scaleBinary fuel (2 * num) den (e - 1)
    else (num, den, e)

/-- The binary64 nearest to `± num / den` (with `den > 0`), as its bit pattern;
`none` when the value overflows the format. -/
def toBinary64 (neg : Bool) (num den digits : Nat) : Option Nat :=
  let sign := if neg then 2 ^ 63 else 0
  let (n, d, e) := scaleBinary (4 * digits + 1200) num den 1074
  let m := roundHalfEven n d
  let (m, e) := if m = 2 ^ 53 then (2 ^ 52, e + 1) else (m, e)
  if m < 2 ^ 52 then some (sign + m)
  else if 2047 ≤ e + 1 then none
  else some (sign + (e + 1) * 2 ^ 52 + (m - 2 ^ 52))

/-- Reference `strconv.ParseFloat(s, 64)` on the texts the Number context of
`Encode` can collect: an optional sign, then decimal digits with at most one
`.`, at least one digit in all.  The result is the nearest binary64 (ties to
even) as its bit pattern; a malformed text or an overflow is `none`. -/
def parseDecimal (s : List Nat) : Option Nat :=
  let neg := s.head? = some 45
  let body := if s.head? = some 45 ∨ s.head? = some 43 then s.tail else s
  let isDig := fun c => decide (47 < c ∧ c < 58)
  let ip := body.takeWhile isDig
  let rest := body.dropWhile isDig
  let fp := if rest.head? = some 46 then rest.tail else rest
  if (rest = [] ∨ rest.head? = some 46) ∧ fp.all isDig ∧ ip ++ fp ≠ [] then
    toBinary64 neg (digitsValue (ip ++ fp)) (10 ^ fp.length) (ip ++ fp).length
  else none

/-- The decimal digits of `n`, most significant first (`fuel` bounds their number). -/
def decimalDigits : Nat → Nat → List Nat
  | 0, _ => []
  | fuel + 1, n => if n < 10 then [48 + n] else decimalDigits fuel (n / 10) ++ [48 + n % 10]

/-- Reference `fmt.Sprint` of the binary64 with bit pattern `b`, on the values
that are integers of magnitude below `10^6`: there `%v` prints the integer in
decimal.  On the other bit patterns, which this development never renders
concretely, it is the empty text. -/
def formatIntegral (b : Nat) : List Nat :=
  let sign := if 2 ^ 63 ≤ b then [45] else []
  let expField := b / 2 ^ 52 % 2048
  let frac := b % 2 ^ 52
  if expField = 0 then (if frac = 0 then sign ++ [48] else [])
  else if expField < 1023 ∨ 1075 ≤ expField then []
  else
    let m := 2 ^ 52 + frac
    let sh := 1075 - expField
    if m % 2 ^ sh = 0 ∧ m / 2 ^ sh < 10 ^ 6 then sign ++ decimalDigits 6 (m / 2 ^ sh) else []

/-- A reference instance of the numeric library. -/
def refLib : FloatLib where
  parseFloat := fun s => (parseDecimal s).filter (fun b => decide (b < 2 ^ 64))
  formatFloat := formatIntegral
  parseFloat_lt := by
    intro s b h
    simpa using (Option.filter_eq_some.mp h).2

/-- One iteration of the loop of `Encode`, from state `a` to state `b`. -/
def EncNext (lib : FloatLib) (json : List Nat) (a b : EncState) : Prop :=
  a.i < json.length ∧ encodeStep lib json a = .ok b

/-- The loop states `Encode` passes through on the input `json`. -/
def EncReach (lib : FloatLib) (json : List Nat) (st : EncState) : Prop :=
  Relation.ReflTransGen (EncNext lib json) encodeInit st

/-- A byte of a number token: `-`, `.` or a digit. -/
abbrev isNumChar (c : Nat) : Prop := c = 45 ∨ c = 46 ∨ isDigit c

/-- The contexts that stay on the stack below its top. -/
def Below (o : operation) : Prop :=
  o.Typ = opARRAY ∨ o.Typ = opOBJECT ∨ o.Typ = opKV_SEPERATOR

/-- What holds of every loop state of `Encode`: the index is within the input,
below the top of the stack there are only Array, Object and
Key-Value-separator contexts, and a Number context on top has just consumed a
byte of a number. -/
def EncInv (json : List Nat) (st : EncState) : Prop :=
  st.i ≤ json.length ∧
  (∀ o ∈ st.op.tail, Below o) ∧
  (∀ o ∈ st.op.head?, o.Typ = opNUMBER → 0 < st.i ∧ isNumChar (byteAt json (st.i - 1)))

/-- One iteration of the loop of `Decode` on a buffer of length `jsonl`. -/
def DecNext (lib : FloatLib) (buf : List Nat) (jsonl : Nat) (a b : DecState) : Prop :=
  a.i < jsonl ∧ decodeStep lib buf a = .ok b

/-- The loop states `Decode` passes through on a buffer of length `jsonl`
with backing array `buf`. -/
def DecReach (lib : FloatLib) (buf : List Nat) (jsonl : Nat) (st : DecState) : Prop :=
  Relation.ReflTransGen (DecNext lib buf jsonl) decodeInit st

/-- Position `p` of the text `json` lies between two tokens: the loop of
`Encode` starts an iteration at index `p` in a state whose top context is not
a String (the position is not inside a string), and is a Number only when the
byte at `p` ends the number (the position is not inside a number).  The loop
never starts an iteration inside a keyword. -/
def TokenBoundary (lib : FloatLib) (json : List Nat) (p : Nat) : Prop :=
  ∃ st, EncReach lib json st ∧ st.i = p ∧
    ∀ o ∈ st.op.head?, o.Typ ≠ opSTRING ∧
      (o.Typ = opNUMBER → ¬ (isDigit (byteAt json p) ∨ byteAt json p = 46))

/-- The text `s2` comes from `s` by inserting runs of white space (space, tab,
LF, CR) at positions between tokens, one run after the other. -/
inductive WsInserted (lib : FloatLib) (s : List Nat) : List Nat → Prop
  | refl : WsInserted lib s s
  | insert {a b : List Nat} (w : List Nat) : WsInserted lib s (a ++ b) →
      TokenBoundary lib (a ++ b) a.length → (∀ c ∈ w, isSpace c) →
      WsInserted lib s (a ++ w ++ b)

/-- Two contexts of the same kind whose start offsets, where `Encode` reads
them, differ by the length `k` of white space inserted at position `p`. -/
def OpRel (p k : Nat) (o o2 : operation) : Prop :=
  o2.Typ = o.Typ ∧
    ((o.Typ = opSTRING ∨ o.Typ = opNUMBER) → o2.StartIndex = o.StartIndex + k ∧ p ≤ o.StartIndex)

/-- Loop states of `Encode` on a text and on the text with `k` bytes inserted
at position `p`, behind the insertion. -/
def ShiftRel (p k : Nat) (st st2 : EncState) : Prop :=
  st2.i = st.i + k ∧ st2.jsonb = st.jsonb ∧ p ≤ st.i ∧ List.Forall₂ (OpRel p k) st.op st2.op

/-! ### JSON values and their two forms -/

mutual
/-- A JSON value of the fragment on which the codec round-trips: an array may
be empty, an object has at least one member. -/
inductive JVal where
  | null
  | jfalse
  | jtrue
  | num (tok : List Nat)
  | str (s : List Nat)
  | emptyArr
  | arr (v : JVal) (rest : JTail)
  | obj (k : List Nat) (v : JVal) (rest : JMembers)
/-- The elements of an array behind the first. -/
inductive JTail where
  | nil
  | cons (v : JVal) (rest : JTail)
/-- The members of an object behind the first. -/
inductive JMembers where
  | nil
  | cons (k : List Nat) (v : JVal) (rest : JMembers)
end

mutual
/-- The compact text of a value (no white space), with `numText` giving the
text of every number token. -/
def JVal.render (numText : List Nat → List Nat) : JVal → List Nat
  | .null => kwNull
  | .jfalse => kwFalse
  | .jtrue => kwTrue
  | .num tok => numText tok
  | .str s => [34] ++ s ++ [34]
  | .emptyArr => [91, 93]
  | .arr v rest => [91] ++ v.render numText ++ rest.render numText ++ [93]
  | .obj k v rest =>
    [123] ++ ([34] ++ k ++ [34] ++ [58] ++ v.render numText) ++ rest.render numText ++ [125]
/-- The text of the elements behind the first, each after a `,`. -/
def JTail.render (numText : List Nat → List Nat) : JTail → List Nat
  | .nil => []
  | .cons v rest => [44] ++ v.render numText ++ rest.render numText
/-- The text of the members behind the first, each after a `,`. -/
def JMembers.render (numText : List Nat → List Nat) : JMembers → List Nat
  | .nil => []
  | .cons k v rest =>
    [44] ++ ([34] ++ k ++ [34] ++ [58] ++ v.render numText) ++ rest.render numText
end

/-- The bit pattern of the double a number token is parsed to. -/
def numBits (lib : FloatLib) (tok : List Nat) : Nat := (lib.parseFloat tok).getD 0

mutual
/-- The jsonb bytes of a value: tags from the table `values`, keys untagged. -/
def JVal.binary (lib : FloatLib) : JVal → List Nat
  | .null => [values "null"]
  | .jfalse => [values "false"]
  | .jtrue => [values "true"]
  | .num tok => [values "number"] ++ bigEndian64 (numBits lib tok)
  | .str s => [values "string"] ++ s ++ [0x00]
  | .emptyArr => [values "array", 0x00]
  | .arr v rest => [values "array"] ++ v.binary lib ++ rest.binary lib ++ [0x00]
  | .obj k v rest =>
    [values "object"] ++ (k ++ [0x00] ++ v.binary lib) ++ rest.binary lib ++ [0x00]
/-- The bytes of the elements behind the first. -/
def JTail.binary (lib : FloatLib) : JTail → List Nat
  | .nil => []
  | .cons v rest => v.binary lib ++ rest.binary lib
/-- The bytes of the members behind the first. -/
def JMembers.binary (lib : FloatLib) : JMembers → List Nat
  | .nil => []
  | .cons k v rest => (k ++ [0x00] ++ v.binary lib) ++ rest.binary lib
end

/-- A string body or key without `"` and without NUL. -/
def goodText (s : List Nat) : Prop := ∀ c ∈ s, c ≠ 34 ∧ c ≠ 0

/-- A number token the Number context of `Encode` collects whole and the
library parses: a `-` or a digit, then digits and `.` only (no exponent). -/
def goodNumber (lib : FloatLib) (tok : List Nat) : Prop :=
  (∀ c ∈ tok.head?, c = 45 ∨ isDigit c) ∧ (∀ d ∈ tok.tail, isDigit d ∨ d = 46) ∧
    tok ≠ [] ∧ (lib.parseFloat tok).isSome = true

mutual
/-- The values of the fragment: good strings, keys and numbers, keys not empty. -/
def JVal.Good (lib : FloatLib) : JVal → Prop
  | .null => True
  | .jfalse => True
  | .jtrue => True
  | .num tok => goodNumber lib tok
  | .str s => goodText s
  | .emptyArr => True
  | .arr v rest => v.Good lib ∧ rest.Good lib
  | .obj k v rest => k ≠ [] ∧ goodText k ∧ v.Good lib ∧ rest.Good lib
/-- Good elements. -/
def JTail.Good (lib : FloatLib) : JTail → Prop
  | .nil => True
  | .cons v rest => v.Good lib ∧ rest.Good lib
/-- Good members. -/
def JMembers.Good (lib : FloatLib) : JMembers → Prop
  | .nil => True
  | .cons k v rest => k ≠ [] ∧ goodText k ∧ v.Good lib ∧ rest.Good lib
end

/-- What `Encode` returns when its loop is in state `st`. -/
def encRest (lib : FloatLib) (json : List Nat) (st : EncState) : Result (List Nat) :=
  (encRun lib json st).andThen (encodeFinish lib json)

/-- What `Decode` returns when its loop is in state `st`. -/
def decRest (lib : FloatLib) (buf : List Nat) (jsonl : Nat) (st : DecState) :
    Result (List Nat) :=
  (decRun lib buf jsonl st).andThen decodeFinish

/-- The text `Decode` writes for a number token: the library's rendering of the
double the token was parsed to. -/
def decodedNumber (lib : FloatLib) (tok : List Nat) : List Nat :=
  lib.formatFloat (numBits lib tok)

/-- What the round-trip lemma says of a value `v` in a Literal context. -/
def EncodesValue (lib : FloatLib) (v : JVal) : Prop :=
  ∀ (json : List Nat) (i s0 : Nat) (rest : List operation) (out q : List Nat),
    json.drop i = v.render id ++ q → (∀ c ∈ q.head?, ¬ (isDigit c ∨ c = 46)) →
    (q = [] → rest = []) →
    encRest lib json ⟨i, ⟨opLITERAL, s0⟩ :: rest, out⟩ =
      encRest lib json ⟨i + (v.render id).length, rest, out ++ v.binary lib⟩

/-- What the round-trip lemma says of the bytes of a value `v` in a Literal context. -/
def DecodesValue (lib : FloatLib) (v : JVal) : Prop :=
  ∀ (buf : List Nat) (n i s0 : Nat) (rest : List operation) (json q : List Nat),
    buf.drop i = v.binary lib ++ q → i + (v.binary lib).length ≤ n →
    decRest lib buf n ⟨i, ⟨opLITERAL, s0⟩ :: rest, json⟩ =
      decRest lib buf n ⟨i + (v.binary lib).length, rest,
        json ++ v.render (decodedNumber lib)⟩

/-- A number token as the Literal and Number contexts of `Encode` collect it:
a `-` or a digit, then digits and `.` only. -/
def numberToken (n : List Nat) : Prop :=
  (∀ c ∈ n.head?, c = 45 ∨ isDigit c) ∧ (∀ d ∈ n.tail, isDigit d ∨ d = 46) ∧ n ≠ []

mutual
/-- The values without numbers: booleans, null, strings without `"` and NUL,
arrays, and objects with at least one member and non-empty keys. -/
def JVal.NumberFree : JVal → Prop
  | .null => True
  | .jfalse => True
  | .jtrue => True
  | .num _ => False
  | .str s => goodText s
  | .emptyArr => True
  | .arr v rest => v.NumberFree ∧ rest.NumberFree
  | .obj k v rest => k ≠ [] ∧ goodText k ∧ v.NumberFree ∧ rest.NumberFree
/-- Elements without numbers. -/
def JTail.NumberFree : JTail → Prop
  | .nil => True
  | .cons v rest => v.NumberFree ∧ rest.NumberFree
/-- Members without numbers. -/
def JMembers.NumberFree : JMembers → Prop
  | .nil => True
  | .cons k v rest => k ≠ [] ∧ goodText k ∧ v.NumberFree ∧ rest.NumberFree
end

/-- Condition on a loop state of `Encode` under which every slice the next
iteration takes is within bounds: the loop invariant holds and a String or
Number context on top of the stack was started before `i`. -/
def EncSafe (json : List Nat) (st : EncState) : Prop :=
  EncInv json st ∧
    ∀ o ∈ st.op.head?, o.Typ = opSTRING ∨ o.Typ = opNUMBER → o.StartIndex < st.i

/-! ## The tag table and single iterations of `Encode` -/

@[simp] theorem values_false : values "false" = 1 := by decide
@[simp] theorem values_null : values "null" = 2 := by decide
@[simp] theorem values_true : values "true" = 3 := by decide
@[simp] theorem values_object : values "object" = 4 := by decide
@[simp] theorem values_array : values "array" = 5 := by decide
@[simp] theorem values_number : values "number" = 6 := by decide
@[simp] theorem values_string : values "string" = 7 := by decide

theorem encodeKeyword_ok {json kw : List Nat} {tag : Nat} {i : Nat} {rest : List operation}
    {out : List Nat} {st2 : EncState} (h : encodeKeyword json kw tag i rest out = .ok st2) :
    i + kw.length ≤ json.length ∧ slice json i (i + kw.length) = some kw ∧
      st2 = ⟨i + kw.length, rest, out ++ [tag]⟩ := by
  unfold encodeKeyword at h
  split_ifs at h with h1
  split at h
  · exact Result.noConfusion h
  · rename_i w hw
    split_ifs at h with h2
    simp only [Result.ok.injEq] at h
    simp only [ne_eq, not_not] at h2
    subst h2
    exact ⟨by omega, hw, h.symm⟩


theorem encodeLiteral_trans {lib : FloatLib} {json : List Nat} {i : Nat} {top : operation}
    {rest : List operation} {out : List Nat} {st2 : EncState} (ht : top.Typ = opLITERAL)
    (h : encodeLiteral json i top rest out = .ok st2) :
    EncTrans lib json ⟨i, top :: rest, out⟩ st2 := by
  unfold encodeLiteral at h
  simp only [values_false, values_null, values_true, values_object, values_array,
    values_number, values_string] at h
  by_cases h1 : isSpace (byteAt json i)
  · rw [if_pos h1] at h
    simp only [Result.ok.injEq] at h; subst h
    exact .skipSpace (by simp [ht]) (by simp [ht]) h1
  rw [if_neg h1] at h
  by_cases h2 : byteAt json i = 102
  · rw [if_pos h2] at h
    obtain ⟨a, b, c⟩ := encodeKeyword_ok h; subst c
    exact .keyword kwFalse 1 ht (by simp) a b
  rw [if_neg h2] at h
  by_cases h3 : byteAt json i = 116
  · rw [if_pos h3] at h
    obtain ⟨a, b, c⟩ := encodeKeyword_ok h; subst c
    exact .keyword kwTrue 3 ht (by simp) a b
  rw [if_neg h3] at h
  by_cases h4 : byteAt json i = 110
  · rw [if_pos h4] at h
    obtain ⟨a, b, c⟩ := encodeKeyword_ok h; subst c
    exact .keyword kwNull 2 ht (by simp) a b
  rw [if_neg h4] at h
  by_cases h5 : byteAt json i = 34
  · rw [if_pos h5] at h
    simp only [Result.ok.injEq] at h; subst h; exact .strOpen ht h5
  rw [if_neg h5] at h
  by_cases h6 : byteAt json i = 91
  · rw [if_pos h6] at h
    simp only [Result.ok.injEq] at h; subst h; exact .arrOpen ht h6
  rw [if_neg h6] at h
  by_cases h7 : byteAt json i = 123
  · rw [if_pos h7] at h
    simp only [Result.ok.injEq] at h; subst h; exact .objOpen ht h7
  rw [if_neg h7] at h
  by_cases h8 : byteAt json i = 93
  · rw [if_pos h8] at h
    cases rest with
    | nil =>
      simp only [Result.ok.injEq] at h; subst h
      exact .strayBracket ht h8 (by simp)
    | cons parent rest2 =>
      simp only at h
      by_cases h10 : parent.Typ = opARRAY
      · rw [if_pos h10] at h
        simp only [Result.ok.injEq] at h; subst h; exact .emptyArr ht h8 h10
      · rw [if_neg h10] at h
        simp only [Result.ok.injEq] at h; subst h
        exact .strayBracket ht h8 (by simpa using h10)
  rw [if_neg h8] at h
  by_cases h9 : byteAt json i = 45 ∨ isDigit (byteAt json i)
  · rw [if_pos h9] at h
    simp only [Result.ok.injEq] at h; subst h; exact .numOpen ht h9
  rw [if_neg h9] at h
  exact Result.noConfusion h

theorem encodeString_trans {lib : FloatLib} {json : List Nat} {i : Nat} {top : operation}
    {rest : List operation} {out : List Nat} {st2 : EncState} (ht : top.Typ = opSTRING)
    (h : encodeString json i top rest out = .ok st2) :
    EncTrans lib json ⟨i, top :: rest, out⟩ st2 := by
  unfold encodeString at h
  simp only at h
  split_ifs at h with h1 h2
  · split at h
    · exact Result.noConfusion h
    · rename_i s hs
      simp only [Result.ok.injEq] at h; subst h; exact .strClose s ht h2 hs
  · simp only [Result.ok.injEq] at h; subst h; exact .strChar ht h1 h2

theorem encodeNumber_trans {lib : FloatLib} {json : List Nat} {i : Nat} {top : operation}
    {rest : List operation} {out : List Nat} {st2 : EncState} (ht : top.Typ = opNUMBER)
    (h : encodeNumber lib json i top rest out = .ok st2) :
    EncTrans lib json ⟨i, top :: rest, out⟩ st2 := by
  unfold encodeNumber at h
  simp only at h
  split_ifs at h with h1
  · simp only [Result.ok.injEq] at h; subst h; exact .numChar ht h1
  · split at h
    · exact Result.noConfusion h
    · rename_i s hs
      split at h
      · exact Result.noConfusion h
      · rename_i bits hb
        simp only [Result.ok.injEq] at h; subst h; exact .numClose s bits ht h1 hs hb

theorem encodeArray_trans {lib : FloatLib} {json : List Nat} {i : Nat} {top : operation}
    {rest : List operation} {out : List Nat} {st2 : EncState} (ht : top.Typ = opARRAY)
    (h : encodeArray json i top rest out = .ok st2) :
    EncTrans lib json ⟨i, top :: rest, out⟩ st2 := by
  unfold encodeArray at h
  simp only at h
  split_ifs at h with h1 h2 h3
  · simp only [Result.ok.injEq] at h; subst h
    exact .skipSpace (by simp [ht]) (by simp [ht]) h1
  · simp only [Result.ok.injEq] at h; subst h; exact .arrClose ht h2
  · simp only [Result.ok.injEq] at h; subst h; exact .arrNext ht h3

theorem encodeKey_trans {lib : FloatLib} {json : List Nat} {i : Nat} {top : operation}
    {rest : List operation} {out : List Nat} {st2 : EncState} (ht : top.Typ = opKEY)
    (h : encodeKey json i top rest out = .ok st2) :
    EncTrans lib json ⟨i, top :: rest, out⟩ st2 := by
  unfold encodeKey at h
  simp only at h
  split_ifs at h with h1 h2 h3
  · simp only [Result.ok.injEq] at h; subst h
    exact .skipSpace (by simp [ht]) (by simp [ht]) h1
  · simp only [Result.ok.injEq] at h; subst h; exact .keyClose ht h2
  · simp only [Result.ok.injEq] at h; subst h; exact .keyOpen ht h3

theorem encodeKVSeperator_trans {lib : FloatLib} {json : List Nat} {i : Nat} {top : operation}
    {rest : List operation} {out : List Nat} {st2 : EncState} (ht : top.Typ = opKV_SEPERATOR)
    (h : encodeKVSeperator json i top rest out = .ok st2) :
    EncTrans lib json ⟨i, top :: rest, out⟩ st2 := by
  unfold encodeKVSeperator at h
  simp only at h
  split_ifs at h with h1 h2
  · simp only [Result.ok.injEq] at h; subst h
    exact .skipSpace (by simp [ht]) (by simp [ht]) h1
  · simp only [Result.ok.injEq] at h; subst h; exact .kvColon ht h2

theorem encodeObject_trans {lib : FloatLib} {json : List Nat} {i : Nat} {top : operation}
    {rest : List operation} {out : List Nat} {st2 : EncState} (ht : top.Typ = opOBJECT)
    (h : encodeObject json i top rest out = .ok st2) :
    EncTrans lib json ⟨i, top :: rest, out⟩ st2 := by
  unfold encodeObject at h
  simp only at h
  split_ifs at h with h1 h2 h3
  · simp only [Result.ok.injEq] at h; subst h
    exact .skipSpace (by simp [ht]) (by simp [ht]) h1
  · simp only [Result.ok.injEq] at h; subst h; exact .objClose ht h2
  · simp only [Result.ok.injEq] at h; subst h; exact .objNext ht h3

theorem encodeStep_trans {lib : FloatLib} {json : List Nat} {st st2 : EncState}
    (h : encodeStep lib json st = .ok st2) : EncTrans lib json st st2 := by
  obtain ⟨i, op, out⟩ := st
  unfold encodeStep at h
  simp only at h
  split at h
  · split_ifs at h with h1
    simp only [Result.ok.injEq] at h; subst h
    exact .emptySpace h1
  · rename_i top rest
    split at h
    · exact encodeLiteral_trans (by assumption) h
    · exact encodeString_trans (by assumption) h
    · exact encodeNumber_trans (by assumption) h
    · exact encodeArray_trans (by assumption) h
    · exact encodeKey_trans (by assumption) h
    · exact encodeKVSeperator_trans (by assumption) h
    · exact encodeObject_trans (by assumption) h


theorem encodeKeyword_eq {json kw : List Nat} {tag : Nat} {i : Nat} {rest : List operation}
    {out : List Nat} (h1 : i + kw.length ≤ json.length)
    (h2 : slice json i (i + kw.length) = some kw) :
    encodeKeyword json kw tag i rest out = .ok ⟨i + kw.length, rest, out ++ [tag]⟩ := by
  unfold encodeKeyword
  rw [if_neg (by omega), h2]
  simp

theorem slice_head {json : List Nat} {i n : Nat} {c : Nat} {kw2 : List Nat}
    (h : slice json i (i + n) = some (c :: kw2)) : byteAt json i = c := by
  unfold slice at h
  split_ifs at h with h1
  simp only [Option.some.injEq] at h
  have h3 : ((List.take (i + n) json).drop i)[0]? = some c := by rw [h]; simp
  rw [List.getElem?_drop, List.getElem?_take] at h3
  split_ifs at h3 with h4
  simp only [Nat.add_zero] at h3
  simp [byteAt, h3]

theorem trans_encodeStep {lib : FloatLib} {json : List Nat} {st st2 : EncState}
    (h : EncTrans lib json st st2) : encodeStep lib json st = .ok st2 := by
  cases h with
  | emptySpace h1 => simp only [encodeStep, if_pos h1]
  | skipSpace h1 h2 h3 =>
    rename_i i o rest out
    obtain ⟨t, s⟩ := o
    cases t <;> simp only [encodeStep, encodeLiteral, encodeArray, encodeKey, encodeKVSeperator,
      encodeObject, if_pos h3] <;> simp at h1 h2
  | keyword kw tag h1 h2 h3 h4 =>
    rename_i i o rest out
    have hc := h4
    simp only [encodeStep, h1, encodeLiteral]
    rcases h2 with ⟨rfl, rfl⟩ | ⟨rfl, rfl⟩ | ⟨rfl, rfl⟩
    · have := slice_head h4
      simp [this, encodeKeyword_eq h3 h4]
    · have := slice_head h4
      simp [this, encodeKeyword_eq h3 h4]
    · have := slice_head h4
      simp [this, encodeKeyword_eq h3 h4]
  | strOpen h1 h2 => simp [encodeStep, h1, encodeLiteral, h2]
  | arrOpen h1 h2 => simp [encodeStep, h1, encodeLiteral, h2]
  | objOpen h1 h2 => simp [encodeStep, h1, encodeLiteral, h2]
  | emptyArr h1 h2 h3 => simp [encodeStep, h1, encodeLiteral, h2, h3]
  | strayBracket h1 h2 h3 =>
    rename_i i o rest out
    cases rest with
    | nil => simp [encodeStep, h1, encodeLiteral, h2]
    | cons p r =>
      have : p.Typ ≠ opARRAY := h3 p (by simp)
      simp [encodeStep, h1, encodeLiteral, h2, this]
  | numOpen h1 h2 =>
    rename_i i o rest out
    simp only [encodeStep, h1, encodeLiteral]
    have e1 : ¬ isSpace (byteAt json i) := by unfold isSpace; unfold isDigit at h2; omega
    rw [if_neg e1, if_neg (by unfold isDigit at h2; omega), if_neg (by unfold isDigit at h2; omega),
      if_neg (by unfold isDigit at h2; omega), if_neg (by unfold isDigit at h2; omega),
      if_neg (by unfold isDigit at h2; omega), if_neg (by unfold isDigit at h2; omega),
      if_neg (by unfold isDigit at h2; omega), if_pos h2]
    simp
  | strChar h1 h2 h3 => simp [encodeStep, h1, encodeString, h2, h3]
  | strClose s h1 h2 h3 => simp [encodeStep, h1, encodeString, h2, h3]
  | numChar h1 h2 => simp only [encodeStep, h1, encodeNumber, if_pos h2]
  | numClose s bits h1 h2 h3 h4 => simp only [encodeStep, h1, encodeNumber, if_neg h2, h3, h4]
  | arrClose h1 h2 => simp [encodeStep, h1, encodeArray, h2]
  | arrNext h1 h2 => simp [encodeStep, h1, encodeArray, h2]
  | keyClose h1 h2 => simp [encodeStep, h1, encodeKey, h2]
  | keyOpen h1 h2 => simp [encodeStep, h1, encodeKey, h2]
  | kvColon h1 h2 => simp [encodeStep, h1, encodeKVSeperator, h2]
  | objClose h1 h2 => simp [encodeStep, h1, encodeObject, h2]
  | objNext h1 h2 => simp [encodeStep, h1, encodeObject, h2]


theorem EncTrans.mono {lib : FloatLib} {json : List Nat} {st st2 : EncState}
    (h : EncTrans lib json st st2) : st.i ≤ st2.i := by
  cases h <;> simp

theorem EncTrans.bound {lib : FloatLib} {json : List Nat} {st st2 : EncState}
    (h : EncTrans lib json st st2) (hi : st.i < json.length) : st2.i ≤ json.length := by
  cases h <;> simp only at hi ⊢ <;> omega

theorem EncTrans.measure {lib : FloatLib} {json : List Nat} {st st2 : EncState}
    (h : EncTrans lib json st st2) (hi : st.i < json.length) :
    encMeasure json st2 < encMeasure json st := by
  have hb := h.bound hi
  cases h <;> simp only [encMeasure, List.length_cons, List.length_nil] at hi hb ⊢ <;> omega

theorem encodeLoop_fuel {lib : FloatLib} {json : List Nat} :
    ∀ (f1 f2 : Nat) (st : EncState), encMeasure json st < f1 → encMeasure json st < f2 →
      encodeLoop lib json f1 st = encodeLoop lib json f2 st := by
  intro f1
  induction f1 with
  | zero => intro f2 st h; omega
  | succ n ih =>
    intro f2 st h1 h2
    cases f2 with
    | zero => omega
    | succ m =>
      unfold encodeLoop
      by_cases hi : st.i < json.length
      · rw [if_pos hi, if_pos hi]
        cases hs : encodeStep lib json st with
        | ok st2 =>
          have hm := (encodeStep_trans hs).measure hi
          exact ih m st2 (by omega) (by omega)
        | error e => rfl
        | panic => rfl
        | outOfFuel => rfl
      · rw [if_neg hi, if_neg hi]

theorem encRun_eq (lib : FloatLib) (json : List Nat) (st : EncState) :
    encRun lib json st =
      if st.i < json.length then (encodeStep lib json st).andThen (encRun lib json)
      else .ok st := by
  unfold encRun
  conv_lhs => unfold encodeLoop
  by_cases hi : st.i < json.length
  · rw [if_pos hi, if_pos hi]
    cases hs : encodeStep lib json st with
    | ok st2 =>
      have hm := (encodeStep_trans hs).measure hi
      simp only [Result.andThen]
      exact encodeLoop_fuel _ _ st2 (by omega) (by omega)
    | error e => rfl
    | panic => rfl
    | outOfFuel => rfl
  · rw [if_neg hi, if_neg hi]

theorem Encode_eq (lib : FloatLib) (json : List Nat) :
    Encode lib json = (encRun lib json encodeInit).andThen (encodeFinish lib json) := by
  unfold Encode encRun
  rw [encodeLoop_fuel (encodeFuel json) (encMeasure json encodeInit + 1) encodeInit
    (by simp [encMeasure, encodeInit, encodeFuel]) (by omega)]


/-! ## Single iterations of `Decode` and the fuel of both loops -/

theorem decWeight_le (op : List operation) : decWeight op ≤ 2 := by
  unfold decWeight
  split
  · omega
  · split <;> omega

theorem decodeStep_mono {lib : FloatLib} {buf : List Nat} {st st2 : DecState}
    (h : decodeStep lib buf st = .ok st2) : st.i ≤ st2.i := by
  obtain ⟨i, op, json⟩ := st
  unfold decodeStep at h
  simp only at h
  split at h
  · exact Result.noConfusion h
  · split at h
    · unfold decodeLiteral at h
      simp only at h
      repeat' split at h
      all_goals first
        | exact Result.noConfusion h
        | (simp only [Result.ok.injEq] at h; subst h; simp)
    · unfold decodeString at h
      repeat' split at h
      all_goals first
        | exact Result.noConfusion h
        | (simp only [Result.ok.injEq] at h; subst h; simp)
    · simp only [Result.ok.injEq] at h; subst h; simp
    · simp only [Result.ok.injEq] at h; subst h; simp
    · unfold decodeKey at h
      repeat' split at h
      all_goals first
        | exact Result.noConfusion h
        | (simp only [Result.ok.injEq] at h; subst h; simp)
    · simp only [Result.ok.injEq] at h; subst h; simp
    · simp only [Result.ok.injEq] at h; subst h; simp

theorem decodeStep_measure {lib : FloatLib} {buf : List Nat} {jsonl : Nat} {st st2 : DecState}
    (h : decodeStep lib buf st = .ok st2) (hi : st.i < jsonl) :
    decMeasure jsonl st2 < decMeasure jsonl st := by
  obtain ⟨i, op, json⟩ := st
  unfold decodeStep at h
  simp only at h hi
  unfold decMeasure
  have hw := decWeight_le st2.op
  split at h
  · exact Result.noConfusion h
  · rename_i top rest
    split at h
    · unfold decodeLiteral at h
      simp only at h
      repeat' split at h
      all_goals first
        | exact Result.noConfusion h
        | (simp only [Result.ok.injEq] at h; subst h; simp only at hw ⊢; omega)
    · unfold decodeString at h
      repeat' split at h
      all_goals first
        | exact Result.noConfusion h
        | (simp only [Result.ok.injEq] at h; subst h; simp only at hw ⊢; omega)
    · rename_i ht
      simp only [Result.ok.injEq] at h; subst h; simp [decWeight, ht]
    · rename_i ht
      simp only [Result.ok.injEq] at h; subst h; simp [decWeight, ht]
    · unfold decodeKey at h
      repeat' split at h
      all_goals first
        | exact Result.noConfusion h
        | (simp only [Result.ok.injEq] at h; subst h; simp only at hw ⊢; omega)
    · rename_i ht
      simp only [Result.ok.injEq] at h; subst h; simp [decWeight, ht]
    · simp only [Result.ok.injEq] at h; subst h; simp only at hw ⊢; omega

theorem decodeLoop_fuel {lib : FloatLib} {buf : List Nat} {jsonl : Nat} :
    ∀ (f1 f2 : Nat) (st : DecState), decMeasure jsonl st < f1 → decMeasure jsonl st < f2 →
      decodeLoop lib buf jsonl f1 st = decodeLoop lib buf jsonl f2 st := by
  intro f1
  induction f1 with
  | zero => intro f2 st h; omega
  | succ n ih =>
    intro f2 st h1 h2
    cases f2 with
    | zero => omega
    | succ m =>
      unfold decodeLoop
      by_cases hi : st.i < jsonl
      · rw [if_pos hi, if_pos hi]
        cases hs : decodeStep lib buf st with
        | ok st2 =>
          have hm := decodeStep_measure hs hi
          exact ih m st2 (by omega) (by omega)
        | error e => rfl
        | panic => rfl
        | outOfFuel => rfl
      · rw [if_neg hi, if_neg hi]

theorem decRun_eq (lib : FloatLib) (buf : List Nat) (jsonl : Nat) (st : DecState) :
    decRun lib buf jsonl st =
      if st.i < jsonl then (decodeStep lib buf st).andThen (decRun lib buf jsonl)
      else .ok st := by
  unfold decRun
  conv_lhs => unfold decodeLoop
  by_cases hi : st.i < jsonl
  · rw [if_pos hi, if_pos hi]
    cases hs : decodeStep lib buf st with
    | ok st2 =>
      have hm := decodeStep_measure hs hi
      simp only [Result.andThen]
      exact decodeLoop_fuel _ _ st2 (by omega) (by omega)
    | error e => rfl
    | panic => rfl
    | outOfFuel => rfl
  · rw [if_neg hi, if_neg hi]

theorem Decode_eq (lib : FloatLib) (spare jsonb : List Nat) :
    Decode lib spare jsonb =
      (decRun lib (jsonb ++ spare) jsonb.length decodeInit).andThen decodeFinish := by
  unfold Decode decRun
  rw [decodeLoop_fuel (decodeFuel jsonb.length) (decMeasure jsonb.length decodeInit + 1) decodeInit
    (by simp [decMeasure, decodeInit, decodeFuel, decWeight]) (by omega)]


@[simp] theorem Result.andThen_ok {α β : Type} (v : α) (f : α → Result β) :
    (Result.ok v).andThen f = f v := rfl
@[simp] theorem Result.andThen_error {α β : Type} (e : Err) (f : α → Result β) :
    (Result.error e : Result α).andThen f = .error e := rfl
@[simp] theorem Result.andThen_panic {α β : Type} (f : α → Result β) :
    (Result.panic : Result α).andThen f = .panic := rfl

/-! ## Indexing and slicing -/

theorem byteAt_cons_zero (a : Nat) (l : List Nat) : byteAt (a :: l) 0 = a := by
  simp [byteAt]

theorem byteAt_cons_succ (a : Nat) (l : List Nat) (i : Nat) :
    byteAt (a :: l) (i + 1) = byteAt l i := by
  simp [byteAt]

theorem byteAt_append_left {s : List Nat} (l : List Nat) {i : Nat} (h : i < s.length) :
    byteAt (s ++ l) i = byteAt s i := by
  simp [byteAt, List.getElem?_append_left h]

theorem byteAt_append_right (s l : List Nat) (i : Nat) :
    byteAt (s ++ l) (s.length + i) = byteAt l i := by
  simp [byteAt, List.getElem?_append_right]

theorem byteAt_mem {s : List Nat} {i : Nat} (h : i < s.length) : byteAt s i ∈ s := by
  simp [byteAt, List.getElem?_eq_getElem h]

theorem slice_append_mid (a s b : List Nat) :
    slice (a ++ s ++ b) a.length (a.length + s.length) = some s := by
  unfold slice
  rw [if_pos (by simp)]
  simp [List.take_append_eq_append_take, List.drop_append_eq_append_drop]

/-! ## Running the loop of `Encode` -/

theorem encRun_step {lib : FloatLib} {json : List Nat} {st t : EncState}
    (hi : st.i < json.length) (hs : encodeStep lib json st = .ok t) :
    encRun lib json st = encRun lib json t := by
  rw [encRun_eq, if_pos hi, hs, Result.andThen_ok]

theorem encRun_done {lib : FloatLib} {json : List Nat} {st : EncState}
    (hi : json.length ≤ st.i) : encRun lib json st = .ok st := by
  rw [encRun_eq, if_neg (by omega)]

/-- Inside a String context the loop walks over every byte that is neither NUL nor `"`. -/
theorem encRun_string_scan (lib : FloatLib) (json : List Nat) (top : operation)
    (rest : List operation) (out : List Nat) (ht : top.Typ = opSTRING) :
    ∀ (k i : Nat), i + k ≤ json.length →
      (∀ j < k, byteAt json (i + j) ≠ 0 ∧ byteAt json (i + j) ≠ 34) →
      encRun lib json ⟨i, top :: rest, out⟩ = encRun lib json ⟨i + k, top :: rest, out⟩ := by
  intro k
  induction k with
  | zero => intro i _ _; rfl
  | succ n ih =>
    intro i hlen h
    have h0 := h 0 (by omega)
    rw [encRun_step (t := ⟨i + 1, top :: rest, out⟩) (by simp only; omega)
      (trans_encodeStep (.strChar ht h0.1 h0.2))]
    rw [ih (i + 1) (by omega) (fun j hj => by have := h (j + 1) (by omega); rwa [show i + 1 + j = i + (j + 1) by omega])]
    rw [show i + 1 + n = i + (n + 1) by omega]


theorem encRun_of_steps {lib : FloatLib} {json : List Nat} {a b : EncState}
    (h : Relation.ReflTransGen (EncNext lib json) a b) :
    encRun lib json a = encRun lib json b := by
  induction h with
  | refl => rfl
  | tail _ hbc ih => rw [ih, encRun_step hbc.1 hbc.2]

theorem Encode_of_reach {lib : FloatLib} {json : List Nat} {st : EncState}
    (h : EncReach lib json st) :
    Encode lib json = (encRun lib json st).andThen (encodeFinish lib json) := by
  rw [Encode_eq, encRun_of_steps h]

theorem encodeStep_string_nul {lib : FloatLib} {json : List Nat} {i : Nat} {top : operation}
    {rest : List operation} {out : List Nat} (ht : top.Typ = opSTRING)
    (hc : byteAt json i = 0) :
    encodeStep lib json ⟨i, top :: rest, out⟩ = .error (.nullByte i) := by
  simp [encodeStep, ht, encodeString, hc]

/-- After an opening `"` the loop of `Encode` copies a body without `"` and NUL
and closes the string at the next `"`. -/
theorem encRun_string_body (lib : FloatLib) (s t : List Nat)
    (hs : ∀ c ∈ s, c ≠ 34 ∧ c ≠ 0) :
    encRun lib (34 :: (s ++ 34 :: t)) encodeInit =
      encRun lib (34 :: (s ++ 34 :: t)) ⟨s.length + 2, [], 7 :: (s ++ [0])⟩ := by
  have hlen : (34 :: (s ++ 34 :: t)).length = s.length + t.length + 2 := by simp; omega
  have hb : byteAt (34 :: (s ++ 34 :: t)) (1 + s.length) = 34 := by
    rw [show 1 + s.length = s.length + 1 by omega, byteAt_cons_succ]
    have := byteAt_append_right s (34 :: t) 0
    rw [Nat.add_zero] at this
    rw [this, byteAt_cons_zero]
  have hsl : slice (34 :: (s ++ 34 :: t)) (0 + 1) (1 + s.length) = some s := by
    have := slice_append_mid [34] s (34 :: t)
    simpa using this
  rw [encodeInit,
    encRun_step (t := ⟨1, [⟨opSTRING, 0⟩], [7]⟩) (by simp)
      (trans_encodeStep (.strOpen rfl (byteAt_cons_zero _ _))),
    encRun_string_scan lib _ ⟨opSTRING, 0⟩ [] [7] rfl s.length 1 (by rw [hlen]; omega)
      (fun j hj => by
        rw [show 1 + j = j + 1 by omega, byteAt_cons_succ, byteAt_append_left _ hj]
        have := hs _ (byteAt_mem hj)
        exact ⟨this.2, this.1⟩),
    encRun_step (t := ⟨1 + s.length + 1, [], [7] ++ s ++ [0]⟩) (by rw [hlen]; simp only; omega)
      (trans_encodeStep (.strClose s rfl hb hsl))]
  simp [Nat.add_comm, Nat.add_left_comm]

/-! ## Invariants of the loop of `Encode` -/

theorem slice_append_left {a : List Nat} (b : List Nat) {lo hi : Nat} (h : hi ≤ a.length) :
    slice (a ++ b) lo hi = slice a lo hi := by
  unfold slice
  by_cases hc : lo ≤ hi
  · rw [if_pos ⟨hc, by simp; omega⟩, if_pos ⟨hc, h⟩, List.take_append_of_le_length h]
  · rw [if_neg (by tauto), if_neg (by tauto)]

theorem EncTrans.stable {lib : FloatLib} {a b : List Nat} (b2 : List Nat)
    {st st2 : EncState} (h : EncTrans lib (a ++ b) st st2) (hi : st.i < a.length)
    (hi2 : st2.i ≤ a.length) : EncTrans lib (a ++ b2) st st2 := by
  have hb : ∀ i, i < a.length → byteAt (a ++ b) i = byteAt (a ++ b2) i := fun i hi => by
    rw [byteAt_append_left _ hi, byteAt_append_left _ hi]
  cases h with
  | emptySpace h1 => exact .emptySpace (hb _ hi ▸ h1)
  | skipSpace h1 h2 h3 => exact .skipSpace h1 h2 (hb _ hi ▸ h3)
  | keyword kw tag h1 h2 h3 h4 =>
    simp only at hi hi2
    refine .keyword kw tag h1 h2 (by simp; omega) ?_
    rw [slice_append_left _ hi2] at h4 ⊢
    exact h4
  | strOpen h1 h2 => exact .strOpen h1 (hb _ hi ▸ h2)
  | arrOpen h1 h2 => exact .arrOpen h1 (hb _ hi ▸ h2)
  | objOpen h1 h2 => exact .objOpen h1 (hb _ hi ▸ h2)
  | emptyArr h1 h2 h3 => exact .emptyArr h1 (hb _ hi ▸ h2) h3
  | strayBracket h1 h2 h3 => exact .strayBracket h1 (hb _ hi ▸ h2) h3
  | numOpen h1 h2 => exact .numOpen h1 (hb _ hi ▸ h2)
  | strChar h1 h2 h3 => exact .strChar h1 (hb _ hi ▸ h2) (hb _ hi ▸ h3)
  | strClose s h1 h2 h3 =>
    simp only at hi
    refine .strClose s h1 (hb _ hi ▸ h2) ?_
    rw [slice_append_left _ (by omega)] at h3 ⊢
    exact h3
  | numChar h1 h2 => exact .numChar h1 (hb _ hi ▸ h2)
  | numClose s bits h1 h2 h3 h4 =>
    simp only at hi
    refine .numClose s bits h1 (hb _ hi ▸ h2) ?_ h4
    rw [slice_append_left _ (by omega)] at h3 ⊢
    exact h3
  | arrClose h1 h2 => exact .arrClose h1 (hb _ hi ▸ h2)
  | arrNext h1 h2 => exact .arrNext h1 (hb _ hi ▸ h2)
  | keyClose h1 h2 => exact .keyClose h1 (hb _ hi ▸ h2)
  | keyOpen h1 h2 => exact .keyOpen h1 (hb _ hi ▸ h2)
  | kvColon h1 h2 => exact .kvColon h1 (hb _ hi ▸ h2)
  | objClose h1 h2 => exact .objClose h1 (hb _ hi ▸ h2)
  | objNext h1 h2 => exact .objNext h1 (hb _ hi ▸ h2)

theorem below_tail {l : List operation} (h : ∀ o ∈ l, Below o) : ∀ o ∈ l.tail, Below o :=
  fun o ho => h o (List.mem_of_mem_tail ho)

theorem below_head {l : List operation} (h : ∀ o ∈ l, Below o) {P : Prop} :
    ∀ o ∈ l.head?, o.Typ = opNUMBER → P := by
  intro o ho hn
  have hm : o ∈ l := List.mem_of_mem_head? ho
  rcases h o hm with h1 | h1 | h1 <;> rw [hn] at h1 <;> cases h1

theorem EncTrans.inv {lib : FloatLib} {json : List Nat} {st st2 : EncState}
    (h : EncTrans lib json st st2) (hi : st.i < json.length) (hv : EncInv json st) :
    EncInv json st2 := by
  refine ⟨h.bound hi, ?_, ?_⟩
  · obtain ⟨_, h2, _⟩ := hv
    cases h <;> simp only [List.tail_cons, List.tail_nil] at h2 ⊢ <;>
      first
        | exact h2
        | exact below_tail h2
        | exact below_tail (fun o ho => h2 o (List.mem_cons_of_mem _ ho))
        | (intro o ho
           rcases List.mem_cons.mp ho with rfl | ho
           · simp [Below, *]
           · exact h2 o ho)
  · obtain ⟨_, h2, h3⟩ := hv
    cases h <;> simp only [List.tail_cons, List.tail_nil] at h2 <;>
      first
        | exact below_head h2
        | exact below_head (fun o ho => h2 o (List.mem_cons_of_mem _ ho))
        | (intro o ho hn
           simp only [List.head?_cons, List.head?_nil, Option.mem_def, Option.some.injEq,
             reduceCtorEq] at ho
           subst ho
           simp_all [isNumChar]
           done)
        | (intro o ho hn
           simp only [List.head?_cons, List.head?_nil, Option.mem_def, Option.some.injEq,
             reduceCtorEq] at ho
           subst ho
           simp only [Nat.add_sub_cancel, isNumChar] at *
           refine ⟨by omega, ?_⟩
           tauto)

theorem encodeInit_inv (json : List Nat) : EncInv json encodeInit := by
  simp [EncInv, encodeInit]

theorem EncReach.invariant {lib : FloatLib} {json : List Nat} {st : EncState}
    (h : EncReach lib json st) : EncInv json st := by
  induction h with
  | refl => exact encodeInit_inv json
  | tail _ hbc ih => exact (encodeStep_trans hbc.2).inv hbc.1 ih

/-! ## The end of the loop of `Encode` -/

theorem encRun_ok_steps {lib : FloatLib} {json : List Nat} :
    ∀ (n : Nat) (st stf : EncState), encMeasure json st ≤ n → encRun lib json st = .ok stf →
      Relation.ReflTransGen (EncNext lib json) st stf ∧ json.length ≤ stf.i := by
  intro n
  induction n with
  | zero =>
    intro st stf hm h
    rw [encRun_eq] at h
    by_cases hi : st.i < json.length
    · unfold encMeasure at hm; omega
    · rw [if_neg hi] at h
      cases h
      exact ⟨.refl, by omega⟩
  | succ n ih =>
    intro st stf hm h
    rw [encRun_eq] at h
    by_cases hi : st.i < json.length
    · rw [if_pos hi] at h
      cases hs : encodeStep lib json st with
      | ok st2 =>
        rw [hs, Result.andThen_ok] at h
        have hlt := (encodeStep_trans hs).measure hi
        obtain ⟨h1, h2⟩ := ih st2 stf (by omega) h
        exact ⟨.head ⟨hi, hs⟩ h1, h2⟩
      | error e => rw [hs] at h; cases h
      | panic => rw [hs] at h; cases h
      | outOfFuel => rw [hs] at h; cases h
    · rw [if_neg hi] at h
      cases h
      exact ⟨.refl, by omega⟩

theorem Result.andThen_eq_ok {α β : Type} {r : Result α} {f : α → Result β} {b : β}
    (h : r.andThen f = .ok b) : ∃ a, r = .ok a ∧ f a = .ok b := by
  cases r with
  | ok a => exact ⟨a, rfl, h⟩
  | error e => cases h
  | panic => cases h
  | outOfFuel => cases h

/-- A successful `Encode` leaves its loop at the end of the input. -/
theorem Encode_ok_final {lib : FloatLib} {json out : List Nat} (h : Encode lib json = .ok out) :
    ∃ stf, EncReach lib json stf ∧ stf.i = json.length ∧ encodeFinish lib json stf = .ok out := by
  rw [Encode_eq] at h
  obtain ⟨stf, h1, h2⟩ := Result.andThen_eq_ok h
  obtain ⟨h3, h4⟩ := encRun_ok_steps _ _ _ (Nat.le_refl _) h1
  have hinv := EncReach.invariant h3
  exact ⟨stf, h3, by have := hinv.1; omega, h2⟩

theorem encodeFinish_ok {lib : FloatLib} {json out : List Nat} {st : EncState}
    (h : encodeFinish lib json st = .ok out) :
    (st.op = [] ∧ out = st.jsonb) ∨
    ∃ top tok bits, st.op = [top] ∧ top.Typ = opNUMBER ∧
      slice json top.StartIndex json.length = some tok ∧ lib.parseFloat tok = some bits ∧
      out = st.jsonb ++ bigEndian64 bits := by
  unfold encodeFinish at h
  split at h
  · rename_i h0
    simp only [Result.ok.injEq] at h
    exact .inl ⟨h0, h.symm⟩
  · rename_i top rest h0
    split_ifs at h with h1
    · split at h
      · cases h
      · rename_i tok htok
        split at h
        · cases h
        · rename_i bits hbits
          simp only [Result.ok.injEq] at h
          obtain ⟨hr, ht⟩ := h1
          subst hr
          exact .inr ⟨top, tok, bits, h0, ht, htok, hbits, h.symm⟩
    · split at h <;> cases h

/-- With no String or Number context on top, the loop of `Encode` walks over white space. -/
theorem encRun_skip_spaces (lib : FloatLib) (json : List Nat) (op : List operation)
    (out : List Nat) (hop : ∀ o ∈ op.head?, o.Typ ≠ opSTRING ∧ o.Typ ≠ opNUMBER) :
    ∀ (k i : Nat), i + k ≤ json.length → (∀ j < k, isSpace (byteAt json (i + j))) →
      encRun lib json ⟨i, op, out⟩ = encRun lib json ⟨i + k, op, out⟩ := by
  intro k
  induction k with
  | zero => intro i _ _; rfl
  | succ n ih =>
    intro i hlen h
    have h0 := h 0 (by omega)
    have hstep : EncTrans lib json ⟨i, op, out⟩ ⟨i + 1, op, out⟩ := by
      cases op with
      | nil => exact .emptySpace h0
      | cons o rest =>
        have := hop o (by simp)
        exact .skipSpace this.1 this.2 h0
    rw [encRun_step (by simp only; omega) (trans_encodeStep hstep),
      ih (i + 1) (by omega) (fun j hj => by
        have := h (j + 1) (by omega); rwa [show i + 1 + j = i + (j + 1) by omega]),
      show i + 1 + n = i + (n + 1) by omega]

theorem reach_append {lib : FloatLib} {s : List Nat} (u : List Nat) {st : EncState}
    (h : EncReach lib s st) : EncReach lib (s ++ u) st := by
  induction h with
  | refl => exact .refl
  | @tail b c _ hbc ih =>
    have ht := encodeStep_trans hbc.2
    have h1 : EncTrans lib (s ++ []) b c := by rw [List.append_nil]; exact ht
    have h2 := h1.stable u hbc.1 (ht.bound hbc.1)
    exact .tail ih ⟨by simp; have := hbc.1; omega, trans_encodeStep h2⟩

theorem byteAt_getLast {s : List Nat} (h : 0 < s.length) :
    s.getLast? = some (byteAt s (s.length - 1)) := by
  rw [List.getLast?_eq_getElem?]
  simp [byteAt, List.getElem?_eq_getElem (show s.length - 1 < s.length by omega)]

theorem byteAt_length_append (s : List Nat) (c : Nat) (t : List Nat) :
    byteAt (s ++ c :: t) s.length = c := by
  have := byteAt_append_right s (c :: t) 0
  rw [Nat.add_zero] at this
  rw [this, byteAt_cons_zero]

/-! ## Running the loop of `Decode` -/

theorem decRun_step {lib : FloatLib} {buf : List Nat} {jsonl : Nat} {st st2 : DecState}
    (hi : st.i < jsonl) (hs : decodeStep lib buf st = .ok st2) :
    decRun lib buf jsonl st = decRun lib buf jsonl st2 := by
  rw [decRun_eq, if_pos hi, hs, Result.andThen_ok]

theorem decRun_done {lib : FloatLib} {buf : List Nat} {jsonl : Nat} {st : DecState}
    (hi : jsonl ≤ st.i) : decRun lib buf jsonl st = .ok st := by
  rw [decRun_eq, if_neg (by omega)]

theorem decRun_of_steps {lib : FloatLib} {buf : List Nat} {jsonl : Nat} {a b : DecState}
    (h : Relation.ReflTransGen (DecNext lib buf jsonl) a b) :
    decRun lib buf jsonl a = decRun lib buf jsonl b := by
  induction h with
  | refl => rfl
  | tail _ hbc ih => rw [ih, decRun_step hbc.1 hbc.2]

theorem Decode_of_reach {lib : FloatLib} {spare jsonb : List Nat} {st : DecState}
    (h : DecReach lib (jsonb ++ spare) jsonb.length st) :
    Decode lib spare jsonb =
      (decRun lib (jsonb ++ spare) jsonb.length st).andThen decodeFinish := by
  rw [Decode_eq, decRun_of_steps h]

theorem decSteps_mono {lib : FloatLib} {buf : List Nat} {jsonl : Nat} {a b : DecState}
    (h : Relation.ReflTransGen (DecNext lib buf jsonl) a b) : a.i ≤ b.i := by
  induction h with
  | refl => exact Nat.le_refl _
  | tail _ hbc ih => exact Nat.le_trans ih (decodeStep_mono hbc.2)

theorem decodeStep_stable {lib : FloatLib} {b x : List Nat} (y : List Nat)
    {st st2 : DecState} (h : decodeStep lib (b ++ x) st = .ok st2) (hi : st.i < b.length)
    (hi2 : st2.i ≤ b.length) : decodeStep lib (b ++ y) st = .ok st2 := by
  obtain ⟨i, op, json⟩ := st
  simp only at hi
  have hb : byteAt (b ++ x) i = byteAt (b ++ y) i := by
    rw [byteAt_append_left _ hi, byteAt_append_left _ hi]
  unfold decodeStep at h ⊢
  simp only at h ⊢
  cases op with
  | nil => exact h
  | cons top rest =>
    simp only at h ⊢
    cases ht : top.Typ <;> rw [ht] at h <;> simp only at h ⊢
    · unfold decodeLiteral at h ⊢
      simp only [← hb] at h ⊢
      by_cases h6 : byteAt (b ++ x) i = values "number"
      · simp only [h6, values_number, values_string, values_false, values_true, values_null,
          Nat.reduceEqDiff, if_false, if_true] at h ⊢
        cases hsl : slice (b ++ x) (i + 1) (i + 9) with
        | none => rw [hsl] at h; cases h
        | some arr =>
          rw [hsl] at h
          simp only [Result.ok.injEq] at h
          subst h
          simp only at hi2
          rw [slice_append_left _ hi2] at hsl
          rw [slice_append_left _ hi2, hsl]
      · simp only [h6, if_false] at h ⊢
        exact h
    · unfold decodeString at h ⊢
      simp only [← hb] at h ⊢
      split_ifs at h ⊢ with h0
      · rw [slice_append_left _ (by omega)] at h ⊢
        exact h
      · exact h
    · exact h
    · exact h
    · exact h
    · unfold decodeKey at h ⊢
      simp only [← hb] at h ⊢
      exact h
    · exact h

theorem opNames_get (t : opType) : ∃ name, opNames.get? t.toNat = some name := by
  cases t <;> exact ⟨_, rfl⟩

/-- The first loop state at index `n` on the way to a state at index `n`. -/
theorem dec_first_arrival {lib : FloatLib} {buf : List Nat} {n : Nat} {st : DecState}
    (h : Relation.ReflTransGen (DecNext lib buf (n + 1)) decodeInit st) (hi : st.i ≤ n) :
    ∃ st0, Relation.ReflTransGen (DecNext lib buf n) decodeInit st0 ∧
      Relation.ReflTransGen (DecNext lib buf (n + 1)) st0 st ∧ (st0 = st ∨ st0.i = n) := by
  induction h with
  | refl => exact ⟨_, .refl, .refl, .inl rfl⟩
  | @tail b0 c0 hab hbc ih =>
    have hm := decodeStep_mono hbc.2
    obtain ⟨st0, h1, h2, h3⟩ := ih (by omega)
    by_cases hlt : b0.i < n
    · rcases h3 with rfl | h3
      · exact ⟨c0, .tail h1 ⟨hlt, hbc.2⟩, .refl, .inl rfl⟩
      · have := decSteps_mono h2
        omega
    · rcases h3 with rfl | h3
      · exact ⟨st0, h1, .tail h2 hbc, .inr (by omega)⟩
      · exact ⟨st0, h1, .tail h2 hbc, .inr h3⟩

theorem decReach_stable {lib : FloatLib} {b x : List Nat} (y : List Nat) {st : DecState}
    (h : Relation.ReflTransGen (DecNext lib (b ++ x) b.length) decodeInit st)
    (hi : st.i ≤ b.length) :
    Relation.ReflTransGen (DecNext lib (b ++ y) b.length) decodeInit st := by
  induction h with
  | refl => exact .refl
  | @tail b0 c0 _ hbc ih =>
    have hm := decodeStep_mono hbc.2
    exact .tail (ih (by omega)) ⟨hbc.1, decodeStep_stable y hbc.2 hbc.1 hi⟩

theorem decSteps_weaken {lib : FloatLib} {buf : List Nat} {n : Nat} {a b : DecState}
    (h : Relation.ReflTransGen (DecNext lib buf n) a b) :
    Relation.ReflTransGen (DecNext lib buf (n + 1)) a b := by
  induction h with
  | refl => exact .refl
  | tail _ hbc ih => exact .tail ih ⟨by have := hbc.1; omega, hbc.2⟩

/-! ## White space between tokens -/

theorem byteAt_insert (a w b : List Nat) {i : Nat} (h : a.length ≤ i) :
    byteAt (a ++ w ++ b) (i + w.length) = byteAt (a ++ b) i := by
  obtain ⟨j, rfl⟩ := Nat.exists_eq_add_of_le h
  rw [byteAt_append_right, List.append_assoc, show a.length + j + w.length = a.length + (w.length + j) by omega,
    byteAt_append_right, byteAt_append_right]

theorem byteAt_inserted (a w b : List Nat) {j : Nat} (h : j < w.length) :
    byteAt (a ++ w ++ b) (a.length + j) = byteAt w j := by
  rw [List.append_assoc, byteAt_append_right, byteAt_append_left _ h]

theorem slice_insert (a w b : List Nat) {x : Nat} (y : Nat) (h : a.length ≤ x) :
    slice (a ++ w ++ b) (x + w.length) (y + w.length) = slice (a ++ b) x y := by
  unfold slice
  by_cases hc : x ≤ y ∧ y ≤ (a ++ b).length
  · rw [if_pos hc, if_pos (by simp at hc ⊢; omega)]
    obtain ⟨x2, rfl⟩ := Nat.exists_eq_add_of_le h
    obtain ⟨y2, rfl⟩ := Nat.exists_eq_add_of_le (Nat.le_trans h hc.1)
    congr 1
    rw [List.append_assoc, show a.length + y2 + w.length = a.length + (w.length + y2) by omega,
      List.take_append, List.take_append, List.take_append,
      show a.length + x2 + w.length = a.length + (w.length + x2) by omega,
      List.drop_append, List.drop_append, List.drop_append]
  · rw [if_neg hc, if_neg (by simp at hc ⊢; omega)]


theorem opRel_fresh (p k : Nat) {t : opType} {i : Nat} (h : p ≤ i) :
    OpRel p k ⟨t, i⟩ ⟨t, i + k⟩ := ⟨rfl, fun _ => ⟨rfl, h⟩⟩

theorem opRel_plain (p k : Nat) {t : opType} (x y : Nat) (h1 : t ≠ opSTRING)
    (h2 : t ≠ opNUMBER) : OpRel p k ⟨t, x⟩ ⟨t, y⟩ :=
  ⟨rfl, fun h => by rcases h with h | h <;> simp_all⟩

/-- One iteration on the text is matched by one iteration on the text with
white space inserted. -/
theorem EncTrans.shift {lib : FloatLib} {a b w : List Nat} {st st2 sh : EncState}
    (h : EncTrans lib (a ++ b) st st2) (hR : ShiftRel a.length w.length st sh) :
    ∃ sh2, EncTrans lib (a ++ w ++ b) sh sh2 ∧ ShiftRel a.length w.length st2 sh2 := by
  obtain ⟨i2, op2, out2⟩ := sh
  obtain ⟨hi, ho, hp, hF⟩ := hR
  have hlen : (a ++ w ++ b).length = (a ++ b).length + w.length := by simp; omega
  cases h with
  | emptySpace h1 =>
    simp only at hi ho hp hF
    subst hi ho
    cases hF
    exact ⟨⟨_, [], _⟩, .emptySpace (by rw [byteAt_insert _ _ _ hp]; exact h1),
      by simp only; omega, rfl, by simp only; omega, .nil⟩
  | skipSpace h1 h2 h3 =>
    simp only at hi ho hp hF
    subst hi ho
    obtain ⟨o2, rest2, hoo, hrest, rfl⟩ := List.forall₂_cons_left_iff.mp hF
    exact ⟨⟨_, o2 :: rest2, _⟩,
      .skipSpace (by rw [hoo.1]; exact h1) (by rw [hoo.1]; exact h2)
        (by rw [byteAt_insert _ _ _ hp]; exact h3),
      by simp only; omega, rfl, by simp only; omega, .cons hoo hrest⟩
  | @keyword i o rest out kw tag h1 h2 h3 h4 =>
    simp only at hi ho hp hF
    subst hi ho
    obtain ⟨o2, rest2, hoo, hrest, rfl⟩ := List.forall₂_cons_left_iff.mp hF
    refine ⟨⟨_, rest2, _⟩, .keyword kw tag (by rw [hoo.1]; exact h1) h2 (by rw [hlen]; omega) ?_,
      by simp only; omega, rfl, by simp only; omega, hrest⟩
    rw [show i + w.length + kw.length = (i + kw.length) + w.length by omega,
      slice_insert _ _ _ _ hp]
    exact h4
  | strOpen h1 h2 =>
    simp only at hi ho hp hF
    subst hi ho
    obtain ⟨o2, rest2, hoo, hrest, rfl⟩ := List.forall₂_cons_left_iff.mp hF
    exact ⟨⟨_, _ :: rest2, _⟩,
      .strOpen (by rw [hoo.1]; exact h1) (by rw [byteAt_insert _ _ _ hp]; exact h2),
      by simp only; omega, rfl, by simp only; omega, .cons (opRel_fresh _ _ hp) hrest⟩
  | arrOpen h1 h2 =>
    simp only at hi ho hp hF
    subst hi ho
    obtain ⟨o2, rest2, hoo, hrest, rfl⟩ := List.forall₂_cons_left_iff.mp hF
    exact ⟨⟨_, _ :: _ :: rest2, _⟩,
      .arrOpen (by rw [hoo.1]; exact h1) (by rw [byteAt_insert _ _ _ hp]; exact h2),
      by simp only; omega, rfl, by simp only; omega,
      .cons (opRel_plain _ _ _ _ (by simp) (by simp))
        (.cons (opRel_plain _ _ _ _ (by simp) (by simp)) hrest)⟩
  | objOpen h1 h2 =>
    simp only at hi ho hp hF
    subst hi ho
    obtain ⟨o2, rest2, hoo, hrest, rfl⟩ := List.forall₂_cons_left_iff.mp hF
    exact ⟨⟨_, _ :: _ :: rest2, _⟩,
      .objOpen (by rw [hoo.1]; exact h1) (by rw [byteAt_insert _ _ _ hp]; exact h2),
      by simp only; omega, rfl, by simp only; omega,
      .cons (opRel_plain _ _ _ _ (by simp) (by simp))
        (.cons (opRel_plain _ _ _ _ (by simp) (by simp)) hrest)⟩
  | emptyArr h1 h2 h3 =>
    simp only at hi ho hp hF
    subst hi ho
    obtain ⟨o2, rest2, hoo, hrest, rfl⟩ := List.forall₂_cons_left_iff.mp hF
    obtain ⟨o3, rest3, hoo3, hrest3, rfl⟩ := List.forall₂_cons_left_iff.mp hrest
    exact ⟨⟨_, rest3, _⟩,
      .emptyArr (by rw [hoo.1]; exact h1) (by rw [byteAt_insert _ _ _ hp]; exact h2)
        (by rw [hoo3.1]; exact h3),
      by simp only; omega, rfl, by simp only; omega, hrest3⟩
  | strayBracket h1 h2 h3 =>
    simp only at hi ho hp hF
    subst hi ho
    obtain ⟨o2, rest2, hoo, hrest, rfl⟩ := List.forall₂_cons_left_iff.mp hF
    refine ⟨⟨_, o2 :: rest2, _⟩,
      .strayBracket (by rw [hoo.1]; exact h1) (by rw [byteAt_insert _ _ _ hp]; exact h2) ?_,
      by simp only; omega, rfl, by simp only; omega, .cons hoo hrest⟩
    intro q hq
    cases hrest with
    | nil => simp at hq
    | cons hq1 _ =>
      simp only [List.head?_cons, Option.mem_def, Option.some.injEq] at hq
      subst hq
      rw [hq1.1]
      exact h3 _ (by simp)
  | numOpen h1 h2 =>
    simp only at hi ho hp hF
    subst hi ho
    obtain ⟨o2, rest2, hoo, hrest, rfl⟩ := List.forall₂_cons_left_iff.mp hF
    exact ⟨⟨_, _ :: rest2, _⟩,
      .numOpen (by rw [hoo.1]; exact h1) (by rw [byteAt_insert _ _ _ hp]; exact h2),
      by simp only; omega, rfl, by simp only; omega, .cons (opRel_fresh _ _ hp) hrest⟩
  | strChar h1 h2 h3 =>
    simp only at hi ho hp hF
    subst hi ho
    obtain ⟨o2, rest2, hoo, hrest, rfl⟩ := List.forall₂_cons_left_iff.mp hF
    exact ⟨⟨_, o2 :: rest2, _⟩,
      .strChar (by rw [hoo.1]; exact h1) (by rw [byteAt_insert _ _ _ hp]; exact h2)
        (by rw [byteAt_insert _ _ _ hp]; exact h3),
      by simp only; omega, rfl, by simp only; omega, .cons hoo hrest⟩
  | @strClose i o rest out s h1 h2 h3 =>
    simp only at hi ho hp hF
    subst hi ho
    obtain ⟨o2, rest2, hoo, hrest, rfl⟩ := List.forall₂_cons_left_iff.mp hF
    obtain ⟨hs1, hs2⟩ := hoo.2 (.inl h1)
    refine ⟨⟨_, rest2, _⟩,
      .strClose s (by rw [hoo.1]; exact h1) (by rw [byteAt_insert _ _ _ hp]; exact h2) ?_,
      by simp only; omega, rfl, by simp only; omega, hrest⟩
    rw [hs1, show o.StartIndex + w.length + 1 = (o.StartIndex + 1) + w.length by omega,
      slice_insert _ _ _ _ (by omega)]
    exact h3
  | numChar h1 h2 =>
    simp only at hi ho hp hF
    subst hi ho
    obtain ⟨o2, rest2, hoo, hrest, rfl⟩ := List.forall₂_cons_left_iff.mp hF
    exact ⟨⟨_, o2 :: rest2, _⟩,
      .numChar (by rw [hoo.1]; exact h1) (by rw [byteAt_insert _ _ _ hp]; exact h2),
      by simp only; omega, rfl, by simp only; omega, .cons hoo hrest⟩
  | numClose s bits h1 h2 h3 h4 =>
    simp only at hi ho hp hF
    subst hi ho
    obtain ⟨o2, rest2, hoo, hrest, rfl⟩ := List.forall₂_cons_left_iff.mp hF
    obtain ⟨hs1, hs2⟩ := hoo.2 (.inr h1)
    refine ⟨⟨_, rest2, _⟩,
      .numClose s bits (by rw [hoo.1]; exact h1) (by rw [byteAt_insert _ _ _ hp]; exact h2) ?_ h4,
      by simp only, rfl, by simp only; omega, hrest⟩
    rw [hs1, slice_insert _ _ _ _ hs2]
    exact h3
  | arrClose h1 h2 =>
    simp only at hi ho hp hF
    subst hi ho
    obtain ⟨o2, rest2, hoo, hrest, rfl⟩ := List.forall₂_cons_left_iff.mp hF
    exact ⟨⟨_, rest2, _⟩,
      .arrClose (by rw [hoo.1]; exact h1) (by rw [byteAt_insert _ _ _ hp]; exact h2),
      by simp only; omega, rfl, by simp only; omega, hrest⟩
  | arrNext h1 h2 =>
    simp only at hi ho hp hF
    subst hi ho
    obtain ⟨o2, rest2, hoo, hrest, rfl⟩ := List.forall₂_cons_left_iff.mp hF
    exact ⟨⟨_, _ :: o2 :: rest2, _⟩,
      .arrNext (by rw [hoo.1]; exact h1) (by rw [byteAt_insert _ _ _ hp]; exact h2),
      by simp only; omega, rfl, by simp only; omega,
      .cons (opRel_plain _ _ _ _ (by simp) (by simp)) (.cons hoo hrest)⟩
  | keyClose h1 h2 =>
    simp only at hi ho hp hF
    subst hi ho
    obtain ⟨o2, rest2, hoo, hrest, rfl⟩ := List.forall₂_cons_left_iff.mp hF
    exact ⟨⟨_, rest2, _⟩,
      .keyClose (by rw [hoo.1]; exact h1) (by rw [byteAt_insert _ _ _ hp]; exact h2),
      by simp only; omega, rfl, by simp only; omega, hrest⟩
  | keyOpen h1 h2 =>
    simp only at hi ho hp hF
    subst hi ho
    obtain ⟨o2, rest2, hoo, hrest, rfl⟩ := List.forall₂_cons_left_iff.mp hF
    exact ⟨⟨_, _ :: _ :: rest2, _⟩,
      .keyOpen (by rw [hoo.1]; exact h1) (by rw [byteAt_insert _ _ _ hp]; exact h2),
      by simp only; omega, rfl, by simp only; omega,
      .cons (opRel_fresh _ _ hp) (.cons (opRel_plain _ _ _ _ (by simp) (by simp)) hrest)⟩
  | kvColon h1 h2 =>
    simp only at hi ho hp hF
    subst hi ho
    obtain ⟨o2, rest2, hoo, hrest, rfl⟩ := List.forall₂_cons_left_iff.mp hF
    exact ⟨⟨_, _ :: rest2, _⟩,
      .kvColon (by rw [hoo.1]; exact h1) (by rw [byteAt_insert _ _ _ hp]; exact h2),
      by simp only; omega, rfl, by simp only; omega,
      .cons (opRel_plain _ _ _ _ (by simp) (by simp)) hrest⟩
  | objClose h1 h2 =>
    simp only at hi ho hp hF
    subst hi ho
    obtain ⟨o2, rest2, hoo, hrest, rfl⟩ := List.forall₂_cons_left_iff.mp hF
    exact ⟨⟨_, rest2, _⟩,
      .objClose (by rw [hoo.1]; exact h1) (by rw [byteAt_insert _ _ _ hp]; exact h2),
      by simp only; omega, rfl, by simp only; omega, hrest⟩
  | objNext h1 h2 =>
    simp only at hi ho hp hF
    subst hi ho
    obtain ⟨o2, rest2, hoo, hrest, rfl⟩ := List.forall₂_cons_left_iff.mp hF
    exact ⟨⟨_, _ :: o2 :: rest2, _⟩,
      .objNext (by rw [hoo.1]; exact h1) (by rw [byteAt_insert _ _ _ hp]; exact h2),
      by simp only; omega, rfl, by simp only; omega,
      .cons (opRel_plain _ _ _ _ (by simp) (by simp)) (.cons hoo hrest)⟩


theorem encodeFinish_shift {lib : FloatLib} {a b w out : List Nat} {st sh : EncState}
    (hR : ShiftRel a.length w.length st sh) (h : encodeFinish lib (a ++ b) st = .ok out) :
    encodeFinish lib (a ++ w ++ b) sh = .ok out := by
  obtain ⟨i2, op2, out2⟩ := sh
  obtain ⟨i, op, out0⟩ := st
  obtain ⟨hi, ho, hp, hF⟩ := hR
  simp only at hi ho hp hF
  subst ho
  rcases encodeFinish_ok h with ⟨hop, hout⟩ | ⟨top, tok, bits, hop, ht, htok, hbits, hout⟩
  · simp only at hop hout
    subst hop hout
    cases hF
    rfl
  · simp only at hop hout
    subst hop hout
    obtain ⟨o2, rest2, hoo, hrest, rfl⟩ := List.forall₂_cons_left_iff.mp hF
    cases hrest
    obtain ⟨hs1, hs2⟩ := hoo.2 (.inr ht)
    have hlen : (a ++ w ++ b).length = (a ++ b).length + w.length := by simp; omega
    have hsl : slice (a ++ w ++ b) o2.StartIndex (a ++ w ++ b).length = some tok := by
      rw [hs1, hlen, slice_insert _ _ _ _ hs2]
      exact htok
    simp only [encodeFinish, hoo.1, ht, and_self, if_true, hsl, hbits]

/-- Behind the insertion the two runs of the loop of `Encode` go in step. -/
theorem encRun_shift {lib : FloatLib} {a b w out : List Nat} :
    ∀ (n : Nat) (st sh : EncState), encMeasure (a ++ b) st ≤ n →
      ShiftRel a.length w.length st sh →
      (encRun lib (a ++ b) st).andThen (encodeFinish lib (a ++ b)) = .ok out →
      (encRun lib (a ++ w ++ b) sh).andThen (encodeFinish lib (a ++ w ++ b)) = .ok out := by
  have hlen : (a ++ w ++ b).length = (a ++ b).length + w.length := by simp; omega
  intro n
  induction n with
  | zero =>
    intro st sh hm hR h
    have hi : ¬ st.i < (a ++ b).length := by unfold encMeasure at hm; omega
    rw [encRun_eq, if_neg hi, Result.andThen_ok] at h
    rw [encRun_eq, if_neg (by rw [hlen, hR.1]; omega), Result.andThen_ok]
    exact encodeFinish_shift hR h
  | succ n ih =>
    intro st sh hm hR h
    by_cases hi : st.i < (a ++ b).length
    · rw [encRun_eq, if_pos hi] at h
      cases hs : encodeStep lib (a ++ b) st with
      | ok st2 =>
        rw [hs, Result.andThen_ok] at h
        have ht := encodeStep_trans hs
        obtain ⟨sh2, ht2, hR2⟩ := ht.shift hR
        have hlt := ht.measure hi
        rw [encRun_step (by rw [hlen, hR.1]; omega) (trans_encodeStep ht2)]
        exact ih st2 sh2 (by omega) hR2 h
      | error e => rw [hs] at h; cases h
      | panic => rw [hs] at h; cases h
      | outOfFuel => rw [hs] at h; cases h
    · rw [encRun_eq, if_neg hi, Result.andThen_ok] at h
      rw [encRun_eq, if_neg (by rw [hlen, hR.1]; omega), Result.andThen_ok]
      exact encodeFinish_shift hR h

theorem EncTrans.same_index {lib : FloatLib} {json : List Nat} {st st2 : EncState}
    (h : EncTrans lib json st st2) (hi : st2.i = st.i) :
    ∃ o rest s bits, st.op = o :: rest ∧ o.Typ = opNUMBER ∧
      ¬ (isDigit (byteAt json st.i) ∨ byteAt json st.i = 46) ∧
      slice json o.StartIndex st.i = some s ∧ lib.parseFloat s = some bits ∧
      st2 = ⟨st.i, rest, st.jsonb ++ bigEndian64 bits⟩ := by
  cases h <;> simp only at hi <;> try omega
  · rename_i kw tag _ h2 _ _
    rcases h2 with ⟨rfl, _⟩ | ⟨rfl, _⟩ | ⟨rfl, _⟩ <;>
      simp [kwFalse, kwTrue, kwNull] at hi
  · rename_i s bits h1 h2 h3 h4
    exact ⟨_, _, s, bits, rfl, h1, h2, h3, h4, rfl⟩

theorem encSteps_mono {lib : FloatLib} {json : List Nat} {x y : EncState}
    (h : Relation.ReflTransGen (EncNext lib json) x y) : x.i ≤ y.i := by
  induction h with
  | refl => exact Nat.le_refl _
  | tail _ hbc ih => exact Nat.le_trans ih (encodeStep_trans hbc.2).mono

/-- The first loop state at index `p` on the way to a state at index `p`: it
is reached by iterations that start left of `p`. -/
theorem enc_first_arrival {lib : FloatLib} {json : List Nat} {p : Nat} {st : EncState}
    (h : EncReach lib json st) (hi : st.i ≤ p) :
    ∃ st0, Relation.ReflTransGen (fun x y => EncNext lib json x y ∧ x.i < p) encodeInit st0 ∧
      Relation.ReflTransGen (EncNext lib json) st0 st ∧ (st0 = st ∨ st0.i = p) := by
  induction h with
  | refl => exact ⟨_, .refl, .refl, .inl rfl⟩
  | @tail b0 c0 hab hbc ih =>
    have hm := (encodeStep_trans hbc.2).mono
    obtain ⟨st0, h1, h2, h3⟩ := ih (by omega)
    by_cases hlt : b0.i < p
    · rcases h3 with rfl | h3
      · exact ⟨c0, .tail h1 ⟨hbc, hlt⟩, .refl, .inl rfl⟩
      · have := encSteps_mono h2
        omega
    · rcases h3 with rfl | h3
      · exact ⟨st0, h1, .tail h2 hbc, .inr (by omega)⟩
      · exact ⟨st0, h1, .tail h2 hbc, .inr h3⟩

theorem encBefore_reach {lib : FloatLib} {json : List Nat} {p : Nat} {st : EncState}
    (h : Relation.ReflTransGen (fun x y => EncNext lib json x y ∧ x.i < p) encodeInit st) :
    EncReach lib json st := by
  induction h with
  | refl => exact .refl
  | tail _ hbc ih => exact .tail ih hbc.1

theorem encBefore_stable {lib : FloatLib} {a b : List Nat} (b2 : List Nat) {st : EncState}
    (h : Relation.ReflTransGen (fun x y => EncNext lib (a ++ b) x y ∧ x.i < a.length)
      encodeInit st) (hi : st.i ≤ a.length) : EncReach lib (a ++ b2) st := by
  induction h with
  | refl => exact .refl
  | @tail b0 c0 _ hbc ih =>
    have ht := encodeStep_trans hbc.1.2
    exact .tail (ih (by have := ht.mono; omega))
      ⟨by simp; have := hbc.2; omega, trans_encodeStep (ht.stable b2 hbc.2 hi)⟩

theorem forall₂_opRel_below (p k : Nat) {l : List operation}
    (h : ∀ o ∈ l, o.Typ ≠ opSTRING ∧ o.Typ ≠ opNUMBER) : List.Forall₂ (OpRel p k) l l := by
  induction l with
  | nil => exact .nil
  | cons o r ih =>
    refine .cons ⟨rfl, fun hc => ?_⟩ (ih (fun q hq => h q (List.mem_cons_of_mem _ hq)))
    have := h o (by simp)
    rcases hc with hc | hc
    · exact absurd hc this.1
    · exact absurd hc this.2

theorem Below.plain {o : operation} (h : Below o) : o.Typ ≠ opSTRING ∧ o.Typ ≠ opNUMBER := by
  rcases h with h | h | h <;> simp [h]


/-- A Number context on top at a byte that ends the number: the loop of
`Encode` closes it there, or the end-of-input flush does. -/
theorem encRun_number_close {lib : FloatLib} {json out out0 : List Nat} {i : Nat}
    {o : operation} {rest : List operation} (ho : o.Typ = opNUMBER)
    (hc : ¬ (isDigit (byteAt json i) ∨ byteAt json i = 46)) (hi : i ≤ json.length)
    (h : (encRun lib json ⟨i, o :: rest, out0⟩).andThen (encodeFinish lib json) = .ok out) :
    ∃ tok bits, slice json o.StartIndex i = some tok ∧ lib.parseFloat tok = some bits ∧
      (encRun lib json ⟨i, rest, out0 ++ bigEndian64 bits⟩).andThen (encodeFinish lib json) =
        .ok out := by
  by_cases hlt : i < json.length
  · rw [encRun_eq, if_pos hlt] at h
    cases hs : encodeStep lib json ⟨i, o :: rest, out0⟩ with
    | ok st2 =>
      rw [hs, Result.andThen_ok] at h
      have hs2 := hs
      simp only [encodeStep, ho, encodeNumber, if_neg hc] at hs2
      cases hsl : slice json o.StartIndex i with
      | none => simp [hsl] at hs2
      | some tok =>
        cases hp : lib.parseFloat tok with
        | none => simp [hsl, hp] at hs2
        | some bits =>
          simp only [hsl, hp, Result.ok.injEq] at hs2
          subst hs2
          exact ⟨tok, bits, rfl, hp, h⟩
    | error e => rw [hs] at h; cases h
    | panic => rw [hs] at h; cases h
    | outOfFuel => rw [hs] at h; cases h
  · have hie : i = json.length := by omega
    subst hie
    rw [encRun_done (Nat.le_refl _), Result.andThen_ok] at h
    rcases encodeFinish_ok h with ⟨hop, _⟩ | ⟨top, tok, bits, hop, _, htok, hbits, hout⟩
    · cases hop
    · simp only [List.cons.injEq] at hop
      obtain ⟨rfl, rfl⟩ := hop
      refine ⟨tok, bits, htok, hbits, ?_⟩
      rw [encRun_done (Nat.le_refl _), Result.andThen_ok]
      simp only at hout
      rw [hout]
      rfl

/-- Inserting one run of white space between two tokens of a text that
`Encode` accepts does not change the output. -/
theorem encode_insert_ws {lib : FloatLib} {a b w out : List Nat}
    (hb : TokenBoundary lib (a ++ b) a.length) (hw : ∀ c ∈ w, isSpace c)
    (h : Encode lib (a ++ b) = .ok out) : Encode lib (a ++ w ++ b) = .ok out := by
  obtain ⟨stB, hr, hi, helig⟩ := hb
  obtain ⟨st0, h1, h2, h3⟩ := enc_first_arrival hr (Nat.le_of_eq hi)
  have hi0 : st0.i = a.length := by
    rcases h3 with rfl | h3
    · exact hi
    · exact h3
  have helig0 : ∀ o ∈ st0.op.head?, o.Typ ≠ opSTRING ∧
      (o.Typ = opNUMBER → ¬ (isDigit (byteAt (a ++ b) a.length) ∨ byteAt (a ++ b) a.length = 46)) := by
    rcases Relation.ReflTransGen.cases_head h2 with heq | ⟨c, hc1, hc2⟩
    · rw [heq]; exact helig
    · have hm1 := (encodeStep_trans hc1.2).mono
      have hm2 := encSteps_mono hc2
      obtain ⟨o, rest, s, bits, hop, ho, hnc, _⟩ :=
        (encodeStep_trans hc1.2).same_index (by omega)
      intro q hq
      rw [hop] at hq
      simp only [List.head?_cons, Option.mem_def, Option.some.injEq] at hq
      subst hq
      rw [hi0] at hnc
      exact ⟨by rw [ho]; simp, fun _ => hnc⟩
  have hreach : EncReach lib (a ++ b) st0 := encBefore_reach h1
  have hreach2 : EncReach lib (a ++ w ++ b) st0 := by
    rw [List.append_assoc]; exact encBefore_stable (w ++ b) h1 (Nat.le_of_eq hi0)
  have hinv := hreach.invariant
  rw [Encode_of_reach hreach] at h
  rw [Encode_of_reach hreach2]
  obtain ⟨i, op, out0⟩ := st0
  simp only at hi0 helig0
  subst hi0
  have hlen : (a ++ w ++ b).length = (a ++ b).length + w.length := by simp; omega
  have hsp : ∀ j < w.length, isSpace (byteAt (a ++ w ++ b) (a.length + j)) := fun j hj => by
    rw [byteAt_inserted _ _ _ hj]; exact hw _ (byteAt_mem hj)
  have hbelow : ∀ o ∈ op.tail, o.Typ ≠ opSTRING ∧ o.Typ ≠ opNUMBER :=
    fun o ho => (hinv.2.1 o ho).plain
  by_cases hnum : ∃ o ∈ op.head?, o.Typ = opNUMBER
  · obtain ⟨o, ho, hon⟩ := hnum
    cases op with
    | nil => simp at ho
    | cons o2 rest =>
      simp only [List.head?_cons, Option.mem_def, Option.some.injEq] at ho
      subst ho
      simp only [List.tail_cons] at hbelow
      have hnc := (helig0 o2 (by simp)).2 hon
      obtain ⟨tok, bits, htok, hbits, h4⟩ :=
        encRun_number_close hon hnc (by simp) h
      cases w with
      | nil => rw [List.append_nil]; exact h
      | cons c t =>
        have hc : isSpace c := hw c (by simp)
        have hsl : slice (a ++ (c :: t) ++ b) o2.StartIndex a.length = some tok := by
          rw [List.append_assoc, slice_append_left _ (Nat.le_refl _)]
          rw [slice_append_left _ (Nat.le_refl _)] at htok
          exact htok
        have hstep : EncTrans lib (a ++ (c :: t) ++ b) ⟨a.length, o2 :: rest, out0⟩
            ⟨a.length, rest, out0 ++ bigEndian64 bits⟩ :=
          .numClose tok bits hon (by
            have := byteAt_inserted a (c :: t) b (j := 0) (by simp)
            rw [Nat.add_zero, byteAt_cons_zero] at this
            rw [this]
            unfold isSpace at hc; unfold isDigit; omega) hsl hbits
        rw [encRun_step (by rw [hlen]; simp; omega) (trans_encodeStep hstep),
          encRun_skip_spaces lib _ rest _
            (fun q hq => hbelow q (List.mem_of_mem_head? hq))
            (c :: t).length a.length (by rw [hlen]; simp) hsp]
        exact encRun_shift _ ⟨a.length, rest, out0 ++ bigEndian64 bits⟩ _ (Nat.le_refl _)
          ⟨rfl, rfl, Nat.le_refl _, forall₂_opRel_below _ _ hbelow⟩ h4
  · have hplain : ∀ o ∈ op, o.Typ ≠ opSTRING ∧ o.Typ ≠ opNUMBER := by
      intro o ho
      cases op with
      | nil => simp at ho
      | cons o2 rest =>
        rcases List.mem_cons.mp ho with rfl | ho
        · exact ⟨(helig0 o (by simp)).1, fun hn => hnum ⟨o, by simp, hn⟩⟩
        · exact hbelow o ho
    rw [encRun_skip_spaces lib _ op _ (fun q hq => hplain q (List.mem_of_mem_head? hq))
      w.length a.length (by rw [hlen]; simp) hsp]
    exact encRun_shift _ ⟨a.length, op, out0⟩ _ (Nat.le_refl _)
      ⟨rfl, rfl, Nat.le_refl _, forall₂_opRel_below _ _ hplain⟩ h

/-! ## Reading a text at an offset -/

theorem drop_cons_info {json : List Nat} {i c : Nat} {r : List Nat}
    (h : json.drop i = c :: r) :
    i < json.length ∧ byteAt json i = c ∧ json.drop (i + 1) = r := by
  have hlt : i < json.length := by
    by_contra hc
    rw [List.drop_eq_nil_of_le (by omega)] at h
    cases h
  refine ⟨hlt, ?_, ?_⟩
  · have := List.getElem?_drop (L := json) (i := i) (j := 0)
    rw [h] at this
    simp only [List.getElem?_cons_zero, Nat.add_zero] at this
    simp [byteAt, ← this]
  · rw [← List.drop_drop, h]
    rfl

theorem drop_append_info {json : List Nat} {i : Nat} {x r : List Nat}
    (h : json.drop i = x ++ r) (hi : i ≤ json.length) :
    i + x.length ≤ json.length ∧ json.drop (i + x.length) = r ∧
      slice json i (i + x.length) = some x := by
  have hl : (json.drop i).length = x.length + r.length := by rw [h]; simp
  rw [List.length_drop] at hl
  have hle : i + x.length ≤ json.length := by omega
  refine ⟨hle, ?_, ?_⟩
  · rw [← List.drop_drop, h, List.drop_left]
  · unfold slice
    rw [if_pos ⟨by omega, hle⟩]
    congr 1
    rw [List.drop_take, h, Nat.add_sub_cancel_left, List.take_left]

theorem encRest_step {lib : FloatLib} {json : List Nat} {st t : EncState}
    (hi : st.i < json.length) (hs : EncTrans lib json st t) :
    encRest lib json st = encRest lib json t := by
  unfold encRest
  rw [encRun_step hi (trans_encodeStep hs)]


theorem encRest_done {lib : FloatLib} {json : List Nat} {st : EncState}
    (hi : json.length ≤ st.i) : encRest lib json st = encodeFinish lib json st := by
  unfold encRest
  rw [encRun_done hi, Result.andThen_ok]

/-- The loop of `Encode` walks over a token `x` at offset `i` whose bytes all
leave the top context as it is. -/
theorem encRest_scan {lib : FloatLib} {json : List Nat} {op : List operation} {out : List Nat}
    (P : Nat → Prop)
    (hP : ∀ j, j < json.length → P (byteAt json j) →
      EncTrans lib json ⟨j, op, out⟩ ⟨j + 1, op, out⟩) :
    ∀ (x : List Nat) (i : Nat) (r : List Nat), json.drop i = x ++ r → (∀ c ∈ x, P c) →
      encRest lib json ⟨i, op, out⟩ = encRest lib json ⟨i + x.length, op, out⟩ := by
  intro x
  induction x with
  | nil => intro i r _ _; rfl
  | cons c t ih =>
    intro i r h hx
    obtain ⟨h1, h2, h3⟩ := drop_cons_info h
    rw [encRest_step h1 (hP i h1 (by rw [h2]; exact hx c (by simp))),
      ih (i + 1) r h3 (fun d hd => hx d (List.mem_cons_of_mem _ hd))]
    simp only [List.length_cons]
    rw [show i + 1 + t.length = i + (t.length + 1) by omega]

theorem encRest_string {lib : FloatLib} {json : List Nat} {top : operation}
    {rest : List operation} {out : List Nat} (ht : top.Typ = opSTRING) {x r : List Nat} {i : Nat}
    (h : json.drop i = x ++ r) (hx : goodText x) :
    encRest lib json ⟨i, top :: rest, out⟩ = encRest lib json ⟨i + x.length, top :: rest, out⟩ :=
  encRest_scan (fun c => c ≠ 34 ∧ c ≠ 0) (fun _ _ hc => .strChar ht hc.2 hc.1) x i r h hx

theorem encRest_digits {lib : FloatLib} {json : List Nat} {top : operation}
    {rest : List operation} {out : List Nat} (ht : top.Typ = opNUMBER) {x r : List Nat} {i : Nat}
    (h : json.drop i = x ++ r) (hx : ∀ d ∈ x, isDigit d ∨ d = 46) :
    encRest lib json ⟨i, top :: rest, out⟩ = encRest lib json ⟨i + x.length, top :: rest, out⟩ :=
  encRest_scan (fun c => isDigit c ∨ c = 46) (fun _ _ hc => .numChar ht hc) x i r h hx

/-- A good number token at offset `i`, followed by `q`, in a Literal context. -/
theorem encRest_number {lib : FloatLib} {json tok q : List Nat} {i s0 : Nat}
    {rest : List operation} {out : List Nat} (hg : goodNumber lib tok)
    (hd : json.drop i = tok ++ q) (hq : ∀ c ∈ q.head?, ¬ (isDigit c ∨ c = 46))
    (hq2 : q = [] → rest = []) :
    encRest lib json ⟨i, ⟨opLITERAL, s0⟩ :: rest, out⟩ =
      encRest lib json ⟨i + tok.length, rest, out ++ ([6] ++ bigEndian64 (numBits lib tok))⟩ := by
  obtain ⟨h1, h2, h3, h4⟩ := hg
  cases tok with
  | nil => exact absurd rfl h3
  | cons c t =>
    simp only [List.cons_append] at hd
    obtain ⟨a1, a2, a3⟩ := drop_cons_info hd
    obtain ⟨b1, b2, _⟩ := drop_append_info a3 (by omega)
    have hsl : slice json i (i + (c :: t).length) = some (c :: t) :=
      (drop_append_info (x := c :: t) (r := q) (by simpa using hd) (by omega)).2.2
    obtain ⟨bits, hbits⟩ := Option.isSome_iff_exists.mp h4
    have hnb : numBits lib (c :: t) = bits := by simp [numBits, hbits]
    rw [encRest_step a1 (.numOpen rfl (by rw [a2]; exact h1 c (by simp))),
      encRest_digits rfl a3 (by simpa using h2), hnb]
    simp only [List.length_cons] at hsl ⊢
    rw [show i + 1 + t.length = i + (t.length + 1) by omega] at b1 b2 ⊢
    cases q with
    | nil =>
      have hrest := hq2 rfl
      subst hrest
      have hlen : i + (t.length + 1) = json.length := by
        have := congrArg List.length b2
        simp at this
        omega
      rw [encRest_done (by simp only; omega), encRest_done (by simp only; omega)]
      rw [hlen] at hsl
      simp [encodeFinish, hsl, hbits]
    | cons d q2 =>
      obtain ⟨c1, c2, _⟩ := drop_cons_info b2
      rw [encRest_step c1 (.numClose (c :: t) bits rfl (by rw [c2]; exact hq d (by simp)) hsl hbits)]
      simp


theorem tail_head (r : JTail) (q : List Nat) :
    ∀ c ∈ (r.render id ++ 93 :: q).head?, ¬ (isDigit c ∨ c = 46) := by
  cases r <;> simp [JTail.render, isDigit]

theorem members_head (r : JMembers) (q : List Nat) :
    ∀ c ∈ (r.render id ++ 125 :: q).head?, ¬ (isDigit c ∨ c = 46) := by
  cases r <;> simp [JMembers.render, isDigit]

/-- A member `"k":v` at offset `i` in a Key context, followed by `,` or `}`. -/
theorem encRest_member {lib : FloatLib} {json k q : List Nat} {v : JVal} {i : Nat}
    {top : operation} {rest : List operation} {out : List Nat} (hv : EncodesValue lib v)
    (ht : top.Typ = opKEY) (hk : goodText k)
    (hd : json.drop i = 34 :: (k ++ 34 :: 58 :: (v.render id ++ q)))
    (hq : ∀ c ∈ q.head?, ¬ (isDigit c ∨ c = 46)) (hq2 : q ≠ []) :
    encRest lib json ⟨i, top :: rest, out⟩ =
      encRest lib json ⟨i + (1 + k.length + 2 + (v.render id).length), rest,
        out ++ (k ++ [0] ++ v.binary lib)⟩ := by
  obtain ⟨a1, a2, a3⟩ := drop_cons_info hd
  obtain ⟨b1, b2, b3⟩ := drop_append_info a3 (by omega)
  obtain ⟨c1, c2, c3⟩ := drop_cons_info b2
  obtain ⟨d1, d2, d3⟩ := drop_cons_info c3
  rw [encRest_step a1 (.keyOpen ht a2),
    encRest_string rfl a3 hk,
    encRest_step c1 (.strClose k rfl c2 b3),
    encRest_step d1 (.kvColon rfl d2),
    hv json _ _ rest _ q d3 hq (fun h => absurd h hq2)]
  congr 2
  · omega
  · simp

mutual
/-- The loop of `Encode` on the compact text of a good value. -/
theorem encode_value (lib : FloatLib) : ∀ (v : JVal), v.Good lib → EncodesValue lib v
  | .null, _ => by
    intro json i s0 rest out q hd _ _
    obtain ⟨h1, _, h3⟩ := drop_append_info (x := kwNull) hd (by
      by_contra hc
      rw [List.drop_eq_nil_of_le (by omega)] at hd
      simp [JVal.render, kwNull] at hd)
    exact encRest_step (by simp [kwNull] at h1 ⊢; omega)
      (.keyword kwNull 2 rfl (by simp) h1 h3)
  | .jfalse, _ => by
    intro json i s0 rest out q hd _ _
    obtain ⟨h1, _, h3⟩ := drop_append_info (x := kwFalse) hd (by
      by_contra hc
      rw [List.drop_eq_nil_of_le (by omega)] at hd
      simp [JVal.render, kwFalse] at hd)
    exact encRest_step (by simp [kwFalse] at h1 ⊢; omega)
      (.keyword kwFalse 1 rfl (by simp) h1 h3)
  | .jtrue, _ => by
    intro json i s0 rest out q hd _ _
    obtain ⟨h1, _, h3⟩ := drop_append_info (x := kwTrue) hd (by
      by_contra hc
      rw [List.drop_eq_nil_of_le (by omega)] at hd
      simp [JVal.render, kwTrue] at hd)
    exact encRest_step (by simp [kwTrue] at h1 ⊢; omega)
      (.keyword kwTrue 3 rfl (by simp) h1 h3)
  | .num tok, hg => by
    intro json i s0 rest out q hd hq hq2
    exact encRest_number hg hd hq hq2
  | .str s, hg => by
    intro json i s0 rest out q hd _ _
    simp only [JVal.render, List.append_assoc, List.cons_append, List.nil_append] at hd
    obtain ⟨a1, a2, a3⟩ := drop_cons_info hd
    obtain ⟨b1, b2, b3⟩ := drop_append_info a3 (by omega)
    obtain ⟨c1, c2, _⟩ := drop_cons_info b2
    rw [encRest_step a1 (.strOpen rfl a2), encRest_string rfl a3 hg,
      encRest_step c1 (.strClose s rfl c2 b3)]
    congr 2
    · simp [JVal.render]; omega
    · simp [JVal.binary]
  | .emptyArr, _ => by
    intro json i s0 rest out q hd _ _
    simp only [JVal.render, List.cons_append, List.nil_append] at hd
    obtain ⟨a1, a2, a3⟩ := drop_cons_info hd
    obtain ⟨b1, b2, _⟩ := drop_cons_info a3
    rw [encRest_step a1 (.arrOpen rfl a2), encRest_step b1 (.emptyArr rfl b2 rfl)]
    congr 2
    simp [JVal.binary]
  | .arr v r, hg => by
    intro json i s0 rest out q hd _ _
    simp only [JVal.render, List.append_assoc, List.cons_append, List.nil_append] at hd
    obtain ⟨a1, a2, a3⟩ := drop_cons_info hd
    obtain ⟨b1, b2, _⟩ := drop_append_info a3 (by omega)
    obtain ⟨c1, c2, _⟩ := drop_append_info b2 (by omega)
    obtain ⟨d1, d2, _⟩ := drop_cons_info c2
    rw [encRest_step a1 (.arrOpen rfl a2),
      encode_value lib v hg.1 json _ _ _ _ _ a3 (tail_head r q) (by simp),
      encode_tail lib r hg.2 json _ _ _ _ q rfl b2,
      encRest_step d1 (.arrClose rfl d2)]
    congr 2
    · simp [JVal.render]; omega
    · simp [JVal.binary]
  | .obj k v ms, hg => by
    intro json i s0 rest out q hd _ _
    simp only [JVal.render, List.append_assoc, List.cons_append, List.nil_append] at hd
    obtain ⟨a1, a2, a3⟩ := drop_cons_info hd
    have a4 : json.drop (i + 1) =
        34 :: (k ++ 34 :: 58 :: (v.render id ++ (ms.render id ++ 125 :: q))) := a3
    have e : (34 :: (k ++ 34 :: 58 :: v.render id)).length =
        1 + k.length + 2 + (v.render id).length := by simp; omega
    obtain ⟨b1, b2, _⟩ := drop_append_info (x := 34 :: (k ++ 34 :: 58 :: v.render id))
      (r := ms.render id ++ 125 :: q) (by simpa using a4) (by omega)
    rw [e] at b1 b2
    obtain ⟨c1, c2, _⟩ := drop_append_info b2 (by omega)
    obtain ⟨d1, d2, _⟩ := drop_cons_info c2
    rw [encRest_step a1 (.objOpen rfl a2),
      encRest_member (encode_value lib v hg.2.2.1) rfl hg.2.1 a4 (members_head ms q) (by simp),
      encode_members lib ms hg.2.2.2 json _ _ _ _ q rfl b2,
      encRest_step d1 (.objClose rfl d2)]
    congr 2
    · simp [JVal.render]; omega
    · simp [JVal.binary]
/-- The loop of `Encode` on the elements behind the first, in an Array context. -/
theorem encode_tail (lib : FloatLib) : ∀ (r : JTail), r.Good lib →
    ∀ (json : List Nat) (i : Nat) (top : operation) (rest : List operation) (out q : List Nat),
      top.Typ = opARRAY → json.drop i = r.render id ++ 93 :: q →
      encRest lib json ⟨i, top :: rest, out⟩ =
        encRest lib json ⟨i + (r.render id).length, top :: rest, out ++ r.binary lib⟩
  | .nil, _ => by
    intro json i top rest out q _ _
    simp [JTail.render, JTail.binary]
  | .cons v r, hg => by
    intro json i top rest out q ht hd
    simp only [JTail.render, List.append_assoc, List.cons_append, List.nil_append] at hd
    obtain ⟨a1, a2, a3⟩ := drop_cons_info hd
    obtain ⟨b1, b2, _⟩ := drop_append_info a3 (by omega)
    rw [encRest_step a1 (.arrNext ht a2),
      encode_value lib v hg.1 json _ _ _ _ _ a3 (tail_head r q) (by simp),
      encode_tail lib r hg.2 json _ _ _ _ q ht b2]
    congr 2
    · simp [JTail.render]; omega
    · simp [JTail.binary]
/-- The loop of `Encode` on the members behind the first, in an Object context. -/
theorem encode_members (lib : FloatLib) : ∀ (r : JMembers), r.Good lib →
    ∀ (json : List Nat) (i : Nat) (top : operation) (rest : List operation) (out q : List Nat),
      top.Typ = opOBJECT → json.drop i = r.render id ++ 125 :: q →
      encRest lib json ⟨i, top :: rest, out⟩ =
        encRest lib json ⟨i + (r.render id).length, top :: rest, out ++ r.binary lib⟩
  | .nil, _ => by
    intro json i top rest out q _ _
    simp [JMembers.render, JMembers.binary]
  | .cons k v ms, hg => by
    intro json i top rest out q ht hd
    simp only [JMembers.render, List.append_assoc, List.cons_append, List.nil_append] at hd
    obtain ⟨a1, a2, a3⟩ := drop_cons_info hd
    have a4 : json.drop (i + 1) =
        34 :: (k ++ 34 :: 58 :: (v.render id ++ (ms.render id ++ 125 :: q))) := a3
    have e : (34 :: (k ++ 34 :: 58 :: v.render id)).length =
        1 + k.length + 2 + (v.render id).length := by simp; omega
    obtain ⟨b1, b2, _⟩ := drop_append_info (x := 34 :: (k ++ 34 :: 58 :: v.render id))
      (r := ms.render id ++ 125 :: q) (by simpa using a4) (by omega)
    rw [e] at b1 b2
    rw [encRest_step a1 (.objNext ht a2),
      encRest_member (encode_value lib v hg.2.2.1) rfl hg.2.1 a4 (members_head ms q) (by simp),
      encode_members lib ms hg.2.2.2 json _ _ _ _ q ht b2]
    congr 2
    · simp [JMembers.render]; omega
    · simp [JMembers.binary]
end


/-! ## The loop of `Decode` on the bytes of a value -/

theorem beUint64_bigEndian64 {b : Nat} (h : b < 2 ^ 64) : beUint64 (bigEndian64 b) = b := by
  simp only [beUint64, bigEndian64, List.foldl, Nat.reducePow] at h ⊢
  omega

theorem bigEndian64_length (b : Nat) : (bigEndian64 b).length = 8 := rfl

theorem trimSuffixComma_comma (x : List Nat) : trimSuffixComma (x ++ [44]) = x := by
  simp [trimSuffixComma]

theorem trimSuffixComma_bracket (x : List Nat) : trimSuffixComma (x ++ [91]) = x ++ [91] := by
  simp [trimSuffixComma]

theorem decRest_step {lib : FloatLib} {buf : List Nat} {n : Nat} {st t : DecState}
    (hi : st.i < n) (hs : decodeStep lib buf st = .ok t) :
    decRest lib buf n st = decRest lib buf n t := by
  unfold decRest
  rw [decRun_step hi hs]

theorem decRest_done {lib : FloatLib} {buf : List Nat} {n : Nat} {st : DecState}
    (hi : n ≤ st.i) : decRest lib buf n st = decodeFinish st := by
  unfold decRest
  rw [decRun_done hi, Result.andThen_ok]

/-- Inside a String context the loop of `Decode` walks over bytes that are not NUL. -/
theorem decRest_string {lib : FloatLib} {buf : List Nat} {n : Nat} {top : operation}
    {rest : List operation} {json : List Nat} (ht : top.Typ = opSTRING) :
    ∀ (x : List Nat) (i : Nat) (r : List Nat), buf.drop i = x ++ r → (∀ c ∈ x, c ≠ 0) →
      i + x.length ≤ n →
      decRest lib buf n ⟨i, top :: rest, json⟩ =
        decRest lib buf n ⟨i + x.length, top :: rest, json⟩ := by
  intro x
  induction x with
  | nil => intro i r _ _ _; rfl
  | cons c t ih =>
    intro i r h hx hn
    obtain ⟨h1, h2, h3⟩ := drop_cons_info h
    simp only [List.length_cons] at hn ⊢
    have hc : c ≠ 0 := hx c (by simp)
    rw [decRest_step (t := ⟨i + 1, top :: rest, json⟩) (by simp only; omega)
        (by simp [decodeStep, ht, decodeString, h2, hc]),
      ih (i + 1) r h3 (fun d hd => hx d (List.mem_cons_of_mem _ hd)) (by omega),
      show i + 1 + t.length = i + (t.length + 1) by omega]

theorem binary_pos (lib : FloatLib) (v : JVal) : 0 < (v.binary lib).length := by
  cases v <;> simp [JVal.binary]

/-- A member `k 0x00 v` at offset `i` in a Key context. -/
theorem decRest_member {lib : FloatLib} {buf k q : List Nat} {n : Nat} {v : JVal} {i : Nat}
    {top : operation} {rest : List operation} {json : List Nat} (hv : DecodesValue lib v)
    (ht : top.Typ = opKEY) (hk : goodText k) (hk2 : k ≠ [])
    (hd : buf.drop i = k ++ 0 :: (v.binary lib ++ q))
    (hn : i + (k.length + 1 + (v.binary lib).length) ≤ n) :
    decRest lib buf n ⟨i, top :: rest, json⟩ =
      decRest lib buf n ⟨i + (k.length + 1 + (v.binary lib).length), rest,
        json ++ ([34] ++ k ++ [34] ++ [58] ++ v.render (decodedNumber lib))⟩ := by
  have hpos := binary_pos lib v
  cases k with
  | nil => exact absurd rfl hk2
  | cons c t =>
    have hc : c ≠ 0 := (hk c (by simp)).2
    have hle : i ≤ buf.length := by
      by_contra hcon
      rw [List.drop_eq_nil_of_le (by omega)] at hd
      cases hd
    obtain ⟨a1, a2, a3⟩ := drop_cons_info (c := c) (r := t ++ 0 :: (v.binary lib ++ q))
      (by simpa using hd)
    obtain ⟨b1, b2, b3⟩ := drop_append_info (x := c :: t) hd hle
    obtain ⟨c1, c2, c3⟩ := drop_cons_info b2
    simp only [List.length_cons] at hn b1 b2 b3 c1 c2 c3 ⊢
    rw [decRest_step (t := ⟨i + 1, ⟨opSTRING, i⟩ :: ⟨opKV_SEPERATOR, top.StartIndex⟩ :: rest, json⟩)
        (by simp only; omega) (by simp [decodeStep, ht, decodeKey, a2, hc]),
      decRest_string rfl t (i + 1) _ a3
        (fun d hd => (hk d (List.mem_cons_of_mem _ hd)).2) (by omega),
      show i + 1 + t.length = i + (t.length + 1) by omega,
      decRest_step (t := ⟨i + (t.length + 1) + 1, ⟨opKV_SEPERATOR, top.StartIndex⟩ :: rest,
          json ++ ([34] ++ (c :: t) ++ [34])⟩)
        (by simp only; omega) (by simp [decodeStep, decodeString, c2, b3]),
      decRest_step (t := ⟨i + (t.length + 1) + 1, ⟨opLITERAL, i + (t.length + 1) + 1⟩ :: rest,
          json ++ ([34] ++ (c :: t) ++ [34]) ++ [58]⟩)
        (by simp only; omega) (by simp [decodeStep]),
      hv buf n _ _ rest _ q c3 (by omega)]
    congr 2
    · omega
    · simp

mutual
/-- The loop of `Decode` on the bytes of a good value. -/
theorem decode_value (lib : FloatLib) : ∀ (v : JVal), v.Good lib → DecodesValue lib v
  | .null, _ => by
    intro buf n i s0 rest json q hd hn
    simp only [JVal.binary, values_null, List.cons_append, List.nil_append, List.length_cons,
      List.length_nil] at hd hn ⊢
    obtain ⟨a1, a2, a3⟩ := drop_cons_info hd
    exact decRest_step (by simp only; omega) (by simp [decodeStep, decodeLiteral, a2, JVal.render])
  | .jfalse, _ => by
    intro buf n i s0 rest json q hd hn
    simp only [JVal.binary, values_false, List.cons_append, List.nil_append, List.length_cons,
      List.length_nil] at hd hn ⊢
    obtain ⟨a1, a2, a3⟩ := drop_cons_info hd
    exact decRest_step (by simp only; omega) (by simp [decodeStep, decodeLiteral, a2, JVal.render])
  | .jtrue, _ => by
    intro buf n i s0 rest json q hd hn
    simp only [JVal.binary, values_true, List.cons_append, List.nil_append, List.length_cons,
      List.length_nil] at hd hn ⊢
    obtain ⟨a1, a2, a3⟩ := drop_cons_info hd
    exact decRest_step (by simp only; omega) (by simp [decodeStep, decodeLiteral, a2, JVal.render])
  | .num tok, hg => by
    intro buf n i s0 rest json q hd hn
    obtain ⟨bits, hbits⟩ := Option.isSome_iff_exists.mp hg.2.2.2
    have hnb : numBits lib tok = bits := by simp [numBits, hbits]
    have hlt := lib.parseFloat_lt tok bits hbits
    simp only [JVal.binary, values_number, List.cons_append, List.nil_append, List.length_cons,
      List.length_append, List.length_nil, hnb, bigEndian64_length, List.append_assoc] at hd hn ⊢
    obtain ⟨a1, a2, a3⟩ := drop_cons_info hd
    obtain ⟨b1, b2, b3⟩ := drop_append_info a3 (by omega)
    rw [bigEndian64_length] at b3
    rw [decRest_step (t := ⟨i + 9, rest, json ++ lib.formatFloat bits⟩) (by simp only; omega)
      (by simp [decodeStep, decodeLiteral, a2, b3, beUint64_bigEndian64 hlt])]
    congr 2
    simp [JVal.render, decodedNumber, hnb]
  | .str s, hg => by
    intro buf n i s0 rest json q hd hn
    simp only [JVal.binary, values_string, List.cons_append, List.nil_append, List.length_cons,
      List.length_append, List.length_nil, List.append_assoc] at hd hn ⊢
    obtain ⟨a1, a2, a3⟩ := drop_cons_info hd
    obtain ⟨b1, b2, b3⟩ := drop_append_info a3 (by omega)
    obtain ⟨c1, c2, _⟩ := drop_cons_info b2
    rw [decRest_step (t := ⟨i + 1, ⟨opSTRING, i + 1⟩ :: rest, json⟩) (by simp only; omega)
        (by simp [decodeStep, decodeLiteral, a2]),
      decRest_string rfl s (i + 1) _ a3 (fun d hd => (hg d hd).2) (by omega),
      decRest_step (t := ⟨i + 1 + s.length + 1, rest, json ++ ([34] ++ s ++ [34])⟩)
        (by simp only; omega) (by simp [decodeStep, decodeString, c2, b3])]
    congr 2
    omega
  | .emptyArr, _ => by
    intro buf n i s0 rest json q hd hn
    simp only [JVal.binary, values_array, List.cons_append, List.nil_append, List.length_cons,
      List.length_nil] at hd hn ⊢
    obtain ⟨a1, a2, a3⟩ := drop_cons_info hd
    obtain ⟨b1, b2, _⟩ := drop_cons_info a3
    rw [decRest_step (t := ⟨i + 1, ⟨opLITERAL, i + 1⟩ :: ⟨opARRAY, s0⟩ :: rest, json ++ [91]⟩)
        (by simp only; omega) (by simp [decodeStep, decodeLiteral, a2]),
      decRest_step (t := ⟨i + 1 + 1, rest, json ++ [91] ++ [93]⟩) (by simp only; omega)
        (by simp [decodeStep, decodeLiteral, b2, trimSuffixComma_bracket])]
    congr 2
    simp [JVal.render]
  | .arr v r, hg => by
    intro buf n i s0 rest json q hd hn
    simp only [JVal.binary, values_array, List.cons_append, List.nil_append, List.length_cons,
      List.length_append, List.length_nil, List.append_assoc] at hd hn ⊢
    obtain ⟨a1, a2, a3⟩ := drop_cons_info hd
    obtain ⟨b1, b2, _⟩ := drop_append_info a3 (by omega)
    obtain ⟨c1, c2, _⟩ := drop_append_info b2 (by omega)
    obtain ⟨d1, d2, _⟩ := drop_cons_info c2
    rw [decRest_step (t := ⟨i + 1, ⟨opLITERAL, i + 1⟩ :: ⟨opARRAY, s0⟩ :: rest, json ++ [91]⟩)
        (by simp only; omega) (by simp [decodeStep, decodeLiteral, a2]),
      decode_value lib v hg.1 buf n _ _ _ _ _ a3 (by omega),
      decode_tail lib r hg.2 buf n _ _ _ _ _ rfl b2 (by omega),
      decRest_step (t := ⟨i + 1 + (v.binary lib).length + (r.binary lib).length,
          ⟨opLITERAL, i + 1 + (v.binary lib).length + (r.binary lib).length⟩ ::
            ⟨opARRAY, s0⟩ :: rest,
          json ++ [91] ++ v.render (decodedNumber lib) ++ r.render (decodedNumber lib) ++ [44]⟩)
        (by simp only; omega) (by simp [decodeStep]),
      decRest_step (t := ⟨i + 1 + (v.binary lib).length + (r.binary lib).length + 1, rest,
          json ++ [91] ++ v.render (decodedNumber lib) ++ r.render (decodedNumber lib) ++ [93]⟩)
        (by simp only; omega)
        (by simp only [decodeStep, decodeLiteral, d2, trimSuffixComma_comma]; simp)]
    congr 2
    · omega
    · simp [JVal.render]
  | .obj k v ms, hg => by
    intro buf n i s0 rest json q hd hn
    simp only [JVal.binary, values_object, List.cons_append, List.nil_append, List.length_cons,
      List.length_append, List.length_nil, List.append_assoc] at hd hn ⊢
    obtain ⟨a1, a2, a3⟩ := drop_cons_info hd
    have e : (k ++ 0 :: v.binary lib).length = k.length + 1 + (v.binary lib).length := by
      simp; omega
    obtain ⟨b1, b2, _⟩ := drop_append_info (x := k ++ 0 :: v.binary lib)
      (r := ms.binary lib ++ 0 :: q) (by simpa using a3) (by omega)
    rw [e] at b1 b2
    obtain ⟨c1, c2, _⟩ := drop_append_info b2 (by omega)
    obtain ⟨d1, d2, _⟩ := drop_cons_info c2
    rw [decRest_step (t := ⟨i + 1, ⟨opKEY, i + 1⟩ :: ⟨opOBJECT, s0⟩ :: rest, json ++ [123]⟩)
        (by simp only; omega) (by simp [decodeStep, decodeLiteral, a2]),
      decRest_member (decode_value lib v hg.2.2.1) rfl hg.2.1 hg.1 a3 (by omega),
      decode_members lib ms hg.2.2.2 buf n _ _ _ _ _ rfl b2 (by omega),
      decRest_step (t := ⟨i + 1 + (k.length + 1 + (v.binary lib).length) + (ms.binary lib).length,
          ⟨opKEY, i + 1 + (k.length + 1 + (v.binary lib).length) + (ms.binary lib).length⟩ ::
            ⟨opOBJECT, s0⟩ :: rest,
          json ++ [123] ++ ([34] ++ k ++ [34] ++ [58] ++ v.render (decodedNumber lib)) ++
            ms.render (decodedNumber lib) ++ [44]⟩)
        (by simp only; omega) (by simp [decodeStep]),
      decRest_step (t := ⟨i + 1 + (k.length + 1 + (v.binary lib).length) +
            (ms.binary lib).length + 1, rest,
          json ++ [123] ++ ([34] ++ k ++ [34] ++ [58] ++ v.render (decodedNumber lib)) ++
            ms.render (decodedNumber lib) ++ [125]⟩)
        (by simp only; omega)
        (by simp only [decodeStep, decodeKey, d2, trimSuffixComma_comma]; simp)]
    congr 2
    · omega
    · simp [JVal.render]
/-- The loop of `Decode` on the elements behind the first, in an Array context. -/
theorem decode_tail (lib : FloatLib) : ∀ (r : JTail), r.Good lib →
    ∀ (buf : List Nat) (n i : Nat) (top : operation) (rest : List operation)
      (json q : List Nat), top.Typ = opARRAY → buf.drop i = r.binary lib ++ q →
      i + (r.binary lib).length ≤ n →
      decRest lib buf n ⟨i, top :: rest, json⟩ =
        decRest lib buf n ⟨i + (r.binary lib).length, top :: rest,
          json ++ r.render (decodedNumber lib)⟩
  | .nil, _ => by
    intro buf n i top rest json q _ _ _
    simp [JTail.render, JTail.binary]
  | .cons v r, hg => by
    intro buf n i top rest json q ht hd hn
    have hpos := binary_pos lib v
    simp only [JTail.binary, List.length_append, List.append_assoc] at hd hn ⊢
    have hle : i ≤ buf.length := by
      by_contra hcon
      rw [List.drop_eq_nil_of_le (by omega)] at hd
      have := congrArg List.length hd
      simp at this
      omega
    obtain ⟨b1, b2, _⟩ := drop_append_info hd hle
    rw [decRest_step (t := ⟨i, ⟨opLITERAL, i⟩ :: top :: rest, json ++ [44]⟩)
        (by simp only; omega) (by simp [decodeStep, ht]),
      decode_value lib v hg.1 buf n _ _ _ _ _ hd (by omega),
      decode_tail lib r hg.2 buf n _ _ _ _ _ ht b2 (by omega)]
    congr 2
    · omega
    · simp [JTail.render]
/-- The loop of `Decode` on the members behind the first, in an Object context. -/
theorem decode_members (lib : FloatLib) : ∀ (r : JMembers), r.Good lib →
    ∀ (buf : List Nat) (n i : Nat) (top : operation) (rest : List operation)
      (json q : List Nat), top.Typ = opOBJECT → buf.drop i = r.binary lib ++ q →
      i + (r.binary lib).length ≤ n →
      decRest lib buf n ⟨i, top :: rest, json⟩ =
        decRest lib buf n ⟨i + (r.binary lib).length, top :: rest,
          json ++ r.render (decodedNumber lib)⟩
  | .nil, _ => by
    intro buf n i top rest json q _ _ _
    simp [JMembers.render, JMembers.binary]
  | .cons k v ms, hg => by
    intro buf n i top rest json q ht hd hn
    have hpos := binary_pos lib v
    simp only [JMembers.binary, List.length_append, List.append_assoc, List.cons_append,
      List.nil_append, List.length_cons, List.length_nil] at hd hn ⊢
    have hle : i ≤ buf.length := by
      by_contra hcon
      rw [List.drop_eq_nil_of_le (by omega)] at hd
      have := congrArg List.length hd
      simp at this
      omega
    have e : (k ++ 0 :: v.binary lib).length = k.length + 1 + (v.binary lib).length := by
      simp; omega
    obtain ⟨b1, b2, _⟩ := drop_append_info (x := k ++ 0 :: v.binary lib)
      (r := ms.binary lib ++ q) (by simpa using hd) hle
    rw [e] at b1 b2
    rw [decRest_step (t := ⟨i, ⟨opKEY, i⟩ :: top :: rest, json ++ [44]⟩)
        (by simp only; omega) (by simp [decodeStep, ht]),
      decRest_member (decode_value lib v hg.2.2.1) rfl hg.2.1 hg.1 hd (by omega),
      decode_members lib ms hg.2.2.2 buf n _ _ _ _ _ ht b2 (by omega)]
    congr 2
    · omega
    · simp [JMembers.render]
end


/-! ## The fuel of both loops suffices -/

theorem encodeStep_fuel (lib : FloatLib) (json : List Nat) (st : EncState) :
    encodeStep lib json st ≠ .outOfFuel := by
  unfold encodeStep
  split
  · split <;> simp
  · split
    · unfold encodeLiteral encodeKeyword
      simp only
      repeat' split
      all_goals simp
    · unfold encodeString
      simp only
      repeat' split
      all_goals simp
    · unfold encodeNumber
      simp only
      repeat' split
      all_goals simp
    · unfold encodeArray
      simp only
      repeat' split
      all_goals simp
    · unfold encodeKey
      simp only
      repeat' split
      all_goals simp
    · unfold encodeKVSeperator
      simp only
      repeat' split
      all_goals simp
    · unfold encodeObject
      simp only
      repeat' split
      all_goals simp

theorem decodeStep_fuel (lib : FloatLib) (buf : List Nat) (st : DecState) :
    decodeStep lib buf st ≠ .outOfFuel := by
  unfold decodeStep
  split
  · simp
  · split
    · unfold decodeLiteral
      simp only
      repeat' split
      all_goals simp
    · unfold decodeString
      repeat' split
      all_goals simp
    · simp
    · simp
    · unfold decodeKey
      repeat' split
      all_goals simp
    · simp
    · simp

/-- The fuel of `Encode` never runs out. -/
theorem encRun_fuel (lib : FloatLib) (json : List Nat) :
    ∀ (n : Nat) (st : EncState), encMeasure json st ≤ n → encRun lib json st ≠ .outOfFuel := by
  intro n
  induction n with
  | zero =>
    intro st hm
    rw [encRun_eq, if_neg (by unfold encMeasure at hm; omega)]
    simp
  | succ n ih =>
    intro st hm
    rw [encRun_eq]
    by_cases hi : st.i < json.length
    · rw [if_pos hi]
      cases hs : encodeStep lib json st with
      | ok st2 =>
        have := (encodeStep_trans hs).measure hi
        exact ih st2 (by omega)
      | error e => simp
      | panic => simp
      | outOfFuel => exact absurd hs (encodeStep_fuel lib json st)
    · rw [if_neg hi]; simp

/-- The fuel of `Decode` never runs out. -/
theorem decRun_fuel (lib : FloatLib) (buf : List Nat) (jsonl : Nat) :
    ∀ (n : Nat) (st : DecState), decMeasure jsonl st ≤ n →
      decRun lib buf jsonl st ≠ .outOfFuel := by
  intro n
  induction n with
  | zero =>
    intro st hm
    rw [decRun_eq, if_neg (by unfold decMeasure at hm; omega)]
    simp
  | succ n ih =>
    intro st hm
    rw [decRun_eq]
    by_cases hi : st.i < jsonl
    · rw [if_pos hi]
      cases hs : decodeStep lib buf st with
      | ok st2 =>
        have := decodeStep_measure hs hi
        exact ih st2 (by omega)
      | error e => simp
      | panic => simp
      | outOfFuel => exact absurd hs (decodeStep_fuel lib buf st)
    · rw [if_neg hi]; simp

/-- `Encode` returns a buffer, an error or a panic: the fuel of its loop suffices. -/
theorem Encode_fuel (lib : FloatLib) (json : List Nat) : Encode lib json ≠ .outOfFuel := by
  rw [Encode_eq]
  have h := encRun_fuel lib json _ encodeInit (Nat.le_refl _)
  cases hr : encRun lib json encodeInit with
  | ok st =>
    simp only [Result.andThen_ok]
    unfold encodeFinish
    repeat' split
    all_goals simp
  | error e => simp
  | panic => simp
  | outOfFuel => exact absurd hr h

/-- `Decode` returns a text, an error or a panic: the fuel of its loop suffices. -/
theorem Decode_fuel (lib : FloatLib) (spare jsonb : List Nat) :
    Decode lib spare jsonb ≠ .outOfFuel := by
  rw [Decode_eq]
  have h := decRun_fuel lib (jsonb ++ spare) jsonb.length _ decodeInit (Nat.le_refl _)
  cases hr : decRun lib (jsonb ++ spare) jsonb.length decodeInit with
  | ok st =>
    simp only [Result.andThen_ok]
    unfold decodeFinish
    repeat' split
    all_goals simp
  | error e => simp
  | panic => simp
  | outOfFuel => exact absurd hr h

/-! ## Round trip -/

/-- C1 (counterexample): three JSON values of the claim on which the round
trip fails.  The number `1e5`: `Encode` fails for every numeric library (the
Number context ends at `e`).  The object `{"":true}` with an empty key:
`Encode` succeeds, `Decode` of its output fails.  The empty object `{}`:
`Encode` fails. -/
theorem round_trip_counterexample :
    (¬ ∃ (lib : FloatLib) (out : List Nat), Encode lib [49, 101, 53] = .ok out) ∧
    (¬ ∃ (lib : FloatLib) (spare out text : List Nat),
      Encode lib [123, 34, 34, 58, 116, 114, 117, 101, 125] = .ok out ∧
        Decode lib spare out = .ok text) ∧
    (¬ ∃ (lib : FloatLib) (out : List Nat), Encode lib [123, 125] = .ok out) := by
  refine ⟨?_, ?_, ?_⟩
  · rintro ⟨lib, out, h⟩
    have h2 : Encode lib [49, 101, 53] =
        match lib.parseFloat [49] with
        | none => .error (.invalidNumber 0)
        | some _ => .error (.excessiveChars 1) := by
      simp [Encode_eq, encRun_eq, encodeInit, encodeStep, encodeLiteral, encodeNumber, byteAt,
        slice, isSpace, isDigit]
      cases lib.parseFloat [49] <;> simp [encRun_eq, encodeStep, byteAt, isSpace]
    rw [h2] at h
    cases hp : lib.parseFloat [49] <;> rw [hp] at h <;> cases h
  · rintro ⟨lib, spare, out, text, h1, h2⟩
    have h3 : Encode lib [123, 34, 34, 58, 116, 114, 117, 101, 125] = .ok [4, 0, 3, 0] := rfl
    rw [h3] at h1
    cases h1
    have h4 : Decode lib spare [4, 0, 3, 0] = .error (.excessiveBytes 2) := by
      simp [Decode_eq, decRun_eq, decodeInit, decodeStep, decodeLiteral, decodeKey, byteAt,
        trimSuffixComma]
    rw [h4] at h2
    cases h2
  · rintro ⟨lib, out, h⟩
    have h2 : Encode lib [123, 125] = .error (.unterminated "Object" 0) := rfl
    rw [h2] at h
    cases h

/-- C1 (amended): round trip on the values the codec handles.  For every value
built from null, booleans, numbers written without exponent that the library
parses (`-` or a digit, then digits and `.`), strings without `"` and NUL,
arrays, and objects with at least one member whose keys are non-empty strings
without `"` and NUL: `Encode` of the compact text of the value succeeds, and
`Decode` of its output (whatever spare capacity the buffer has) succeeds and
returns the compact text of the same value in which every number token is
replaced by the library's rendering of the double it was parsed to. -/
theorem round_trip (lib : FloatLib) (spare : List Nat) (v : JVal) (hg : v.Good lib) :
    Encode lib (v.render id) = .ok (v.binary lib) ∧
      Decode lib spare (v.binary lib) = .ok (v.render (decodedNumber lib)) := by
  constructor
  · have h := encode_value lib v hg (v.render id) 0 0 [] [] [] (by simp) (by simp) (by simp)
    rw [Encode_eq]
    unfold encRest encodeInit at *
    rw [h, encRun_done (by simp)]
    simp [encodeFinish]
  · have h := decode_value lib v hg (v.binary lib ++ spare) (v.binary lib).length 0 0 [] []
      spare (by simp) (by simp)
    rw [Decode_eq]
    unfold decRest decodeInit at *
    rw [h, decRun_done (by simp)]
    simp [decodeFinish]

/-- C1 (witness): the value `{"k":[1,"a",null],"t":true}`. -/
theorem round_trip_witness :
    Encode refLib [123, 34, 107, 34, 58, 91, 49, 44, 34, 97, 34, 44, 110, 117, 108, 108, 93, 44,
        34, 116, 34, 58, 116, 114, 117, 101, 125] =
      .ok [4, 107, 0, 5, 6, 0x3F, 0xF0, 0, 0, 0, 0, 0, 0, 7, 97, 0, 2, 0, 116, 0, 3, 0] ∧
    Decode refLib [] [4, 107, 0, 5, 6, 0x3F, 0xF0, 0, 0, 0, 0, 0, 0, 7, 97, 0, 2, 0, 116, 0, 3, 0] =
      .ok [123, 34, 107, 34, 58, 91, 49, 44, 34, 97, 34, 44, 110, 117, 108, 108, 93, 44,
        34, 116, 34, 58, 116, 114, 117, 101, 125] :=
  round_trip refLib []
    (.obj [107] (.arr (.num [49]) (.cons (.str [97]) (.cons .null .nil)))
      (.cons [116] .jtrue .nil))
    (by
      simp only [JVal.Good, JTail.Good, JMembers.Good, goodNumber, goodText]
      decide)

/-! ## Concrete vectors: empty containers, object keys, truncated numbers -/

/-- C2 (the code at the failing input): `Encode("{}")` does not succeed.  The
`}` met in the Key context pops one context only, the Object context stays on
the stack, and the end-of-input check reports it as unterminated. -/
theorem encode_empty_object_unterminated (lib : FloatLib) :
    Encode lib [123, 125] = .error (.unterminated "Object" 0) := by
  rfl

/-- C3: `Encode("[]")` succeeds with `[0x05, 0x00]`, and `Decode` of that
buffer (whatever spare capacity its backing array has) succeeds with the text
`[]`. -/
theorem empty_array_round_trip (lib : FloatLib) (spare : List Nat) :
    Encode lib [91, 93] = .ok [0x05, 0x00] ∧ Decode lib spare [0x05, 0x00] = .ok [91, 93] := by
  constructor
  · rfl
  · simp [Decode_eq, decRun_eq, decodeInit, decodeStep, decodeLiteral, byteAt, decodeFinish,
      trimSuffixComma]

/-- What `Encode` does on the text `{"a":1}`, for any numeric library. -/
theorem encode_object_a_1 (lib : FloatLib) :
    Encode lib [123, 34, 97, 34, 58, 49, 125] =
      match lib.parseFloat [49] with
      | none => .error (.invalidNumber 5)
      | some bits => .ok ([0x04, 97, 0x00, 0x06] ++ bigEndian64 bits ++ [0x00]) := by
  simp [Encode_eq, encRun_eq, encodeInit, encodeStep, encodeLiteral, encodeKey, encodeString,
    encodeKVSeperator, encodeNumber, byteAt, slice, isSpace, isDigit]
  cases lib.parseFloat [49] <;>
    simp [encRun_eq, encodeStep, encodeObject, byteAt, encodeFinish, isSpace]

/-- C4 (counterexample): with no numeric library does `Encode` of `{"a":1}`
return the bytes of the claim, in which the key `a` is preceded by the string
tag `0x07`. -/
theorem encode_object_key_tag_counterexample :
    ¬ ∃ lib : FloatLib, Encode lib [123, 34, 97, 34, 58, 49, 125] =
      .ok [0x04, 0x07, 97, 0x00, 0x06, 0x3F, 0xF0, 0, 0, 0, 0, 0, 0, 0x00] := by
  rintro ⟨lib, h⟩
  rw [encode_object_a_1] at h
  cases hp : lib.parseFloat [49] with
  | none => rw [hp] at h; cases h
  | some bits =>
    rw [hp] at h
    simp at h

/-- C4 (amended): an object key is written without a tag, as its bytes and the
terminator: when the library parses `1` to the double `1.0`
(`0x3FF0000000000000`), `Encode` of `{"a":1}` is
`[0x04, 'a', 0x00, 0x06, <the 8 big-endian bytes of 1.0>, 0x00]`. -/
theorem encode_object_key_untagged (lib : FloatLib)
    (h : lib.parseFloat [49] = some 0x3FF0000000000000) :
    Encode lib [123, 34, 97, 34, 58, 49, 125] =
      .ok [0x04, 97, 0x00, 0x06, 0x3F, 0xF0, 0, 0, 0, 0, 0, 0, 0x00] := by
  rw [encode_object_a_1, h]
  rfl

/-- C4 (witness): the reference library parses `1` to `0x3FF0000000000000`. -/
theorem encode_object_key_untagged_witness :
    refLib.parseFloat [49] = some 0x3FF0000000000000 ∧
      Encode refLib [123, 34, 97, 34, 58, 49, 125] =
        .ok [0x04, 97, 0x00, 0x06, 0x3F, 0xF0, 0, 0, 0, 0, 0, 0, 0x00] :=
  ⟨by decide, encode_object_key_untagged refLib (by decide)⟩

/-- C6 (the code at the failing input): on the buffer `[0x06, 0x3F]`, a number
tag followed by one byte, `Decode` returns no error.  The slice expression
`jsonb[i+1 : i+9]` is checked against the capacity: with fewer than 7 spare
bytes behind the buffer it panics, with 7 or more it reads them as payload and
`Decode` succeeds. -/
theorem decode_truncated_number (lib : FloatLib) (spare : List Nat) :
    Decode lib spare [0x06, 0x3F] =
      if 7 ≤ spare.length then .ok (lib.formatFloat (beUint64 (0x3F :: spare.take 7)))
      else .panic := by
  by_cases h : 7 ≤ spare.length
  · simp [Decode_eq, decRun_eq, decodeInit, decodeStep, decodeLiteral, byteAt, slice, h,
      decodeFinish]
  · simp [Decode_eq, decRun_eq, decodeInit, decodeStep, decodeLiteral, byteAt, slice, h]

/-! ## Strings: NUL bytes and quotes -/

/-- C5: a NUL byte inside a string makes `Encode` fail with the null-byte
error.  For every `s` without `"` and NUL and every `t`, `Encode` of
`'"' ++ s ++ [0x00] ++ t` is the error "Unexpected null byte at len(s)+1"; and
whenever the loop of `Encode` reaches a NUL byte with a String context on top
of its stack, `Encode` returns that error for the offset of the byte. -/
theorem encode_string_nul (lib : FloatLib) (s t : List Nat)
    (hs : ∀ c ∈ s, c ≠ 34 ∧ c ≠ 0) :
    Encode lib (34 :: (s ++ 0 :: t)) = .error (.nullByte (s.length + 1)) ∧
    ∀ (json : List Nat) (st : EncState) (top : operation) (rest : List operation),
      EncReach lib json st → st.i < json.length → st.op = top :: rest →
      top.Typ = opSTRING → byteAt json st.i = 0 →
      Encode lib json = .error (.nullByte st.i) := by
  constructor
  · have hlen : (34 :: (s ++ 0 :: t)).length = s.length + t.length + 2 := by simp; omega
    rw [Encode_eq, encodeInit,
      encRun_step (t := ⟨1, [⟨opSTRING, 0⟩], [7]⟩) (by simp)
        (trans_encodeStep (.strOpen rfl (byteAt_cons_zero _ _))),
      encRun_string_scan lib _ ⟨opSTRING, 0⟩ [] [7] rfl s.length 1 (by rw [hlen]; omega)
        (fun j hj => by
          rw [show 1 + j = j + 1 by omega, byteAt_cons_succ, byteAt_append_left _ hj]
          have := hs _ (byteAt_mem hj)
          exact ⟨this.2, this.1⟩),
      encRun_eq, if_pos (by rw [hlen]; simp only; omega),
      encodeStep_string_nul rfl (by
        rw [show 1 + s.length = s.length + 1 by omega, byteAt_cons_succ]
        have := byteAt_append_right s (0 :: t) 0
        rw [Nat.add_zero] at this
        rw [this, byteAt_cons_zero])]
    simp only [Result.andThen_error, Nat.add_comm]
  · intro json st top rest hr hi hop ht hc
    obtain ⟨i, op, out⟩ := st
    simp only at hi hop hc
    subst hop
    rw [Encode_of_reach hr, encRun_eq, if_pos hi, encodeStep_string_nul ht hc]
    rfl

/-- C5 (witness): the text `"ab<NUL>c"`. -/
theorem encode_string_nul_witness :
    (∀ c ∈ [97, 98], c ≠ 34 ∧ c ≠ 0) ∧
      Encode refLib [34, 97, 98, 0, 99, 34] = .error (.nullByte 3) :=
  ⟨by decide, (encode_string_nul refLib [97, 98] [99, 34] (by decide)).1⟩

/-- C9 (counterexample): the text `"a\"b"` (a backslash before the inner `"`)
is not encoded to `[0x07, 'a', '\', '"', 'b', 0x00]`: the string ends at the
inner `"` and `Encode` fails on the `b` behind it. -/
theorem encode_escaped_quote_counterexample :
    ¬ ∃ lib : FloatLib, Encode lib [34, 97, 92, 34, 98, 34] = .ok [0x07, 97, 92, 34, 98, 0x00] := by
  rintro ⟨lib, h⟩
  have h2 : Encode lib [34, 97, 92, 34, 98, 34] = .error (.excessiveChars 4) := rfl
  rw [h2] at h
  cases h

/-- C9 (amended): `Encode` decodes no escape and a string ends at the first
`"`, whether or not a backslash stands before it.  For every body `s` without
NUL and without `"` (backslashes included, copied verbatim),
`Encode('"' ++ s ++ '"')` succeeds with `[0x07] ++ s ++ [0x00]`; and when that
closing `"` is followed by a byte `c` that is not white space, `Encode` fails
with the excessive-characters error at the offset of `c`. -/
theorem encode_string_verbatim (lib : FloatLib) (s : List Nat)
    (hs : ∀ c ∈ s, c ≠ 34 ∧ c ≠ 0) :
    Encode lib (34 :: (s ++ [34])) = .ok (0x07 :: (s ++ [0x00])) ∧
    ∀ (c : Nat) (t : List Nat), ¬ isSpace c →
      Encode lib (34 :: (s ++ 34 :: c :: t)) = .error (.excessiveChars (s.length + 2)) := by
  constructor
  · rw [Encode_eq, encRun_string_body lib s [] hs, encRun_done (by simp)]
    rfl
  · intro c t hc
    have hb : byteAt (34 :: (s ++ 34 :: c :: t)) (s.length + 2) = c := by
      rw [show s.length + 2 = (s.length + 1) + 1 by omega, byteAt_cons_succ]
      have := byteAt_append_right s (34 :: c :: t) 1
      rw [this, byteAt_cons_succ, byteAt_cons_zero]
    rw [Encode_eq, encRun_string_body lib s (c :: t) hs, encRun_eq,
      if_pos (by simp; omega)]
    simp [encodeStep, hb, hc]

/-- C9 (witness): the body `a\`, in the texts `"a\"` and `"a\"b"`. -/
theorem encode_string_verbatim_witness :
    (∀ c ∈ [97, 92], c ≠ 34 ∧ c ≠ 0) ∧
      Encode refLib [34, 97, 92, 34] = .ok [0x07, 97, 92, 0x00] ∧
      Encode refLib [34, 97, 92, 34, 98, 34] = .error (.excessiveChars 4) :=
  ⟨by decide, (encode_string_verbatim refLib [97, 92] (by decide)).1,
    (encode_string_verbatim refLib [97, 92] (by decide)).2 98 [34] (by decide)⟩

/-! ## Input behind a complete value -/

/-- C10: after a complete top-level value nothing but white space is accepted.
For every `s` that `Encode` accepts, every byte `c` that is not white space
(and, when `s` ends in a byte of a number, `-`, `.` or a digit, is not a digit
or `.`) and every `t`, `Encode(s ++ [c] ++ t)` fails with "Exceesive characters
at len(s)"; and `Encode(s ++ w)` equals `Encode(s)` for every run `w` of white
space. -/
theorem encode_excessive_characters (lib : FloatLib) (s out : List Nat)
    (h : Encode lib s = .ok out) :
    (∀ (c : Nat) (t : List Nat), ¬ isSpace c →
      ((∃ d, s.getLast? = some d ∧ isNumChar d) → ¬ (isDigit c ∨ c = 46)) →
      Encode lib (s ++ c :: t) = .error (.excessiveChars s.length)) ∧
    (∀ w : List Nat, (∀ c ∈ w, isSpace c) → Encode lib (s ++ w) = .ok out) := by
  obtain ⟨stf, hr, hi, hf⟩ := Encode_ok_final h
  have hinv := hr.invariant
  obtain ⟨i, op, out0⟩ := stf
  simp only at hi
  subst hi
  rcases encodeFinish_ok hf with ⟨hop, hout⟩ | ⟨top, tok, bits, hop, ht, htok, hbits, hout⟩
  · simp only at hop hout
    subst hop hout
    constructor
    · intro c t hc _
      rw [Encode_of_reach (reach_append (c :: t) hr), encRun_eq, if_pos (by simp)]
      simp [encodeStep, byteAt_length_append, hc]
    · intro w hw
      rw [Encode_of_reach (reach_append w hr),
        encRun_skip_spaces lib _ [] out (by simp) w.length s.length (by simp)
          (fun j hj => by rw [byteAt_append_right]; exact hw _ (byteAt_mem hj)),
        encRun_done (by simp)]
      rfl
  · simp only at hop hout
    subst hop hout
    have hnum := hinv.2.2 top (by simp) ht
    simp only at hnum
    constructor
    · intro c t hc hd
      have hnc : ¬ (isDigit c ∨ c = 46) :=
        hd ⟨_, byteAt_getLast hnum.1, hnum.2⟩
      have hstep : EncTrans lib (s ++ c :: t) ⟨s.length, [top], out0⟩
          ⟨s.length, [], out0 ++ bigEndian64 bits⟩ :=
        .numClose tok bits ht (by rw [byteAt_length_append]; exact hnc)
          (by rw [slice_append_left _ (Nat.le_refl _)]; exact htok) hbits
      rw [Encode_of_reach (reach_append (c :: t) hr),
        encRun_step (by simp) (trans_encodeStep hstep), encRun_eq, if_pos (by simp)]
      simp [encodeStep, byteAt_length_append, hc]
    · intro w hw
      cases w with
      | nil => rw [List.append_nil]; exact h
      | cons c t =>
        have hc : isSpace c := hw c (by simp)
        have hstep : EncTrans lib (s ++ c :: t) ⟨s.length, [top], out0⟩
            ⟨s.length, [], out0 ++ bigEndian64 bits⟩ :=
          .numClose tok bits ht (by rw [byteAt_length_append]; unfold isSpace at hc; unfold isDigit; omega)
            (by rw [slice_append_left _ (Nat.le_refl _)]; exact htok) hbits
        rw [Encode_of_reach (reach_append (c :: t) hr),
          encRun_step (by simp) (trans_encodeStep hstep),
          encRun_skip_spaces lib _ [] _ (by simp) (c :: t).length s.length (by simp)
            (fun j hj => by rw [byteAt_append_right]; exact hw _ (byteAt_mem hj)),
          encRun_done (by simp)]
        rfl

/-- C10 (witness): the text `true`, followed by `x` or by white space. -/
theorem encode_excessive_characters_witness :
    Encode refLib [116, 114, 117, 101] = .ok [3] ∧
      Encode refLib [116, 114, 117, 101, 120, 32] = .error (.excessiveChars 4) ∧
      Encode refLib [116, 114, 117, 101, 32, 10] = .ok [3] :=
  ⟨by decide,
    (encode_excessive_characters refLib [116, 114, 117, 101] [3] (by decide)).1 120 [32]
      (by decide) (by simp [List.getLast?]),
    (encode_excessive_characters refLib [116, 114, 117, 101] [3] (by decide)).2 [32, 10]
      (by decide)⟩

/-! ## Truncated buffers -/

/-- C7: cutting the last byte off a buffer that `Decode` accepts makes `Decode`
fail.  `Decode` of the empty buffer is the error "Unterminated operation
Literal, started at 0".  When `Decode` accepts `b ++ [c]` and its loop reads
the last byte `c` as the current byte of an iteration (it is not skipped as
part of a number payload), then the loop on `b` alone (whatever lies behind it
in the backing array) ends at index `len(b)` with a non-empty stack, and
`Decode` of `b` is the error "Unterminated operation" that names the context
on top of that stack and its start offset. -/
theorem decode_truncated_terminator (lib : FloatLib) (spare : List Nat) :
    Decode lib spare [] = .error (.unterminated "Literal" 0) ∧
    ∀ (b : List Nat) (c : Nat) (out spare2 : List Nat),
      Decode lib spare (b ++ [c]) = .ok out →
      (∃ st, DecReach lib (b ++ [c] ++ spare) (b.length + 1) st ∧ st.i = b.length) →
      ∃ top rest json name,
        DecReach lib (b ++ spare2) b.length ⟨b.length, top :: rest, json⟩ ∧
        opNames.get? top.Typ.toNat = some name ∧
        Decode lib spare2 b = .error (.unterminated name top.StartIndex) := by
  constructor
  · rfl
  · rintro b c out spare2 hok ⟨st, hr, hi⟩
    have hbuf : b ++ [c] ++ spare = b ++ (c :: spare) := by simp
    rw [hbuf] at hr
    obtain ⟨st0, h1, h2, h3⟩ := dec_first_arrival hr (by omega)
    have hi0 : st0.i = b.length := by
      rcases h3 with rfl | h3
      · exact hi
      · exact h3
    -- the accepted run passes through `st0` and goes on, so its stack is not empty
    have hlen : (b ++ [c]).length = b.length + 1 := by simp
    have hr0 : DecReach lib (b ++ [c] ++ spare) (b ++ [c]).length st0 := by
      rw [hbuf, hlen]; exact decSteps_weaken h1
    rw [Decode_of_reach hr0, decRun_eq, if_pos (by rw [hlen]; omega)] at hok
    obtain ⟨i, op, json⟩ := st0
    simp only at hi0
    subst hi0
    cases op with
    | nil => simp [decodeStep] at hok
    | cons top rest =>
      obtain ⟨name, hname⟩ := opNames_get top.Typ
      have hr2 := decReach_stable spare2 h1 (Nat.le_refl _)
      refine ⟨top, rest, json, name, hr2, hname, ?_⟩
      have hd : decRun lib (b ++ spare2) b.length ⟨b.length, top :: rest, json⟩ =
          .ok ⟨b.length, top :: rest, json⟩ := decRun_done (Nat.le_refl _)
      rw [Decode_of_reach hr2, hd, Result.andThen_ok]
      simp only [decodeFinish, hname]

/-- C7 (witness): the buffer `[0x05, 0x00]` of the empty array, cut to `[0x05]`. -/
theorem decode_truncated_terminator_witness :
    Decode refLib [] [0x05, 0x00] = .ok [91, 93] ∧
      ∃ top rest json name,
        DecReach refLib ([0x05] ++ []) 1 ⟨1, top :: rest, json⟩ ∧
        opNames.get? top.Typ.toNat = some name ∧
        Decode refLib [] [0x05] = .error (.unterminated name top.StartIndex) :=
  ⟨by decide,
    (decode_truncated_terminator refLib []).2 [0x05] 0x00 [91, 93] [] (by decide)
      ⟨⟨1, [⟨opLITERAL, 1⟩, ⟨opARRAY, 0⟩], [91]⟩,
        Relation.ReflTransGen.single ⟨by decide, by decide⟩, rfl⟩⟩

/-! ## White space insensitivity -/

/-- C8: white space between tokens does not change what `Encode` returns.  For
every text `s` that `Encode` accepts and every text `s2` obtained from `s` by
inserting runs of space, tab, LF or CR at positions between tokens (never
inside a string, a number or a keyword), `Encode(s2)` succeeds with the output
of `Encode(s)`. -/
theorem encode_whitespace_insensitive (lib : FloatLib) (s s2 out : List Nat)
    (hins : WsInserted lib s s2) (h : Encode lib s = .ok out) : Encode lib s2 = .ok out := by
  induction hins with
  | refl => exact h
  | insert w _ hb hw ih => exact encode_insert_ws hb hw ih

/-- C8 (witness): `[true]` with a space inserted behind `[` and then a line
feed before `]`. -/
theorem encode_whitespace_insensitive_witness :
    Encode refLib [91, 116, 114, 117, 101, 93] = .ok [5, 3, 0] ∧
      Encode refLib [91, 32, 116, 114, 117, 101, 10, 93] = .ok [5, 3, 0] :=
  ⟨by decide,
    encode_whitespace_insensitive refLib [91, 116, 114, 117, 101, 93]
      [91, 32, 116, 114, 117, 101, 10, 93] [5, 3, 0]
      (WsInserted.insert (a := [91, 32, 116, 114, 117, 101]) (b := [93]) [10]
        (WsInserted.insert (a := [91]) (b := [116, 114, 117, 101, 93]) [32] .refl
          ⟨⟨1, [⟨opLITERAL, 1⟩, ⟨opARRAY, 0⟩], [5]⟩,
            Relation.ReflTransGen.single ⟨by decide, by decide⟩, rfl, by decide⟩
          (by decide))
        ⟨⟨6, [⟨opARRAY, 0⟩], [5, 3]⟩,
          Relation.ReflTransGen.tail (b := ⟨2, [⟨opLITERAL, 1⟩, ⟨opARRAY, 0⟩], [5]⟩)
            (Relation.ReflTransGen.tail (b := ⟨1, [⟨opLITERAL, 1⟩, ⟨opARRAY, 0⟩], [5]⟩)
              (Relation.ReflTransGen.single ⟨by decide, by decide⟩)
              ⟨by decide, by decide⟩)
            ⟨by decide, by decide⟩,
          rfl, by decide⟩
        (by decide))
      (by decide)⟩

/-! ## The tag table -/

/-- C16: the seven tags of the table `values` are bytes, none is the
terminator `0x00`, they are pairwise distinct and strictly ordered
false < null < true < object < array < number < string. -/
theorem values_ordered :
    0x00 < values "false" ∧ values "false" < values "null" ∧ values "null" < values "true" ∧
      values "true" < values "object" ∧ values "object" < values "array" ∧
      values "array" < values "number" ∧ values "number" < values "string" ∧
      values "string" < 256 ∧
      [values "false", values "null", values "true", values "object", values "array",
        values "number", values "string"].Nodup ∧
      0x00 ∉ [values "false", values "null", values "true", values "object", values "array",
        values "number", values "string"] := by
  decide

/-! ## Keywords -/

theorem slice_at_append (w rest : List Nat) {k : Nat} (h : k ≤ rest.length) :
    slice (w ++ rest) w.length (w.length + k) = some (rest.take k) := by
  have hd : (w ++ rest).drop w.length = rest.take k ++ rest.drop k := by
    rw [List.drop_left, List.take_append_drop]
  have := (drop_append_info hd (by simp)).2.2
  rwa [List.length_take, Nat.min_eq_left h] at this

theorem byteAt_head {rest : List Nat} {c : Nat} (w : List Nat) (h : rest.head? = some c) :
    byteAt (w ++ rest) w.length = c := by
  cases rest with
  | nil => cases h
  | cons d t =>
    simp only [List.head?_cons, Option.some.injEq] at h
    subst h
    exact byteAt_length_append w d t

/-- After leading white space, a text that starts like the keyword `kw` but
does not spell it makes the keyword case of `Encode` fail. -/
theorem encode_keyword_mismatch (lib : FloatLib) (w rest kw : List Nat) (tag c : Nat)
    (hw : ∀ c ∈ w, isSpace c) (hc : rest.head? = some c)
    (hstep : ∀ json i top tl out, top.Typ = opLITERAL → byteAt json i = c →
      encodeStep lib json ⟨i, top :: tl, out⟩ = encodeKeyword json kw tag i tl out)
    (hne : rest.take kw.length ≠ kw) :
    Encode lib (w ++ rest) =
      if rest.length < kw.length then .error (.keywordShort kw w.length)
      else .error (.keywordFound kw w.length (rest.take kw.length)) := by
  have hb := byteAt_head w hc
  have hlt : w.length < (w ++ rest).length := by
    cases rest with
    | nil => cases hc
    | cons d t => simp
  rw [Encode_eq, encodeInit,
    encRun_skip_spaces lib _ [⟨opLITERAL, 0⟩] [] (by simp) w.length 0 (by simp)
      (fun j hj => by rw [Nat.zero_add, byteAt_append_left _ hj]; exact hw _ (byteAt_mem hj)),
    Nat.zero_add, encRun_eq, if_pos hlt, hstep _ _ _ _ _ rfl hb]
  unfold encodeKeyword
  by_cases hs : rest.length < kw.length
  · rw [if_pos hs, if_pos (by simp; omega)]
    rfl
  · rw [if_neg hs, if_neg (by simp; omega), slice_at_append w rest (by omega)]
    simp [hne]

/-- C14: the keyword vectors.  `Encode` of `false`, `null`, `true` is the
one-byte buffer `[0x01]`, `[0x02]`, `[0x03]`, and `Decode` of these buffers is
the keyword.  A text whose first byte behind leading white space is `f`, `t`
or `n` and which does not spell `false`, `true` or `null` there makes `Encode`
fail with a malformed-keyword error at that offset: "string length isn't
sufficient" when fewer bytes remain than the keyword has, "but found" with the
bytes found otherwise. -/
theorem keyword_vectors (lib : FloatLib) (spare : List Nat) :
    Encode lib kwFalse = .ok [0x01] ∧ Encode lib kwNull = .ok [0x02] ∧
    Encode lib kwTrue = .ok [0x03] ∧
    Decode lib spare [0x01] = .ok kwFalse ∧ Decode lib spare [0x02] = .ok kwNull ∧
    Decode lib spare [0x03] = .ok kwTrue ∧
    ∀ (w rest kw : List Nat), (∀ c ∈ w, isSpace c) →
      kw = kwFalse ∨ kw = kwTrue ∨ kw = kwNull →
      rest.head? = kw.head? → rest.take kw.length ≠ kw →
      Encode lib (w ++ rest) =
        if rest.length < kw.length then .error (.keywordShort kw w.length)
        else .error (.keywordFound kw w.length (rest.take kw.length)) := by
  refine ⟨rfl, rfl, rfl, ?_, ?_, ?_, ?_⟩
  · simp [Decode_eq, decRun_eq, decodeInit, decodeStep, decodeLiteral, byteAt, decodeFinish]
  · simp [Decode_eq, decRun_eq, decodeInit, decodeStep, decodeLiteral, byteAt, decodeFinish]
  · simp [Decode_eq, decRun_eq, decodeInit, decodeStep, decodeLiteral, byteAt, decodeFinish]
  · intro w rest kw hw hkw hh hne
    rcases hkw with rfl | rfl | rfl
    · exact encode_keyword_mismatch lib w rest kwFalse 1 102 hw hh
        (fun json i top tl out ht hb => by
          simp [encodeStep, ht, encodeLiteral, hb]) hne
    · exact encode_keyword_mismatch lib w rest kwTrue 3 116 hw hh
        (fun json i top tl out ht hb => by
          simp [encodeStep, ht, encodeLiteral, hb]) hne
    · exact encode_keyword_mismatch lib w rest kwNull 2 110 hw hh
        (fun json i top tl out ht hb => by
          simp [encodeStep, ht, encodeLiteral, hb]) hne

/-- C14 (witness): the texts `fals`, ` nUll` and `truth`. -/
theorem keyword_vectors_witness :
    Encode refLib [102, 97, 108, 115] = .error (.keywordShort kwFalse 0) ∧
      Encode refLib [32, 110, 85, 108, 108] = .error (.keywordFound kwNull 1 [110, 85, 108, 108]) ∧
      Encode refLib [116, 114, 117, 116, 104] = .error (.keywordFound kwTrue 0 [116, 114, 117, 116]) :=
  ⟨(keyword_vectors refLib []).2.2.2.2.2.2 [] [102, 97, 108, 115] kwFalse (by decide)
      (.inl rfl) (by decide) (by decide),
    (keyword_vectors refLib []).2.2.2.2.2.2 [32] [110, 85, 108, 108] kwNull (by decide)
      (.inr (.inr rfl)) (by decide) (by decide),
    (keyword_vectors refLib []).2.2.2.2.2.2 [] [116, 114, 117, 116, 104] kwTrue (by decide)
      (.inr (.inl rfl)) (by decide) (by decide)⟩

theorem Encode_encRest (lib : FloatLib) (json : List Nat) :
    Encode lib json = encRest lib json encodeInit := by
  rw [Encode_eq]; rfl

theorem Decode_decRest (lib : FloatLib) (spare jsonb : List Nat) :
    Decode lib spare jsonb = decRest lib (jsonb ++ spare) jsonb.length decodeInit := by
  rw [Decode_eq]; rfl

/-- `Encode` on the compact text of a good value. -/
theorem Encode_render (lib : FloatLib) (v : JVal) (hg : v.Good lib) :
    Encode lib (v.render id) = .ok (v.binary lib) := by
  have h := encode_value lib v hg (v.render id) 0 0 [] [] [] (by simp) (by simp) (by simp)
  rw [Encode_encRest]
  unfold encodeInit
  rw [h, encRest_done (by simp)]
  simp [encodeFinish]

/-- `Decode` on the bytes of a good value. -/
theorem Decode_binary (lib : FloatLib) (spare : List Nat) (v : JVal) (hg : v.Good lib) :
    Decode lib spare (v.binary lib) = .ok (v.render (decodedNumber lib)) := by
  have h := decode_value lib v hg (v.binary lib ++ spare) (v.binary lib).length 0 0 [] []
    spare (by simp) (by simp)
  rw [Decode_decRest]
  unfold decodeInit
  rw [h, decRest_done (by simp)]
  simp [decodeFinish]

/-! ## Vectors with numbers -/

/-- C12: the array vector.  With a library that parses `1` and `2` to the
doubles `1.0` and `2.0` and renders these doubles as `1` and `2`,
`Encode("[1,2]")` is `[0x05, 0x06, <1.0>, 0x06, <2.0>, 0x00]` (20 bytes) and
`Decode` of that buffer is the text `[1,2]`: the zero bytes of the payloads
are skipped, not read as terminators. -/
theorem array_vector (lib : FloatLib) (spare : List Nat)
    (h1 : lib.parseFloat [49] = some 0x3FF0000000000000)
    (h2 : lib.parseFloat [50] = some 0x4000000000000000)
    (f1 : lib.formatFloat 0x3FF0000000000000 = [49])
    (f2 : lib.formatFloat 0x4000000000000000 = [50]) :
    Encode lib [91, 49, 44, 50, 93] =
      .ok [0x05, 0x06, 0x3F, 0xF0, 0, 0, 0, 0, 0, 0, 0x06, 0x40, 0, 0, 0, 0, 0, 0, 0, 0x00] ∧
    Decode lib spare
        [0x05, 0x06, 0x3F, 0xF0, 0, 0, 0, 0, 0, 0, 0x06, 0x40, 0, 0, 0, 0, 0, 0, 0, 0x00] =
      .ok [91, 49, 44, 50, 93] := by
  constructor
  · have h := Encode_render lib (.arr (.num [49]) (.cons (.num [50]) .nil))
      (by simp [JVal.Good, JTail.Good, goodNumber, isDigit, h1, h2])
    simpa [JVal.render, JTail.render, JVal.binary, JTail.binary, numBits, h1, h2,
      bigEndian64] using h
  · have h := Decode_binary lib spare (.arr (.num [49]) (.cons (.num [50]) .nil))
      (by simp [JVal.Good, JTail.Good, goodNumber, isDigit, h1, h2])
    simpa [JVal.render, JTail.render, JVal.binary, JTail.binary, numBits, h1, h2,
      bigEndian64, decodedNumber, f1, f2] using h

/-- C12 (witness): the reference library. -/
theorem array_vector_witness :
    Encode refLib [91, 49, 44, 50, 93] =
      .ok [0x05, 0x06, 0x3F, 0xF0, 0, 0, 0, 0, 0, 0, 0x06, 0x40, 0, 0, 0, 0, 0, 0, 0, 0x00] ∧
    Decode refLib []
        [0x05, 0x06, 0x3F, 0xF0, 0, 0, 0, 0, 0, 0, 0x06, 0x40, 0, 0, 0, 0, 0, 0, 0, 0x00] =
      .ok [91, 49, 44, 50, 93] :=
  array_vector refLib [] (by decide) (by decide) (by decide) (by decide)

/-! ## A number as the whole document -/

/-- An iteration that fails makes `Encode` fail with the same error. -/
theorem encRest_error {lib : FloatLib} {json : List Nat} {st : EncState} {e : Err}
    (hi : st.i < json.length) (hs : encodeStep lib json st = .error e) :
    encRest lib json st = .error e := by
  unfold encRest
  rw [encRun_eq, if_pos hi, hs]
  rfl

/-- What `Encode` returns on a number token alone or followed by one blank:
the flush at the end of the input and the close inside the loop agree. -/
theorem Encode_number_token (lib : FloatLib) (n q : List Nat) (hn : numberToken n)
    (hq : q = [] ∨ q = [32]) :
    Encode lib (n ++ q) =
      match lib.parseFloat n with
      | none => .error (.invalidNumber 0)
      | some bits => .ok (6 :: bigEndian64 bits) := by
  obtain ⟨hh, ht, hne⟩ := hn
  cases n with
  | nil => exact absurd rfl hne
  | cons c t =>
    have hc : c = 45 ∨ isDigit c := hh c (by simp)
    simp only [List.tail_cons] at ht
    have hd0 : (c :: t ++ q).drop 0 = c :: (t ++ q) := rfl
    have h1 := drop_cons_info hd0
    have h2 := drop_append_info h1.2.2 (by omega)
    have hsl : slice (c :: t ++ q) 0 (0 + 1 + t.length) = some (c :: t) := by
      have := (drop_append_info (x := c :: t) (r := q) (i := 0) rfl (by omega)).2.2
      simpa [Nat.add_comm] using this
    rw [Encode_encRest]
    unfold encodeInit
    rw [encRest_step h1.1 (EncTrans.numOpen rfl (by rw [h1.2.1]; exact hc)),
      encRest_digits rfl h1.2.2 ht]
    rcases hq with rfl | rfl
    · rw [encRest_done (by simp; omega)]
      have hsl2 : slice (c :: t ++ []) 0 (c :: t ++ []).length = some (c :: t) := by
        rw [← hsl]; simp [Nat.add_comm]
      simp only [encodeFinish, hsl2]
      cases lib.parseFloat (c :: t) <;> simp
    · have h3 := drop_cons_info h2.2.1
      cases hp : lib.parseFloat (c :: t) with
      | none =>
        refine encRest_error h3.1 ?_
        simp only [encodeStep, encodeNumber, h3.2.1, hsl, hp]
        simp [isDigit]
      | some bits =>
        rw [encRest_step h3.1
            (EncTrans.numClose (c :: t) bits rfl (by rw [h3.2.1]; decide) hsl hp),
          encRest_step h3.1 (EncTrans.emptySpace (by rw [h3.2.1]; decide)),
          encRest_done (by simp; omega)]
        simp [encodeFinish]

/-- C15: a number as the whole document.  With a library that parses `123`
to the double `123.0`, `Encode("123")` is `0x06` followed by the big-endian
bytes of `0x405EC00000000000`; and for every number token `n` (a `-` or a
digit, then digits and `.`), `Encode(n)`, closed by the flush at the end of
the input, equals `Encode(n ++ " ")`, closed inside the loop: both are the
tag `0x06` and the eight bytes of the parsed double when the library parses
`n`. -/
theorem bare_number (lib : FloatLib)
    (h : lib.parseFloat [49, 50, 51] = some 0x405EC00000000000) :
    Encode lib [49, 50, 51] = .ok [0x06, 0x40, 0x5E, 0xC0, 0, 0, 0, 0, 0] ∧
    ∀ n, numberToken n →
      Encode lib n = Encode lib (n ++ [32]) ∧
      ∀ bits, lib.parseFloat n = some bits → Encode lib n = .ok (6 :: bigEndian64 bits) := by
  have key : ∀ n, numberToken n → Encode lib n =
      match lib.parseFloat n with
      | none => .error (.invalidNumber 0)
      | some bits => .ok (6 :: bigEndian64 bits) := by
    intro n hn
    have := Encode_number_token lib n [] hn (.inl rfl)
    rwa [List.append_nil] at this
  refine ⟨?_, fun n hn => ⟨?_, fun bits hb => ?_⟩⟩
  · rw [key _ (by simp [numberToken, isDigit]), h]
    rfl
  · rw [key n hn, Encode_number_token lib n [32] hn (.inr rfl)]
  · rw [key n hn, hb]

/-- C15 (witness): the reference library parses `123` to `0x405EC00000000000`. -/
theorem bare_number_witness :
    Encode refLib [49, 50, 51] = .ok [0x06, 0x40, 0x5E, 0xC0, 0, 0, 0, 0, 0] ∧
    ∀ n, numberToken n →
      Encode refLib n = Encode refLib (n ++ [32]) ∧
      ∀ bits, refLib.parseFloat n = some bits →
        Encode refLib n = .ok (6 :: bigEndian64 bits) :=
  bare_number refLib (by decide)

/-! ## Input that ends inside a value, and the stray closing bracket -/

/-- C11: unterminated input.  Whenever the scan of `Encode` reaches the end of
the input with a context on top of a stack that is not exactly one pending
Number, `Encode` fails with "Unterminated operation", naming the kind and the
start offset of that top context.  In particular a text of white space only
(the empty text included) fails with Literal started at 0, `[1` fails with
Number started at 1, and a string that is opened and never closed fails with
String started at 0. -/
theorem encode_unterminated (lib : FloatLib) :
    (∀ (json : List Nat) (st : EncState) (top : operation) (rest : List operation),
      EncReach lib json st → json.length ≤ st.i → st.op = top :: rest →
      ¬ (rest = [] ∧ top.Typ = opNUMBER) →
      ∃ name, opNames.get? top.Typ.toNat = some name ∧
        Encode lib json = .error (.unterminated name top.StartIndex)) ∧
    (∀ w : List Nat, (∀ c ∈ w, isSpace c) →
      Encode lib w = .error (.unterminated "Literal" 0)) ∧
    Encode lib [91, 49] = .error (.unterminated "Number" 1) ∧
    (∀ s : List Nat, (∀ c ∈ s, c ≠ 34 ∧ c ≠ 0) →
      Encode lib (34 :: s) = .error (.unterminated "String" 0)) := by
  refine ⟨?_, ?_, rfl, ?_⟩
  · intro json st top rest hr hi hop hn
    obtain ⟨name, hname⟩ := opNames_get top.Typ
    refine ⟨name, hname, ?_⟩
    rw [Encode_of_reach hr, encRun_done hi, Result.andThen_ok]
    simp only [encodeFinish, hop, if_neg hn, hname]
  · intro w hw
    rw [Encode_eq, encodeInit,
      encRun_skip_spaces lib w [⟨opLITERAL, 0⟩] [] (by simp) w.length 0 (by simp)
        (fun j hj => by rw [Nat.zero_add]; exact hw _ (byteAt_mem hj)),
      encRun_done (by simp)]
    rfl
  · intro s hs
    have hd0 : (34 :: s).drop 0 = 34 :: s := rfl
    have h1 := drop_cons_info hd0
    rw [Encode_encRest]
    unfold encodeInit
    rw [encRest_step h1.1 (EncTrans.strOpen rfl h1.2.1),
      encRest_string rfl (x := s) (r := []) (by rw [h1.2.2, List.append_nil]) hs,
      encRest_done (by simp; omega)]
    rfl

/-- C11 (witness): on the text `[ ` the scan ends with a Literal context
started at 1 on top of an Array context. -/
theorem encode_unterminated_witness :
    ∃ name, opNames.get? opLITERAL.toNat = some name ∧
      Encode refLib [91, 32] = .error (.unterminated name 1) :=
  (encode_unterminated refLib).1 [91, 32] ⟨2, [⟨opLITERAL, 1⟩, ⟨opARRAY, 0⟩], [5]⟩
    ⟨opLITERAL, 1⟩ [⟨opARRAY, 0⟩]
    (Relation.ReflTransGen.tail (b := ⟨1, [⟨opLITERAL, 1⟩, ⟨opARRAY, 0⟩], [5]⟩)
      (Relation.ReflTransGen.single ⟨by decide, by decide⟩)
      ⟨by decide, by decide⟩)
    (by decide) rfl (by decide)

/-- C17: the stray closing bracket.  In a Literal context a byte that is
neither white space, `f`, `t`, `n`, `"`, `[`, `{`, `]`, `-` nor a digit fails
with "Unexpected character"; but a `]` whose parent context is not an Array
(or that has no parent) is skipped in silence: the iteration moves to the
next byte with the stack and the output unchanged.  So `Encode("]true")`
returns `[0x03]`, `Encode("]")` fails only at the end of the input, as
unterminated, and `{"a":]1}` is encoded to the bytes of `{"a":1}` whenever the
library parses `1`. -/
theorem encode_stray_bracket (lib : FloatLib) :
    (∀ (json : List Nat) (i : Nat) (top : operation) (rest : List operation) (out : List Nat),
      top.Typ = opLITERAL → ¬ isSpace (byteAt json i) →
      byteAt json i ∉ [102, 116, 110, 34, 91, 123, 93, 45] → ¬ isDigit (byteAt json i) →
      encodeStep lib json ⟨i, top :: rest, out⟩ = .error (.unexpectedChar (byteAt json i) i)) ∧
    (∀ (json : List Nat) (i : Nat) (top : operation) (rest : List operation) (out : List Nat),
      top.Typ = opLITERAL → byteAt json i = 93 →
      (∀ parent ∈ rest.head?, parent.Typ ≠ opARRAY) →
      encodeStep lib json ⟨i, top :: rest, out⟩ = .ok ⟨i + 1, top :: rest, out⟩) ∧
    Encode lib [93, 116, 114, 117, 101] = .ok [0x03] ∧
    Encode lib [93] = .error (.unterminated "Literal" 0) ∧
    (∀ bits, lib.parseFloat [49] = some bits →
      Encode lib [123, 34, 97, 34, 58, 93, 49, 125] =
        .ok ([0x04, 97, 0x00, 0x06] ++ bigEndian64 bits ++ [0x00])) := by
  refine ⟨?_, ?_, rfl, rfl, ?_⟩
  · intro json i top rest out ht hs hc hd
    simp only [List.mem_cons, List.mem_singleton, not_or, List.not_mem_nil, or_false] at hc
    obtain ⟨h1, h2, h3, h4, h5, h6, h7, h8⟩ := hc
    simp only [encodeStep, ht, encodeLiteral, if_neg hs, if_neg h1, if_neg h2, if_neg h3,
      if_neg h4, if_neg h5, if_neg h6, if_neg h7]
    rw [if_neg (by rintro (h | h); exacts [h8 h, hd h])]
  · intro json i top rest out ht hb hp
    exact trans_encodeStep (EncTrans.strayBracket ht hb hp)
  · intro bits hp
    simp [Encode_eq, encRun_eq, encodeInit, encodeStep, encodeLiteral, encodeKey, encodeString,
      encodeKVSeperator, encodeNumber, encodeObject, encodeFinish, byteAt, slice, isSpace,
      isDigit, hp]

/-! ## The string vector -/

/-- C13: the string vector.  For every byte sequence `s` without `"` and
without NUL, `Encode('"' ++ s ++ '"')` is `[0x07] ++ s ++ [0x00]` and `Decode`
of that buffer is `'"' ++ s ++ '"'`. -/
theorem string_vector (lib : FloatLib) (spare s : List Nat)
    (hs : ∀ c ∈ s, c ≠ 34 ∧ c ≠ 0) :
    Encode lib (34 :: (s ++ [34])) = .ok (0x07 :: (s ++ [0x00])) ∧
    Decode lib spare (0x07 :: (s ++ [0x00])) = .ok (34 :: (s ++ [34])) := by
  have hg : (JVal.str s).Good lib := by simpa [JVal.Good, goodText] using hs
  constructor
  · simpa [JVal.render, JVal.binary] using Encode_render lib (.str s) hg
  · simpa [JVal.render, JVal.binary] using Decode_binary lib spare (.str s) hg

/-- C13 (witness): the text `"abc"`. -/
theorem string_vector_witness :
    Encode refLib [34, 97, 98, 99, 34] = .ok [0x07, 97, 98, 99, 0x00] ∧
    Decode refLib [] [0x07, 97, 98, 99, 0x00] = .ok [34, 97, 98, 99, 34] :=
  string_vector refLib [] [97, 98, 99] (by decide)

/-! ## Round trip without numbers -/

mutual
/-- A value without numbers is a good value, whatever the library. -/
theorem numberFree_good (lib : FloatLib) : ∀ (v : JVal), v.NumberFree → v.Good lib
  | .null, _ => trivial
  | .jfalse, _ => trivial
  | .jtrue, _ => trivial
  | .num _, h => h.elim
  | .str _, h => h
  | .emptyArr, _ => trivial
  | .arr v rest, h => ⟨numberFree_good lib v h.1, numberFree_good_tail lib rest h.2⟩
  | .obj _ v rest, h =>
    ⟨h.1, h.2.1, numberFree_good lib v h.2.2.1, numberFree_good_members lib rest h.2.2.2⟩
/-- Elements without numbers are good. -/
theorem numberFree_good_tail (lib : FloatLib) : ∀ (t : JTail), t.NumberFree → t.Good lib
  | .nil, _ => trivial
  | .cons v rest, h => ⟨numberFree_good lib v h.1, numberFree_good_tail lib rest h.2⟩
/-- Members without numbers are good. -/
theorem numberFree_good_members (lib : FloatLib) :
    ∀ (m : JMembers), m.NumberFree → m.Good lib
  | .nil, _ => trivial
  | .cons _ v rest, h =>
    ⟨h.1, h.2.1, numberFree_good lib v h.2.2.1, numberFree_good_members lib rest h.2.2.2⟩
end

mutual
/-- The text of a value without numbers does not depend on the text of numbers. -/
theorem numberFree_render (f g : List Nat → List Nat) :
    ∀ (v : JVal), v.NumberFree → v.render f = v.render g
  | .null, _ => rfl
  | .jfalse, _ => rfl
  | .jtrue, _ => rfl
  | .num _, h => h.elim
  | .str _, _ => rfl
  | .emptyArr, _ => rfl
  | .arr v rest, h => by
    simp only [JVal.render, numberFree_render f g v h.1, numberFree_render_tail f g rest h.2]
  | .obj _ v rest, h => by
    simp only [JVal.render, numberFree_render f g v h.2.2.1,
      numberFree_render_members f g rest h.2.2.2]
/-- The text of elements without numbers. -/
theorem numberFree_render_tail (f g : List Nat → List Nat) :
    ∀ (t : JTail), t.NumberFree → t.render f = t.render g
  | .nil, _ => rfl
  | .cons v rest, h => by
    simp only [JTail.render, numberFree_render f g v h.1, numberFree_render_tail f g rest h.2]
/-- The text of members without numbers. -/
theorem numberFree_render_members (f g : List Nat → List Nat) :
    ∀ (m : JMembers), m.NumberFree → m.render f = m.render g
  | .nil, _ => rfl
  | .cons _ v rest, h => by
    simp only [JMembers.render, numberFree_render f g v h.2.2.1,
      numberFree_render_members f g rest h.2.2.2]
end

/-- C18: round trip without numbers.  For every value `v` built from booleans,
null, strings, arrays (possibly empty) and objects with at least one member
and non-empty keys, strings and keys without `"` and NUL, and `r` its compact
text (the same whatever the text of numbers is taken to be, as `v` has none):
`Encode(r)` succeeds, with the bytes `v.binary`, and `Decode` of these bytes
(whatever spare capacity the buffer has) succeeds and returns exactly `r`. -/
theorem number_free_round_trip (lib : FloatLib) (spare : List Nat) (v : JVal)
    (hv : v.NumberFree) (numText : List Nat → List Nat) :
    Encode lib (v.render numText) = .ok (v.binary lib) ∧
      Decode lib spare (v.binary lib) = .ok (v.render numText) := by
  have hg := numberFree_good lib v hv
  rw [numberFree_render numText id v hv]
  refine ⟨Encode_render lib v hg, ?_⟩
  rw [numberFree_render id (decodedNumber lib) v hv]
  exact Decode_binary lib spare v hg

/-- C18 (witness): the value `{"k":[true,"a",null,[]],"t":false}`. -/
theorem number_free_round_trip_witness :
    Encode refLib [123, 34, 107, 34, 58, 91, 116, 114, 117, 101, 44, 34, 97, 34, 44,
        110, 117, 108, 108, 44, 91, 93, 93, 44, 34, 116, 34, 58, 102, 97, 108, 115, 101, 125] =
      .ok [4, 107, 0, 5, 3, 7, 97, 0, 2, 5, 0, 0, 116, 0, 1, 0] ∧
    Decode refLib [] [4, 107, 0, 5, 3, 7, 97, 0, 2, 5, 0, 0, 116, 0, 1, 0] =
      .ok [123, 34, 107, 34, 58, 91, 116, 114, 117, 101, 44, 34, 97, 34, 44,
        110, 117, 108, 108, 44, 91, 93, 93, 44, 34, 116, 34, 58, 102, 97, 108, 115, 101, 125] :=
  number_free_round_trip refLib []
    (.obj [107] (.arr .jtrue (.cons (.str [97]) (.cons .null (.cons .emptyArr .nil))))
      (.cons [116] .jfalse .nil))
    (by
      simp only [JVal.NumberFree, JTail.NumberFree, JMembers.NumberFree, goodText]
      decide)
    id

/-! ## `Encode` is total and stays within bounds -/

theorem slice_ne_none {s : List Nat} {lo hi : Nat} (h1 : lo ≤ hi) (h2 : hi ≤ s.length) :
    slice s lo hi ≠ none := by
  simp [slice, h1, h2]

theorem encodeInit_safe (json : List Nat) : EncSafe json encodeInit :=
  ⟨encodeInit_inv json, by simp [encodeInit]⟩

theorem safe_of_below {l : List operation} {i : Nat} (h : ∀ o ∈ l, Below o) :
    ∀ o ∈ l.head?, o.Typ = opSTRING ∨ o.Typ = opNUMBER → o.StartIndex < i := by
  intro o ho ht
  cases l with
  | nil => simp at ho
  | cons a t =>
    simp only [List.head?_cons, Option.mem_def, Option.some.injEq] at ho
    subst ho
    have hb := h a (by simp)
    unfold Below at hb
    rcases hb with hb | hb | hb <;> rcases ht with ht | ht <;> rw [hb] at ht <;> cases ht

theorem EncTrans.safe {lib : FloatLib} {json : List Nat} {st st2 : EncState}
    (h : EncTrans lib json st st2) (hi : st.i < json.length) (hv : EncSafe json st) :
    EncSafe json st2 := by
  refine ⟨h.inv hi hv.1, ?_⟩
  obtain ⟨⟨_, h2, _⟩, h3⟩ := hv
  cases h <;> simp only [List.tail_cons, List.tail_nil] at h2 <;>
    first
      | exact safe_of_below h2
      | exact safe_of_below (fun o ho => h2 o (List.mem_cons_of_mem _ ho))
      | (intro o ho hn
         simp only [List.head?_cons, List.head?_nil, Option.mem_def, Option.some.injEq,
           reduceCtorEq] at ho
         subst ho
         simp_all
         done)
      | (intro o ho hn
         simp only [List.head?_cons, List.head?_nil, Option.mem_def, Option.some.injEq,
           reduceCtorEq] at ho
         subst ho
         have := h3 _ rfl hn
         simp only at this ⊢
         omega)

theorem EncReach.stays_safe {lib : FloatLib} {json : List Nat} {st : EncState}
    (h : EncReach lib json st) : EncSafe json st := by
  induction h with
  | refl => exact encodeInit_safe json
  | tail _ hbc ih => exact (encodeStep_trans hbc.2).safe hbc.1 ih

/-- In a safe state an iteration of the loop takes no slice out of bounds. -/
theorem encodeStep_safe {lib : FloatLib} {json : List Nat} {st : EncState}
    (hv : EncSafe json st) (hi : st.i < json.length) : encodeStep lib json st ≠ .panic := by
  obtain ⟨i, op, out⟩ := st
  cases op with
  | nil =>
    unfold encodeStep
    simp only
    split <;> simp
  | cons top rest =>
    have hs := hv.2 top rfl
    simp only at hs hi
    unfold encodeStep
    simp only
    split
    · unfold encodeLiteral encodeKeyword
      simp only
      repeat' split
      all_goals first
        | simp; done
        | (exfalso
           rename_i hsl
           revert hsl
           refine slice_ne_none (by omega) ?_
           omega)
    · rename_i ht
      have := hs (.inl ht)
      unfold encodeString
      simp only
      repeat' split
      all_goals first
        | simp; done
        | (exfalso
           rename_i hsl
           exact slice_ne_none (by omega) (by omega) hsl)
    · rename_i ht
      have := hs (.inr ht)
      unfold encodeNumber
      simp only
      repeat' split
      all_goals first
        | simp; done
        | (exfalso
           rename_i hsl
           exact slice_ne_none (by omega) (by omega) hsl)
    · unfold encodeArray
      simp only
      repeat' split
      all_goals simp
    · unfold encodeKey
      simp only
      repeat' split
      all_goals simp
    · unfold encodeKVSeperator
      simp only
      repeat' split
      all_goals simp
    · unfold encodeObject
      simp only
      repeat' split
      all_goals simp

/-- In a safe state the code behind the loop takes no slice or index out of bounds. -/
theorem encodeFinish_safe {lib : FloatLib} {json : List Nat} {st : EncState}
    (hv : EncSafe json st) : encodeFinish lib json st ≠ .panic := by
  obtain ⟨i, op, out⟩ := st
  cases op with
  | nil => simp [encodeFinish]
  | cons top rest =>
    have hs := hv.2 top rfl
    have hle := hv.1.1
    simp only at hs hle
    obtain ⟨name, hname⟩ := opNames_get top.Typ
    unfold encodeFinish
    simp only
    by_cases hc : rest = [] ∧ top.Typ = opNUMBER
    · rw [if_pos hc]
      have := hs (.inr hc.2)
      cases hsl : slice json top.StartIndex json.length with
      | none => exact absurd hsl (slice_ne_none (by omega) (Nat.le_refl _))
      | some s =>
        simp only
        split <;> simp
    · rw [if_neg hc, hname]
      simp

/-- From a safe state the loop of `Encode` ends in a safe state or in an error. -/
theorem encRun_safe (lib : FloatLib) (json : List Nat) :
    ∀ (n : Nat) (st : EncState), encMeasure json st ≤ n → EncSafe json st →
      (∃ stf, encRun lib json st = .ok stf ∧ EncSafe json stf) ∨
        ∃ e, encRun lib json st = .error e := by
  intro n
  induction n with
  | zero =>
    intro st hm hv
    rw [encRun_eq, if_neg (by unfold encMeasure at hm; omega)]
    exact .inl ⟨st, rfl, hv⟩
  | succ n ih =>
    intro st hm hv
    rw [encRun_eq]
    by_cases hi : st.i < json.length
    · rw [if_pos hi]
      cases hs : encodeStep lib json st with
      | ok st2 =>
        have ht := encodeStep_trans hs
        have := ht.measure hi
        exact ih st2 (by omega) (ht.safe hi hv)
      | error e => exact .inr ⟨e, rfl⟩
      | panic => exact absurd hs (encodeStep_safe hv hi)
      | outOfFuel => exact absurd hs (encodeStep_fuel lib json st)
    · rw [if_neg hi]
      exact .inl ⟨st, rfl, hv⟩

/-- C20: `Encode` is total and stays within bounds.  On every input `Encode`
returns a buffer or an error: neither a slice out of bounds nor an exhausted
loop.  In every state the loop passes through, the iteration takes its slices
within bounds (no panic), and so does the code behind the loop; every
iteration lowers `2 * (len(json) - i) + len(op)`, so the loop ends; and an
iteration that leaves `i` in place closes a Number context on top of the
stack and is followed by an iteration that moves on, so a byte is read at
most twice. -/
theorem encode_total (lib : FloatLib) (json : List Nat) :
    ((∃ out, Encode lib json = .ok out) ∨ ∃ e, Encode lib json = .error e) ∧
    (∀ st, EncReach lib json st → st.i < json.length → encodeStep lib json st ≠ .panic) ∧
    (∀ st, EncReach lib json st → encodeFinish lib json st ≠ .panic) ∧
    (∀ a b, EncReach lib json a → EncNext lib json a b →
      encMeasure json b < encMeasure json a ∧ a.i ≤ b.i ∧ b.i ≤ a.i + 5) ∧
    (∀ a b, EncReach lib json a → EncNext lib json a b → b.i = a.i →
      (∃ o, a.op = o :: b.op ∧ o.Typ = opNUMBER) ∧
        ∀ c, EncNext lib json b c → b.i < c.i) := by
  refine ⟨?_, fun st hr hi => encodeStep_safe hr.stays_safe hi,
    fun st hr => encodeFinish_safe hr.stays_safe,
    ?_, ?_⟩
  · rw [Encode_eq]
    rcases encRun_safe lib json _ encodeInit (Nat.le_refl _) (encodeInit_safe json) with
      ⟨stf, hf, hv⟩ | ⟨e, he⟩
    · rw [hf, Result.andThen_ok]
      cases hfin : encodeFinish lib json stf with
      | ok out => exact .inl ⟨out, rfl⟩
      | error e => exact .inr ⟨e, rfl⟩
      | panic => exact absurd hfin (encodeFinish_safe hv)
      | outOfFuel =>
        exfalso
        revert hfin
        unfold encodeFinish
        repeat' split
        all_goals simp
    · rw [he]
      exact .inr ⟨e, rfl⟩
  · intro a b _ hab
    have ht := encodeStep_trans hab.2
    refine ⟨ht.measure hab.1, ht.mono, ?_⟩
    cases ht with
    | keyword kw tag _ hk _ _ =>
      rcases hk with ⟨rfl, _⟩ | ⟨rfl, _⟩ | ⟨rfl, _⟩ <;> simp [kwFalse, kwTrue, kwNull]
    | _ => simp only; omega
  · intro a b ha hab hi
    have ht := encodeStep_trans hab.2
    obtain ⟨o, rest, s, bits, hop, hty, _, _, _, hb⟩ := ht.same_index hi
    refine ⟨⟨o, by rw [hop, hb], hty⟩, ?_⟩
    intro c hbc
    have hc := encodeStep_trans hbc.2
    have hle := hc.mono
    rcases Nat.lt_or_ge b.i c.i with h | h
    · exact h
    · exfalso
      obtain ⟨o2, rest2, _, _, hop2, hty2, _⟩ := hc.same_index (by omega)
      have hbelow := ha.invariant.2.1 o2 (by
        rw [hop, List.tail_cons]
        have : b.op = rest := by rw [hb]
        rw [← this, hop2]
        simp)
      unfold Below at hbelow
      rw [hty2] at hbelow
      rcases hbelow with h | h | h <;> cases h

/-! ## A value as the member of an object with the empty key -/

/-- An iteration of the loop goes through unchanged when an Object context and
more lie under the stack and bytes lie before the output; on the empty stack
the white space is then skipped by the Object context. -/
theorem EncTrans.under {lib : FloatLib} {json : List Nat} {st st2 : EncState} (P : List Nat)
    (bo : operation) (brest : List operation) (hbo : bo.Typ = opOBJECT)
    (h : EncTrans lib json st st2) :
    EncTrans lib json ⟨st.i, st.op ++ bo :: brest, P ++ st.jsonb⟩
      ⟨st2.i, st2.op ++ bo :: brest, P ++ st2.jsonb⟩ := by
  cases h with
  | emptySpace h1 => exact .skipSpace (by rw [hbo]; decide) (by rw [hbo]; decide) h1
  | skipSpace h1 h2 h3 => exact .skipSpace h1 h2 h3
  | keyword kw tag h1 h2 h3 h4 =>
    simp only [← List.append_assoc]
    exact .keyword kw tag h1 h2 h3 h4
  | strOpen h1 h2 =>
    simp only [← List.append_assoc]
    exact .strOpen h1 h2
  | arrOpen h1 h2 =>
    simp only [← List.append_assoc]
    exact .arrOpen h1 h2
  | objOpen h1 h2 =>
    simp only [← List.append_assoc]
    exact .objOpen h1 h2
  | emptyArr h1 h2 h3 =>
    simp only [← List.append_assoc]
    exact .emptyArr h1 h2 h3
  | @strayBracket i o rest out h1 h2 h3 =>
    refine .strayBracket h1 h2 ?_
    cases rest with
    | nil =>
      intro parent hp
      have hp2 : some bo = some parent := hp
      simp only [Option.some.injEq] at hp2
      subst hp2
      rw [hbo]
      decide
    | cons a t => exact h3
  | numOpen h1 h2 =>
    simp only [← List.append_assoc]
    exact .numOpen h1 h2
  | strChar h1 h2 h3 => exact .strChar h1 h2 h3
  | strClose s h1 h2 h3 =>
    simp only [← List.append_assoc]
    exact .strClose s h1 h2 h3
  | numChar h1 h2 => exact .numChar h1 h2
  | numClose s bits h1 h2 h3 h4 =>
    simp only [← List.append_assoc]
    exact .numClose s bits h1 h2 h3 h4
  | arrClose h1 h2 =>
    simp only [← List.append_assoc]
    exact .arrClose h1 h2
  | arrNext h1 h2 => exact .arrNext h1 h2
  | keyClose h1 h2 =>
    simp only [← List.append_assoc]
    exact .keyClose h1 h2
  | keyOpen h1 h2 => exact .keyOpen h1 h2
  | kvColon h1 h2 => exact .kvColon h1 h2
  | objClose h1 h2 =>
    simp only [← List.append_assoc]
    exact .objClose h1 h2
  | objNext h1 h2 => exact .objNext h1 h2

/-- One iteration on the text `v` is matched by one iteration on
`pre ++ v ++ post`, under an Object context. -/
theorem EncTrans.frame {lib : FloatLib} {pre v : List Nat} (post : List Nat)
    {st st2 sh : EncState} (P : List Nat) (bo : operation) (brest : List operation)
    (hbo : bo.Typ = opOBJECT) (h : EncTrans lib v st st2) (hi : st.i < v.length)
    (hR : ShiftRel 0 pre.length st sh) :
    ∃ sh2, EncTrans lib (pre ++ v ++ post) ⟨sh.i, sh.op ++ bo :: brest, P ++ sh.jsonb⟩
        ⟨sh2.i, sh2.op ++ bo :: brest, P ++ sh2.jsonb⟩ ∧
      ShiftRel 0 pre.length st2 sh2 := by
  have h1 : EncTrans lib (v ++ post) st st2 :=
    EncTrans.stable (a := v) (b := []) post (by rwa [List.append_nil]) hi (h.bound hi)
  obtain ⟨sh2, ht, hR2⟩ := EncTrans.shift (a := []) (b := v ++ post) (w := pre) h1 hR
  rw [List.nil_append, ← List.append_assoc] at ht
  exact ⟨sh2, ht.under P bo brest hbo, hR2⟩

/-- The run on `v` is matched by a run on `pre ++ v ++ post`. -/
theorem frame_reach {lib : FloatLib} (pre : List Nat) {v : List Nat} (post P : List Nat) (bo : operation)
    (brest : List operation) (hbo : bo.Typ = opOBJECT) {sh0 : EncState}
    (h0 : ShiftRel 0 pre.length encodeInit sh0) {st : EncState} (hr : EncReach lib v st) :
    ∃ sh, ShiftRel 0 pre.length st sh ∧
      Relation.ReflTransGen (EncNext lib (pre ++ v ++ post))
        ⟨sh0.i, sh0.op ++ bo :: brest, P ++ sh0.jsonb⟩
        ⟨sh.i, sh.op ++ bo :: brest, P ++ sh.jsonb⟩ := by
  induction hr with
  | refl => exact ⟨sh0, h0, .refl⟩
  | tail _ hbc ih =>
    obtain ⟨sh, hR, hsteps⟩ := ih
    obtain ⟨sh2, ht, hR2⟩ := (encodeStep_trans hbc.2).frame post P bo brest hbo hbc.1 hR
    refine ⟨sh2, hR2, hsteps.tail ⟨?_, trans_encodeStep ht⟩⟩
    have := hR.1
    have := hbc.1
    simp only [List.length_append]
    omega

/-- The loop of `Encode` on `{"":` followed by anything: the empty key is
written as its terminator alone. -/
theorem encRest_empty_key (lib : FloatLib) (x : List Nat) :
    encRest lib (123 :: 34 :: 34 :: 58 :: x) encodeInit =
      encRest lib (123 :: 34 :: 34 :: 58 :: x)
        ⟨4, [⟨opLITERAL, 1⟩, ⟨opOBJECT, 0⟩], [0x04, 0x00]⟩ := by
  unfold encodeInit
  rw [encRest_step (t := ⟨1, [⟨opKEY, 1⟩, ⟨opOBJECT, 0⟩], [4]⟩) (by simp)
      (EncTrans.objOpen rfl (by simp [byteAt])),
    encRest_step (t := ⟨2, [⟨opSTRING, 1⟩, ⟨opKV_SEPERATOR, 1⟩, ⟨opOBJECT, 0⟩], [4]⟩) (by simp)
      (EncTrans.keyOpen rfl (by simp [byteAt])),
    encRest_step (t := ⟨3, [⟨opKV_SEPERATOR, 1⟩, ⟨opOBJECT, 0⟩], [4, 0]⟩) (by simp)
      (EncTrans.strClose [] rfl (by simp [byteAt]) (by simp [slice])),
    encRest_step (t := ⟨4, [⟨opLITERAL, 1⟩, ⟨opOBJECT, 0⟩], [4, 0]⟩) (by simp)
      (EncTrans.kvColon rfl (by simp [byteAt]))]

/-- C19: empty object keys do not survive.  For every text `v` that `Encode`
accepts, with output `out`, `Encode` of `{"":` followed by `v` and `}`
succeeds with `[0x04, 0x00] ++ out ++ [0x00]`; and `Decode` of that buffer
fails with "Exceesive bytes at 2": its Key context reads the terminator of the
empty key as the end of the object. -/
theorem empty_key_not_decoded (lib : FloatLib) (spare v out : List Nat)
    (h : Encode lib v = .ok out) :
    Encode lib ([123, 34, 34, 58] ++ v ++ [125]) = .ok ([0x04, 0x00] ++ out ++ [0x00]) ∧
    Decode lib spare ([0x04, 0x00] ++ out ++ [0x00]) = .error (.excessiveBytes 2) := by
  constructor
  · obtain ⟨stf, hreach, hfi, hfin⟩ := Encode_ok_final h
    have h0 : ShiftRel 0 ([123, 34, 34, 58] : List Nat).length encodeInit
        ⟨4, [⟨opLITERAL, 1⟩], []⟩ :=
      ⟨rfl, rfl, Nat.le_refl _, .cons (opRel_plain _ _ _ _ (by simp) (by simp)) .nil⟩
    obtain ⟨sh, hR, hsteps⟩ := frame_reach [123, 34, 34, 58] [125] [0x04, 0x00]
      ⟨opOBJECT, 0⟩ [] rfl h0 hreach
    obtain ⟨i2, op2, out2⟩ := sh
    obtain ⟨stfi, stfop, stfout⟩ := stf
    obtain ⟨hi2, hj, _, hF⟩ := hR
    simp only at hi2 hj hF hfi
    subst hi2 hj hfi
    have hlen : ([123, 34, 34, 58] ++ v ++ [125]).length = v.length + 4 + 1 := by simp
    have hb : byteAt ([123, 34, 34, 58] ++ v ++ [125]) (v.length + 4) = 125 := by
      have := byteAt_length_append ([123, 34, 34, 58] ++ v) 125 []
      rwa [List.length_append, Nat.add_comm] at this
    rw [Encode_encRest]
    have hpre := encRest_empty_key lib (v ++ [125])
    have hrun := encRun_of_steps hsteps
    simp only [List.length_cons, List.length_nil, List.cons_append, List.nil_append,
      List.append_nil] at hrun hpre hlen hb ⊢
    rw [hpre]
    unfold encRest
    rw [hrun]
    change encRest lib _ _ = _
    rcases encodeFinish_ok hfin with ⟨hop, hout⟩ | ⟨top, tok, bits, hop, hty, hsl, hp, hout⟩
    · simp only at hop hout
      subst hop hout
      cases hF
      show encRest lib (123 :: 34 :: 34 :: 58 :: (v ++ [125]))
        ⟨v.length + 4, [⟨opOBJECT, 0⟩], [4, 0] ++ out⟩ = _
      rw [encRest_step (by simp) (EncTrans.objClose rfl hb), encRest_done (by simp)]
      simp [encodeFinish]
    · simp only at hop hout
      subst hop hout
      obtain ⟨o2, rest2, hoo, hrest, rfl⟩ := List.forall₂_cons_left_iff.mp hF
      cases hrest
      have hs2 : o2.StartIndex = top.StartIndex + 4 := (hoo.2 (.inr hty)).1
      have hsl2 : slice (123 :: 34 :: 34 :: 58 :: (v ++ [125])) o2.StartIndex (v.length + 4) =
          some tok := by
        have hins : slice ([] ++ [123, 34, 34, 58] ++ (v ++ [125])) (top.StartIndex + 4)
            (v.length + 4) = slice ([] ++ (v ++ [125])) top.StartIndex v.length :=
          slice_insert [] [123, 34, 34, 58] (v ++ [125]) v.length (Nat.zero_le _)
        rw [hs2]
        refine hins.trans ?_
        rw [List.nil_append, slice_append_left _ (Nat.le_refl _)]
        exact hsl
      show encRest lib (123 :: 34 :: 34 :: 58 :: (v ++ [125]))
        ⟨v.length + 4, [o2, ⟨opOBJECT, 0⟩], [4, 0] ++ _⟩ = _
      rw [encRest_step (by simp)
          (EncTrans.numClose tok bits (by rw [hoo.1]; exact hty) (by rw [hb]; decide) hsl2 hp),
        encRest_step (by simp) (EncTrans.objClose rfl hb),
        encRest_done (by simp)]
      simp [encodeFinish]
  · simp [Decode_eq, decRun_eq, decodeInit, decodeStep, decodeLiteral, decodeKey, byteAt,
      trimSuffixComma]

/-- C19 (witness): the texts `true` and `{"":true}`. -/
theorem empty_key_not_decoded_witness :
    Encode refLib [116, 114, 117, 101] = .ok [3] ∧
    Encode refLib [123, 34, 34, 58, 116, 114, 117, 101, 125] = .ok [0x04, 0x00, 3, 0x00] ∧
    Decode refLib [] [0x04, 0x00, 3, 0x00] = .error (.excessiveBytes 2) :=
  ⟨by decide, empty_key_not_decoded refLib [] [116, 114, 117, 101] [3] (by decide)⟩

end Jsonb
